import Mathlib

/-!
Verification development for `BrewFile.py` (brew-file, v8.5.6).

This file shallowly embeds the manifest-file model of the program:

* `BrewInfo.read` (BrewFile.py lines 421-512): line-by-line parsing of a
  Brewfile in any of the three dialects (plain / bundle / command), with
  dialect auto-detection, ignore blocks, and the fall-through to raw
  commands;
* `BrewInfo.write` (lines 635-822): serialization of the entry state,
  including the tap-interleaved package sections;
* `BrewFile.install` (lines 1973-2095): the converge-to-declared loop;
* `BrewFile.cleanup` (lines 1809-1971): the removal plan;
* `BrewFile.clean_list` (lines 1617-1647): the dedup pass of initialize.

Strings are modelled as `List Char`; Python whitespace splitting, strip,
character replacement and the few regular expressions used by the source
are implemented below as executable functions.  External state (tap
contents on disk, process exit codes, `mas` availability) is passed in as
explicit oracle parameters.
-/

namespace Brewfile

/-- Strings are modelled as lists of characters. -/
abbrev Str := List Char

/-- Shorthand to turn a literal into the character-list model. -/
def str (s : String) : Str := s.toList

/-- Whitespace in the sense of Python's `str.split()` / `str.strip()`
(restricted to the characters that can occur on a manifest line once the
trailing newline is removed). -/
def isWs (c : Char) : Bool := c = ' ' ∨ c = '\t'

/-- Python `str.split()` helper: accumulate the current word (reversed). -/
def wordsAux : Str → Str → List Str
  | [], acc => if acc = [] then [] else [acc.reverse]
  | c :: cs, acc =>
      if isWs c then
        if acc = [] then wordsAux cs [] else acc.reverse :: wordsAux cs []
      else wordsAux cs (c :: acc)

/-- Python `str.split()`: split on whitespace runs, dropping empty parts. -/
def words (l : Str) : List Str := wordsAux l []

/-- Python `" ".join(ws)`. -/
def unwords : List Str → Str
  | [] => []
  | [w] => w
  | w :: ws => w ++ ' ' :: unwords ws

/-- Python `str.strip()` (whitespace on both ends). -/
def strip (l : Str) : Str :=
  ((l.dropWhile isWs).reverse.dropWhile isWs).reverse

/-- Python `str.strip(c)` for a single character `c`. -/
def stripChar (c : Char) (l : Str) : Str :=
  ((l.dropWhile (· = c)).reverse.dropWhile (· = c)).reverse

/-- Python `str.lower()` restricted to ASCII, as used for `Brewfile`
directive comparison and sort keys. -/
def lowerStr (l : Str) : Str := l.map Char.toLower

/-- Character cleaning performed by `read` before splitting a line:
`line.replace("'", "").replace('"', "").replace(",", " ").replace("[", "").replace("]", "")`. -/
def cleanChars (l : Str) : Str :=
  (l.filter (fun c => ¬ (c = '\'' ∨ c = '"' ∨ c = '[' ∨ c = ']'))).map
    (fun c => if c = ',' then ' ' else c)

/-- Python `c in line` (single-character containment). -/
def containsChar (c : Char) (l : Str) : Bool := l.contains c

/-- Python substring containment (`pat in line` / `line.find(pat) != -1`). -/
def containsSub (pat l : Str) : Bool :=
  (l.tails).any (fun t => pat.isPrefixOf t)

/-- Matcher for `re.match("# *KEYWORD", line)`: a hash, then spaces, then
the literal keyword as a prefix of the rest of the line. -/
def matchHashKw (kw : Str) (l : Str) : Bool :=
  match l with
  | [] => false
  | c :: rest => c = '#' && kw.isPrefixOf (rest.dropWhile (· = ' '))

/-- Matcher for `re.match(" *$", line)`: the line (newline already removed)
consists only of spaces. -/
def isBlankLine (l : Str) : Bool := l.all (· = ' ')

/-- Matcher for `re.match(" *#", line)`: spaces, then a hash. -/
def isCommentLine (l : Str) : Bool :=
  match l.dropWhile (· = ' ') with
  | '#' :: _ => true
  | _ => false

/-- Python `re.sub("^ *appstore *", "", line)`: remove leading spaces, the
literal `appstore`, and the following spaces; if the pattern does not
match, the line is returned unchanged. -/
def subAppstore (l : Str) : Str :=
  let l1 := l.dropWhile (· = ' ')
  if (str "appstore").isPrefixOf l1 then
    (l1.drop 8).dropWhile (· = ' ')
  else l

/-- Python `s.split(sep)` for a single separator character (keeps empty
parts, unlike whitespace `split()`). -/
def splitChar (c : Char) : Str → List Str
  | [] => [[]]
  | x :: xs =>
      if x = c then [] :: splitChar c xs
      else
        match splitChar c xs with
        | [] => [[x]]
        | w :: ws => (x :: w) :: ws

/-- Python `sep.join` for a single-character separator. -/
def joinChar (c : Char) : List Str → Str
  | [] => []
  | [w] => w
  | w :: ws => w ++ c :: joinChar c ws

/-- Python `s.split("/")[-1]`. -/
def lastSlash (l : Str) : Str := ((splitChar '/' l).getLast?).getD []

/-- Python `s.replace(".rb", "")` (remove every occurrence). -/
def removeRb : Str → Str
  | [] => []
  | c :: r =>
      if (str ".rb").isPrefixOf (c :: r) then removeRb (r.drop 2)
      else c :: removeRb r
termination_by l => l.length
decreasing_by
  · simp only [List.length_cons, List.length_drop]; omega
  · simp only [List.length_cons]; omega

/-- Python `s.isdigit()`: nonempty and all digits. -/
def isDigitStr (l : Str) : Bool := l ≠ [] ∧ l.all Char.isDigit

/-- Core of the version regex `.*\(\d+\.\d+.*\)$`: scan for an opening
parenthesis followed by one or more digits, a dot, and a further digit. -/
def findVerPat : Str → Bool
  | [] => false
  | '(' :: r =>
      (let ds := r.takeWhile Char.isDigit
       decide (ds ≠ []) &&
         (match r.drop ds.length with
          | '.' :: c :: _ => c.isDigit
          | _ => false)) || findVerPat r
  | _ :: r => findVerPat r

/-- Matcher for `re.match(r".*\(\d+\.\d+.*\)$", s)`: the string ends with a
closing parenthesis and contains, before it, `(` followed by digits, a
dot, and a digit. -/
def matchVer (l : Str) : Bool :=
  match l.getLast? with
  | some ')' => findVerPat l.dropLast
  | _ => false

/-- Python `' '.join(package.split(' ')[:-1])`: drop the last
single-space-separated field. -/
def dropLastSpaceField (l : Str) : Str :=
  joinChar ' ' (splitChar ' ' l).dropLast

/-- Lexicographic (code-point) order on strings, as used by Python's
`list.sort()` on `str`. -/
def lexLe : Str → Str → Bool
  | [], _ => true
  | _ :: _, [] => false
  | a :: as, b :: bs => if a = b then lexLe as bs else decide (a < b)

/-- Stable insertion used to model Python's stable `list.sort()`: insert
`x` before the first element strictly greater than it. -/
def sIns (le : Str → Str → Bool) (x : Str) : List Str → List Str
  | [] => [x]
  | y :: ys => if le y x && ¬ le x y then y :: sIns le x ys else x :: y :: ys

/-- Stable sort modelling Python's `list.sort()` (a structurally recursive
insertion sort; Python's sort is also stable, so the results agree for a
total comparator). -/
def sSort (le : Str → Str → Bool) : List Str → List Str
  | [] => []
  | x :: xs => sIns le x (sSort le xs)

theorem mem_sIns {le x y l} : y ∈ sIns le x l ↔ y = x ∨ y ∈ l := by
  induction l with
  | nil => simp [sIns]
  | cons z zs ih =>
      unfold sIns
      split
      · simp only [List.mem_cons, ih]
        tauto
      · simp only [List.mem_cons]

theorem mem_sSort {le x l} : x ∈ sSort le l ↔ x ∈ l := by
  induction l with
  | nil => simp [sSort]
  | cons z zs ih => simp [sSort, mem_sIns, ih]

/-! ### Association lists

`brew_input_opt` / `brew_list_opt` are Python dicts from package name to
option string.  The source only assigns, looks up, deletes and iterates
them, so an association list with first-match lookup is a faithful model
(assignment replaces the value of an existing key, so keys stay unique
whenever the dict was built by assignment). -/

/-- Dict lookup (`d[k]`, as an `Option`). -/
def lookupA (ps : List (Str × Str)) (k : Str) : Option Str :=
  match ps with
  | [] => none
  | (k', v) :: rest => if k' = k then some v else lookupA rest k

/-- Dict assignment `d[k] = v`: replace the value of an existing key, else
append the binding. -/
def setA (ps : List (Str × Str)) (k v : Str) : List (Str × Str) :=
  match ps with
  | [] => [(k, v)]
  | (k', v') :: rest =>
      if k' = k then (k', v) :: rest else (k', v') :: setA rest k v

/-- Dict deletion `del d[k]` (removes the first binding of `k`). -/
def delA (ps : List (Str × Str)) (k : Str) : List (Str × Str) :=
  match ps with
  | [] => []
  | (k', v') :: rest => if k' = k then rest else (k', v') :: delA rest k

/-- Dict update `d.update(e)` (fold of assignments). -/
def updateA (ps qs : List (Str × Str)) : List (Str × Str) :=
  qs.foldl (fun acc kv => setA acc kv.1 kv.2) ps

/-! ### The `BrewInfo` state and the dialect flag -/

/-- The process-wide dialect flag `helper.opt["form"]`. -/
inductive Form where
  | fnone | ffile | brewdler | bundle | command | cmd
deriving DecidableEq, Repr

/-- Dialect auto-detection is sticky: the flag is only written while it is
still `none`. -/
def setForm (f new : Form) : Form := if f = Form.fnone then new else f

/-- Bundle-family forms (`["brewdler", "bundle"]` in the source). -/
def Form.isBundle (f : Form) : Bool := f = Form.brewdler ∨ f = Form.bundle

/-- Command-family forms (`["command", "cmd"]` in the source). -/
def Form.isCmd (f : Form) : Bool := f = Form.command ∨ f = Form.cmd

/-- State of one `BrewInfo` object: the `*_input` fields hold the parsed
(declared) view, the `*_list` fields the live working view filled either
from the inputs (`input_to_list`) or from the actual-state probe
(`get_list`). -/
structure BrewSt where
  brew_input_opt : List (Str × Str) := []
  brew_input : List Str := []
  tap_input : List Str := []
  cask_input : List Str := []
  appstore_input : List Str := []
  main_input : List Str := []
  file_input : List Str := []
  before_input : List Str := []
  after_input : List Str := []
  cmd_input : List Str := []
  brew_list_opt : List (Str × Str) := []
  brew_list : List Str := []
  brew_full_list : List Str := []
  tap_list : List Str := []
  cask_list : List Str := []
  appstore_list : List Str := []
  main_list : List Str := []
  file_list : List Str := []
  cask_nocask_list : List Str := []
deriving DecidableEq, Repr

/-- The all-empty state (a fresh `BrewInfo`). -/
def emptyBrew : BrewSt := {}

/-- `BrewInfo.clear_input`. -/
def clear_input (st : BrewSt) : BrewSt :=
  { st with brew_input_opt := [], brew_input := [], tap_input := [],
            cask_input := [], appstore_input := [], main_input := [],
            file_input := [], before_input := [], after_input := [],
            cmd_input := [] }

/-- `BrewInfo.clear_list`. -/
def clear_list (st : BrewSt) : BrewSt :=
  { st with brew_list_opt := [], brew_list := [], brew_full_list := [],
            tap_list := [], cask_list := [], cask_nocask_list := [],
            appstore_list := [], main_list := [], file_list := [] }

/-- `BrewInfo.input_to_list`: reset the list view from the input view. -/
def input_to_list (st : BrewSt) : BrewSt :=
  let c := clear_list st
  { c with brew_list := c.brew_input, brew_list_opt := c.brew_input_opt,
           tap_list := c.tap_input, cask_list := c.cask_input,
           appstore_list := c.appstore_input, main_list := c.main_input,
           file_list := c.file_input }

/-- Oracles for the filesystem lookups `get_tap_packs` / `get_tap_casks`
(listing a tap's local formula and cask files). -/
structure TapOracle where
  packs : Str → List Str
  casks : Str → List Str

/-- Parsing context: the document state, the process-wide dialect flag and
the local `is_ignore` flag of the current `read` call. -/
structure RCtx where
  st : BrewSt
  form : Form
  ign : Bool
deriving DecidableEq, Repr

/-- The effect of one directive line on the input state: which list(s) the
dispatch chain of `BrewInfo.read` appends to.  The `tapallE` constructor
carries the oracle answers for the referenced tap. -/
inductive Eff where
  | brewE (p opt : Str)
  | tapE (p : Str)
  | tapallE (p : Str) (packs casks : List Str)
  | caskE (p : Str)
  | masE (entry : Str)
  | appstoreE (entry : Str)
  | mainE (p : Str)
  | fileE (p : Str)
  | beforeE (c : Str)
  | afterE (c : Str)
  | rawE (c : Str)
deriving DecidableEq, Repr

/-- Application of a parse effect to the input state (the `append`s of the
dispatch chain, lines 479-512). -/
def applyEff (st : BrewSt) : Eff → BrewSt
  | .brewE p opt =>
      { st with brew_input := st.brew_input ++ [p],
                brew_input_opt := setA st.brew_input_opt p opt }
  | .tapE p => { st with tap_input := st.tap_input ++ [p] }
  | .tapallE p packs casks =>
      { st with tap_input := st.tap_input ++ [p],
                brew_input := st.brew_input ++ packs,
                brew_input_opt :=
                  packs.foldl (fun acc tp => setA acc tp []) st.brew_input_opt,
                cask_input := st.cask_input ++ casks }
  | .caskE p => { st with cask_input := st.cask_input ++ [p] }
  | .masE e => { st with appstore_input := st.appstore_input ++ [e] }
  | .appstoreE e => { st with appstore_input := st.appstore_input ++ [e] }
  | .mainE p => { st with main_input := st.main_input ++ [p],
                          file_input := st.file_input ++ [p] }
  | .fileE p => { st with file_input := st.file_input ++ [p] }
  | .beforeE c => { st with before_input := st.before_input ++ [c] }
  | .afterE c => { st with after_input := st.after_input ++ [c] }
  | .rawE c => { st with cmd_input := st.cmd_input ++ [c] }

/-- Cleaned token list of a line (`args` before the pops). -/
def cArgs (line : Str) : List Str := words (cleanChars line)

/-- Condition of the first dialect-normalization pop (line 450):
`len(args) > 2 and p in ["tap", "cask"]`. -/
def pop1b (a : List Str) : Bool :=
  decide (2 < a.length ∧ ((a.get? 1).getD [] = str "tap" ∨ (a.get? 1).getD [] = str "cask"))

/-- Argument list after the first pop (`args.pop(0)`). -/
def args1of (a : List Str) : List Str := if pop1b a then a.drop 1 else a

/-- Condition of the second dialect-normalization pop (line 456):
`len(args) > 2 and cmd in ["brew", "cask"] and p == "install"`. -/
def pop2b (a1 : List Str) : Bool :=
  decide (2 < a1.length ∧
    ((a1.get? 0).getD [] = str "brew" ∨ (a1.get? 0).getD [] = str "cask") ∧
    (a1.get? 1).getD [] = str "install")

/-- Argument list after the second pop (`args.pop(1)`). -/
def args2of (a1 : List Str) : List Str :=
  if pop2b a1 then a1.take 1 ++ a1.drop 2 else a1

/-- The argument list the dispatch chain sees: cleaned tokens after both
pops. -/
def poppedArgs (line : Str) : List Str := args2of (args1of (cArgs line))

/-- The directive token the dispatch chain tests (`cmd`). -/
def dispatchCmd (line : Str) : Str := ((poppedArgs line).get? 0).getD []

/-- Directive tokens with a dedicated dispatch branch; anything else falls
through to `cmd_input` (the `raw_command` domain). -/
def recognizedCmd (c : Str) : Prop :=
  c = str "brew" ∨ c = str "install" ∨ c = str "tap" ∨ c = str "tapall" ∨
  c = str "cask" ∨ c = str "mas" ∨ c = str "appstore" ∨ c = str "main" ∨
  c = str "file" ∨ lowerStr c = str "brewfile" ∨ c = str "before" ∨
  c = str "after"

instance (c : Str) : Decidable (recognizedCmd c) := by
  unfold recognizedCmd; infer_instance

/-- The parsing core of one iteration of the line loop of `BrewInfo.read`
(lines 446-512), for a line that is not skipped: token cleaning, the two
dialect-normalization pops, option extraction, dialect detection and the
dispatch on the first token.  Returns the updated dialect flag and the
effect on the state, or `none` where the Python raises `IndexError`: when
the cleaned token list is empty (`cmd = args[0]`), and on a comma-bearing
`mas` line with fewer than four whitespace-separated words
(`line.split()[1]` / `line.split()[3]`). -/
def parseLine (orc : TapOracle) (form0 : Form) (line : Str) : Option (Form × Eff) :=
  if cArgs line = [] then none
  else
    let args2 := poppedArgs line
    let form1 := if pop1b (cArgs line) then setForm form0 Form.cmd else form0
    let form2 := if pop2b (args1of (cArgs line)) then setForm form1 Form.cmd else form1
    let cmd := dispatchCmd line
    let p := (args2.get? 1).getD []
    let isArgsKw := (args2.get? 2).getD [] = str "args:"
    let opt : Str :=
      if 2 < args2.length then
        if isArgsKw then
          ' ' :: strip (unwords ((args2.drop 3).map (fun x => str "--" ++ x)))
        else ' ' :: strip (unwords (args2.drop 2))
      else []
    let form3 :=
      if 2 < args2.length ∧ isArgsKw then setForm form2 Form.bundle else form2
    let excmd := strip (unwords ((words line).drop 1))
    let form4 :=
      if form3 = Form.fnone ∧
          (cmd = str "brew" ∨ cmd = str "tap" ∨ cmd = str "tapall") ∧
          (containsChar '"' line ∨ containsChar '\'' line) then Form.bundle
      else form3
    if cmd = str "brew" ∨ cmd = str "install" then some (form4, .brewE p opt)
    else if cmd = str "tap" then some (form4, .tapE p)
    else if cmd = str "tapall" then
      some (form4, .tapallE p (orc.packs p) (orc.casks p))
    else if cmd = str "cask" then some (form4, .caskE p)
    else if cmd = str "mas" ∧ containsChar ',' line then
      match (words line).get? 1, (words line).get? 3 with
      | some w1, some w3 =>
          let pm := stripChar '"' (stripChar '\'' (stripChar ',' w1))
          some (setForm form4 Form.bundle, .masE (w3 ++ ' ' :: pm))
      | _, _ => none
    else if cmd = str "appstore" ∨ cmd = str "mas" then
      some (form4, .appstoreE (stripChar '"' (stripChar '\'' (strip (subAppstore line)))))
    else if cmd = str "main" then some (form4, .mainE p)
    else if cmd = str "file" ∨ lowerStr cmd = str "brewfile" then
      some (form4, .fileE p)
    else if cmd = str "before" then some (form4, .beforeE excmd)
    else if cmd = str "after" then some (form4, .afterE excmd)
    else some (form4, .rawE (strip line))

/-- The ignore flag after the two marker checks at the top of the line
loop (lines 437-440).  The source clears the flag on an end marker and
then sets it on a begin marker; since no line matches both markers
(`ignore_markers_disjoint`), checking the begin marker first is the same
update. -/
def ignAfter (ign : Bool) (line : Str) : Bool :=
  if matchHashKw (str "BREWFILE_IGNORE") line then true
  else if matchHashKw (str "BREWFILE_ENDIGNORE") line then false
  else ign

/-- One iteration of the line loop of `BrewInfo.read` (lines 436-512):
ignore-marker handling, blank/comment skipping, then the parsing core. -/
def readLine (orc : TapOracle) (ctx : RCtx) (line : Str) : Option RCtx :=
  let ign1 := ignAfter ctx.ign line
  if ign1 then some { ctx with ign := ign1 }
  else if isBlankLine line ∨ isCommentLine line then some { ctx with ign := ign1 }
  else
    (parseLine orc ctx.form line).map
      (fun fe => { st := applyEff ctx.st fe.2, form := fe.1, ign := ign1 })

/-- Folding `readLine` over a list of lines. -/
def readFrom (orc : TapOracle) (ctx : RCtx) (ls : List Str) : Option RCtx :=
  ls.foldlM (readLine orc) ctx

/-- `BrewInfo.read` (lines 421-512).  `content` is the file contents, one
entry per line without the trailing newline, or `none` when opening the
file raises `IOError`.  The result pairs the final context with the value
returned by the Python function (`False` when the file was absent).
The model returns `none` exactly where the Python raises. -/
def readBF (orc : TapOracle) (form0 : Form) (st0 : BrewSt)
    (content : Option (List Str)) : Option (RCtx × Bool) :=
  let cleared := clear_input st0
  match content with
  | none => some ({ st := cleared, form := form0, ign := false }, false)
  | some ls =>
      (readFrom orc
        { st := { cleared with tap_input := cleared.tap_input ++ [str "direct"] },
          form := form0, ign := false } ls).map (fun c => (c, true))

/-- Reading a document from scratch (fresh `BrewInfo`, file present). -/
def readLines (orc : TapOracle) (form0 : Form) (ls : List Str) : Option RCtx :=
  readFrom orc
    { st := { emptyBrew with tap_input := [str "direct"] }, form := form0, ign := false }
    ls

/-! ### The `BrewFile.install` model (lines 1973-2095)

The converge-to-declared operation.  The external command runner
`BrewHelper.proc` is modelled by `helperProc`: with `exit_on_err = True`
(the default, used by every `self.proc` call in `install`) a non-zero
exit code makes the source call `sys.exit`, modelled as `none`; the rest
of the run is then skipped (`aborted`). -/

/-- One action attempted by the install run, carrying the payload of the
command the source builds. -/
inductive IAct where
  | runBefore (c : Str)
  | tapA (t : Str)
  | caskInstall (p : Str)
  | brewCmd (cmd : Str) (p : Str) (opt : Str)
  | runLink (cmd : List Str)
  | linkapps
  | masPurchase (pid : Str)
  | masOpen (pid : Str)
  | runCmd (c : Str)
  | runAfter (c : Str)
deriving DecidableEq, Repr

/-- External-process oracle: exit code and captured output lines per
command string. -/
structure ProcOracle where
  ret : Str → Int
  out : Str → List Str
  expand : Str → Str
  getOption : Str → Str

/-- `BrewHelper.proc` with `exit_on_err` (lines 176-220): on a non-zero
exit code with `exit_on_err` set, the helper prints an error and calls
`sys.exit(ret)` — it never returns; modelled as `none`. -/
def helperProc (exit_on_err : Bool) (por : ProcOracle) (cmdStr : Str) :
    Option (Int × List Str) :=
  let ret := por.ret cmdStr
  if exit_on_err ∧ ret ≠ 0 then none else some (ret, por.out cmdStr)

theorem helperProc_true_ret_zero {por cmdStr r0 lines}
    (h : helperProc true por cmdStr = some (r0, lines)) : r0 = 0 := by
  simp only [helperProc] at h
  split at h
  · cases h
  · next hc =>
      push_neg at hc
      cases h
      exact hc trivial

/-- Configuration of the install run. -/
structure ICfg where
  caskonly : Bool
  appstore : Nat
  isMac : Bool
  link : Bool
  masAvail : Bool
  masCmd : Str
  masCmdInstalled : Bool
  reattachCmdInstalled : Bool

/-- The merged `self.get(...)` views consumed by `install`. -/
structure IEnv where
  before_input : List Str := []
  after_input : List Str := []
  cmd_input : List Str := []
  tap_input : List Str := []
  tap_list : List Str := []
  cask_input : List Str := []
  cask_list : List Str := []
  brew_input : List Str := []
  brew_input_opt : List (Str × Str) := []
  brew_full_list : List Str := []
  brew_list : List Str := []
  brew_list_opt : List (Str × Str) := []
  appstore_input : List Str := []
  appstore_list : List Str := []

/-- Accumulated result of an install run.  `aborted` records that a
`sys.exit` happened inside `helperProc` (nothing after it runs). -/
structure InstallRun where
  actions : List IAct := []
  warnings : List Str := []
  aborted : Bool := false
deriving DecidableEq, Repr

/-- Run one command through `helperProc true` and record the attempt. -/
def runProc (por : ProcOracle) (cmdStr : Str) (act : IAct) (r : InstallRun) :
    InstallRun :=
  match helperProc true por cmdStr with
  | none => { r with actions := r.actions ++ [act], aborted := true }
  | some _ => { r with actions := r.actions ++ [act] }

/-- A section that runs one `self.proc(c)` per entry (before-hooks, raw
commands, after-hooks). -/
def runEach (por : ProcOracle) (mk : Str → IAct) (cs : List Str)
    (r : InstallRun) : InstallRun :=
  cs.foldl (fun r c => if r.aborted then r else runProc por c (mk c) r) r

/-- The tap loop of `install` (lines 1989-1992). -/
def installTapLoop (por : ProcOracle) (env : IEnv) (r : InstallRun) : InstallRun :=
  env.tap_input.foldl (fun r p =>
    if r.aborted then r
    else if p ∈ env.tap_list ∨ p = str "direct" then r
    else runProc por (str "brew tap " ++ p) (.tapA p) r) r

/-- The cask loop of `install` (lines 1995-1999). -/
def installCaskLoop (cfg : ICfg) (por : ProcOracle) (env : IEnv)
    (r : InstallRun) : InstallRun :=
  if cfg.isMac then
    env.cask_input.foldl (fun r p =>
      if r.aborted then r
      else if p ∈ env.cask_list then r
      else runProc por (str "brew install --cask --force " ++ p) (.caskInstall p) r) r
  else r

/-- Python `sorted(s.split())`. -/
def sortedTokens (s : Str) : List Str := sSort lexLe (words s)

/-- The skip / install / reinstall decision of the brew loop
(lines 2004-2012).  `self.get("brew_input_opt")[p]` raises `KeyError`
when `p` has no recorded declared option; the model uses the empty
default, which holds for every state `read` produces (the parser records
an option string for every package it declares). -/
def brewDecision (fullList : List Str) (inOpt listOpt : List (Str × Str))
    (p : Str) : Option Str :=
  if p ∈ fullList then
    if lookupA listOpt p = none ∨
        sortedTokens ((lookupA inOpt p).getD []) =
          sortedTokens ((lookupA listOpt p).getD []) then none
    else some (str "reinstall")
  else some (str "install")

/-- The post-install output scan of the brew loop (lines 2021-2031):
replay generated `ln -s` steps and `brew linkapps` when linking is
enabled. -/
def linkScan (cfg : ICfg) (por : ProcOracle) (lines : List Str)
    (r : InstallRun) : InstallRun :=
  lines.foldl (fun r line =>
    if r.aborted then r
    else
      let r1 :=
        if containsSub (str "ln -s") line ∧ cfg.link then
          let cmdWords := (words line).map por.expand
          runProc por (unwords cmdWords) (.runLink cmdWords) r
        else r
      if r1.aborted then r1
      else if containsSub (str "brew linkapps") line ∧ cfg.link then
        runProc por (str "brew linkapps") .linkapps r1
      else r1) r

/-- State threaded through the brew loop: the run so far, the (mutable)
declared-options dict, and the re-init flag. -/
structure BrewLoopSt where
  r : InstallRun
  inOpt : List (Str × Str)
  reinit : Bool
deriving DecidableEq, Repr

/-- One iteration of the brew loop of `install` (lines 2004-2037). -/
def brewLoopStep (cfg : ICfg) (por : ProcOracle) (env : IEnv)
    (st : BrewLoopSt) (p : Str) : BrewLoopSt :=
  if st.r.aborted then st
  else
    match brewDecision env.brew_full_list st.inOpt env.brew_list_opt p with
    | none => st
    | some cmd =>
      let opt := (lookupA st.inOpt p).getD []
      let cmdStr := str "brew " ++ cmd ++ str " " ++ p ++ opt
      let act := IAct.brewCmd cmd p opt
      match helperProc true por cmdStr with
      | none =>
          { st with r := { st.r with
                             actions := st.r.actions ++ [act],
                             aborted := true } }
      | some rl =>
          let r1 := { st.r with actions := st.r.actions ++ [act] }
          if rl.1 ≠ 0 then
            { st with r := { r1 with
                               warnings := r1.warnings ++
                                 [str "Can not install " ++ p] } }
          else
            let r2 := linkScan cfg por rl.2 r1
            if r2.aborted then { st with r := r2 }
            else if p ∈ env.brew_list ∧
                (lookupA st.inOpt p).getD [] ≠ (lookupA env.brew_list_opt p).getD [] then
              { r := r2, inOpt := setA st.inOpt p (por.getOption p), reinit := true }
            else { st with r := r2 }

/-- The brew loop of `install` (lines 2002-2037). -/
def installBrewLoop (cfg : ICfg) (por : ProcOracle) (env : IEnv)
    (st : BrewLoopSt) : BrewLoopSt :=
  if ¬ cfg.caskonly then
    env.brew_input.foldl (brewLoopStep cfg por env) st
  else st

/-- Store-app identifier/name split used by the install matching
(lines 2044-2049): the numeric id is recognized only when it is all
digits and at least nine characters long.  On an empty entry the source
raises `IndexError` at `p.split()[0]`; the model's empty default stands
in for that unreachable case. -/
def appIdName9 (p : Str) : Str × Str :=
  let identifier := ((words p).headD [])
  if isDigitStr identifier ∧ 9 ≤ identifier.length then
    (identifier, unwords ((words p).drop 1))
  else ([], p)

/-- The store-app loop of `install` (lines 2040-2077).  Matching against
the actual list compares only the name parts (`package == l_package`);
the numeric id is used solely to build the purchase command. -/
def installAppstoreLoop (cfg : ICfg) (por : ProcOracle) (env : IEnv)
    (r : InstallRun) : InstallRun :=
  if cfg.isMac ∧ cfg.appstore ≠ 0 then
    env.appstore_input.foldl (fun r p =>
      if r.aborted then r
      else if p ∈ env.appstore_list then r
      else
        let idn := appIdName9 p
        let islist := env.appstore_list.any (fun pl => (appIdName9 pl).2 = idn.2)
        if islist then r
        else if idn.1 ≠ [] then
          if cfg.masAvail then
            runProc por (cfg.masCmd ++ str " purchase " ++ idn.1)
              (.masPurchase idn.1) r
          else
            runProc por
              (str "open -W 'macappstore://itunes.apple.com/app/id" ++ idn.1 ++ str "'")
              (.masOpen idn.1) r
        else
          { r with warnings := r.warnings ++
              [str "No id or wrong id information was given for AppStore App: " ++ idn.2] }) r
  else r

/-- `BrewFile.install` (lines 1973-2095): the full converge-to-declared
run.  The second component is the condition of the final
`initialize_write` re-serialization (line 2088). -/
def install (cfg : ICfg) (por : ProcOracle) (env : IEnv) : InstallRun × Bool :=
  let r1 := runEach por IAct.runBefore env.before_input {}
  let r2 := installTapLoop por env r1
  let r3 := installCaskLoop cfg por env r2
  let st4 := installBrewLoop cfg por env { r := r3, inOpt := env.brew_input_opt, reinit := false }
  let r5 := installAppstoreLoop cfg por env st4.r
  let r6 := runEach por IAct.runCmd env.cmd_input r5
  let r7 := runEach por IAct.runAfter env.after_input r6
  (r7, ¬ r7.aborted ∧ (cfg.masCmdInstalled ∨ cfg.reattachCmdInstalled ∨ st4.reinit))

/-! ### The `BrewFile.cleanup` model (lines 1809-1971)

The removal plan, in dry-run form: the ordered list of removal commands
the pass prints (the same commands are executed in order when dry-run is
off). -/

/-- Polymorphic association-list lookup (for the `brew info` dependency
map). -/
def lookupD (ps : List (Str × List Str)) (k : Str) : Option (List Str) :=
  match ps with
  | [] => none
  | (k', v) :: rest => if k' = k then some v else lookupD rest k

/-- One command of the cleanup plan, carrying the payload of the command
string the source builds. -/
inductive CAct where
  | appMasUninstall (pid : Str)
  | appRm (package : Str) (paths : List Str)
  | caskUninstall (p : Str)
  | brewUninstall (p : Str)
  | untap (t : Str)
  | brewCleanup
  | rmCache
deriving DecidableEq, Repr

/-- Configuration of the cleanup run. -/
structure CCfg where
  isMac : Bool
  appstore : Nat
  masAvail : Bool
  appdirlist : List Str
  isAppDir : Str → Bool
  cask_repo : Str

/-- `add_dependncies` (lines 1821-1829): depth-first closure of the
declared packages under the installed dependency map, appending each new
name before recursing into it.  The recursion is guarded by membership,
so its depth is bounded by the number of keys of `info`; `fuel` carries
that bound. -/
def addDeps (info : List (Str × List Str)) : Nat → List Str → Str → List Str
  | 0, acc, _ => acc
  | fuel + 1, acc, package =>
      ((lookupD info package).getD []).foldl (fun acc pac =>
        let p := lastSlash pac
        if lookupD info p = none then acc
        else if p ∈ acc then acc
        else addDeps info fuel (acc ++ [p]) p) acc

/-- The declared input augmented by the dependency closure
(lines 1830-1833): the loop iterates a snapshot of the merged input while
appending to the live list. -/
def closedBrewInput (info : List (Str × List Str)) (binput : List Str) : List Str :=
  binput.foldl (fun acc p =>
    if lookupD info p = none then acc
    else addDeps info (info.length + 1) acc p) binput

theorem foldl_mem_mono {f : List Str → Str → List Str}
    (hf : ∀ acc y {x}, x ∈ acc → x ∈ f acc y) :
    ∀ (l : List Str) (acc : List Str) {x}, x ∈ acc → x ∈ l.foldl f acc := by
  intro l
  induction l with
  | nil => intro acc x hx; exact hx
  | cons y ys ih => intro acc x hx; exact ih (f acc y) (hf acc y hx)

theorem addDeps_mono {info} : ∀ (fuel : Nat) (acc : List Str) (package : Str)
    {x}, x ∈ acc → x ∈ addDeps info fuel acc package := by
  intro fuel
  induction fuel with
  | zero => intro acc package x hx; exact hx
  | succ n ih =>
      intro acc package x hx
      unfold addDeps
      refine foldl_mem_mono ?_ _ acc hx
      intro acc' y x' hx'
      dsimp only
      split
      · exact hx'
      · split
        · exact hx'
        · exact ih _ _ (List.mem_append_left _ hx')

theorem closedBrewInput_mono {info binput x} (hx : x ∈ binput) :
    x ∈ closedBrewInput info binput := by
  unfold closedBrewInput
  refine foldl_mem_mono ?_ _ binput hx
  intro acc y x' hx'
  dsimp only
  split
  · exact hx'
  · exact addDeps_mono _ _ _ hx'

/-- Store-app identifier/name split used by the cleanup matching
(lines 1840-1847 and 1851-1858): the numeric id is recognized whenever it
is all digits, and a trailing parenthesized version suffix is stripped
from the name.  On an empty entry the source raises `IndexError` at
`p.split()[0]`; theorems assume nonempty entries. -/
def appIdName (p : Str) : Str × Str :=
  let identifier := (words p).headD []
  let idn :=
    if isDigitStr identifier then (identifier, unwords ((words p).drop 1))
    else (([] : Str), p)
  if matchVer idn.2 then (idn.1, dropLastSpaceField idn.2) else idn

/-- The declared-input match of the cleanup store-app loop
(lines 1849-1862): an actual entry is kept when some declared entry has
the same non-empty numeric id or the same (version-stripped) name. -/
def appstoreIsInput (inputs : List Str) (p : Str) : Bool :=
  let a := appIdName p
  inputs.any (fun pi =>
    let b := appIdName pi
    decide ((a.1 ≠ [] ∧ a.1 = b.1) ∨ a.2 = b.2))

/-- State threaded through the cleanup store-app loop. -/
structure CAppSt where
  plan : List CAct
  warnings : List Str
  appL : List Str
deriving DecidableEq, Repr

/-- The store-app section of `cleanup` (lines 1836-1895).  The
`uninstall = self.proc("type uninstall", ...)` result is a
`(ret, lines)` tuple, so the source's `if uninstall == 0:` comparisons
are always false: the `sudo uninstall` / `file:///` command forms are
dead code and the fallback is always `sudo rm -rf` over the matching
application directories. -/
def cleanupAppstore (cfg : CCfg) (env : IEnv) : CAppSt :=
  if cfg.appstore = 1 ∧ env.appstore_list ≠ [] then
    env.appstore_list.foldl (fun st p =>
      if appstoreIsInput env.appstore_input p then st
      else
        let idn := appIdName p
        if idn.1 ≠ [] ∧ cfg.masAvail then
          { st with
              plan := st.plan ++ [.appMasUninstall idn.1],
              appL := st.appL.erase p }
        else
          let paths := (cfg.appdirlist.filter
              (fun d => cfg.isAppDir (d ++ '/' :: idn.2 ++ str ".app"))).map
            (fun d => d ++ '/' :: idn.2 ++ str ".app")
          if paths = [] then
            { st with
                warnings := st.warnings ++
                  [str "Package " ++ idn.2 ++ str " was not found:nothing to do."],
                appL := st.appL.erase p }
          else
            { st with
                plan := st.plan ++ [.appRm idn.2 paths],
                appL := st.appL.erase p })
      { plan := [], warnings := [], appL := env.appstore_list }
  else { plan := [], warnings := [], appL := env.appstore_list }

/-- The cask section of `cleanup` (lines 1898-1908): uninstall every
actual cask that is not declared, removing it from the live list. -/
def cleanupCasks (cfg : CCfg) (env : IEnv) : List CAct × List Str :=
  if cfg.isMac ∧ env.cask_list ≠ [] then
    env.cask_list.foldl (fun st p =>
      if p ∈ env.cask_input then st
      else (st.1 ++ [.caskUninstall p], st.2.erase p))
      ([], env.cask_list)
  else ([], env.cask_list)

/-- The brew section of `cleanup` (lines 1915-1926): uninstall every
actual package not in the dependency-closed declared input. -/
def cleanupBrew (closed : List Str) (env : IEnv) : List CAct :=
  if env.brew_list ≠ [] then
    env.brew_list.filterMap (fun p =>
      if p ∈ closed then none else some (.brewUninstall p))
  else []

/-- The untap eligibility check of the tap section (lines 1934-1949): a
tap is kept while any of its local packages is in the (closed) declared
input, or — on a Mac — any of its local casks is declared. -/
def untapFlag (cfg : CCfg) (orc : TapOracle) (closed : List Str) (env : IEnv)
    (p : Str) : Bool :=
  decide ((∀ tp ∈ orc.packs p, tp ∉ closed) ∧
    (cfg.isMac = true → ∀ tc ∈ orc.casks p, tc ∉ env.cask_input))

/-- The tap section of `cleanup` (lines 1929-1954). -/
def cleanupTaps (cfg : CCfg) (orc : TapOracle) (closed : List Str) (env : IEnv)
    (tapL : List Str) : List CAct :=
  if tapL ≠ [] then
    tapL.filterMap (fun p =>
      if p ∈ env.tap_input then none
      else if untapFlag cfg orc closed env p then some (.untap p)
      else none)
  else []

/-- `BrewFile.cleanup` (lines 1809-1971): the ordered removal plan —
store apps, then casks, then packages, then taps, then the cache
cleanup.  After the cask section, the cask repository is dropped from the
tap list when any declared cask remains (lines 1911-1912). -/
def cleanup (cfg : CCfg) (orc : TapOracle) (info : List (Str × List Str))
    (env : IEnv) : List CAct × List Str :=
  let closed := closedBrewInput info env.brew_input
  let appSt := cleanupAppstore cfg env
  let casks := cleanupCasks cfg env
  let tapL :=
    if cfg.isMac ∧ casks.2 ≠ [] then env.tap_list.erase cfg.cask_repo
    else env.tap_list
  let plan :=
    appSt.plan ++ casks.1 ++ cleanupBrew closed env ++
    cleanupTaps cfg orc closed env tapL ++ [CAct.brewCleanup, CAct.rmCache]
  (plan, appSt.warnings)

/-! ### Basic lemmas about `readLine` -/

theorem ignore_markers_disjoint {line : Str}
    (h : matchHashKw (str "BREWFILE_ENDIGNORE") line = true) :
    matchHashKw (str "BREWFILE_IGNORE") line = false := by
  cases line with
  | nil => simp [matchHashKw] at h
  | cons c rest =>
      rw [matchHashKw, Bool.and_eq_true] at h
      obtain ⟨-, hp⟩ := h
      have hig : List.isPrefixOf (str "BREWFILE_IGNORE")
          (rest.dropWhile (fun x => decide (x = ' '))) = false := by
        by_contra hi
        rw [Bool.not_eq_false, List.isPrefixOf_iff_prefix] at hi
        rw [List.isPrefixOf_iff_prefix] at hp
        rcases List.prefix_or_prefix_of_prefix hp hi with hq | hq <;>
          · rw [← List.isPrefixOf_iff_prefix] at hq
            exact absurd hq (by decide)
      simp [matchHashKw, hig]

/-- Aux : every parse effect only appends to `tap_input`. -/
theorem applyEff_tap_mono {st : BrewSt} {e : Eff} {x : Str}
    (hx : x ∈ st.tap_input) : x ∈ (applyEff st e).tap_input := by
  cases e <;> simp [applyEff, hx]

/-- Aux : a tap membership survives one parsing step (`readLine` only ever
appends to `tap_input`). -/
theorem readLine_tap_mono {orc ctx line ctx'} (h : readLine orc ctx line = some ctx')
    {x : Str} (hx : x ∈ ctx.st.tap_input) : x ∈ ctx'.st.tap_input := by
  simp only [readLine] at h
  split at h
  · cases h; exact hx
  · split at h
    · cases h; exact hx
    · rcases Option.map_eq_some'.mp h with ⟨fe, _, hfe⟩
      cases hfe
      exact applyEff_tap_mono hx

theorem readFrom_tap_mono {orc ls} : ∀ {ctx ctx'},
    readFrom orc ctx ls = some ctx' →
    ∀ {x : Str}, x ∈ ctx.st.tap_input → x ∈ ctx'.st.tap_input := by
  induction ls with
  | nil => intro ctx ctx' h x hx; cases h; exact hx
  | cons l ls ih =>
      intro ctx ctx' h x hx
      rw [readFrom, List.foldlM_cons] at h
      rcases Option.bind_eq_some.mp h with ⟨c1, hc1, hrest⟩
      exact ih hrest (readLine_tap_mono hc1 hx)

/-! ### The `BrewInfo.write` model (lines 635-822)

The serialized output is modelled as the list of its lines (the source
builds one string; every append ends in `"\n"`, so a leading `"\n"` in an
appended chunk contributes one empty line element). -/

/-- Configuration consumed by `write` and the reconciler. -/
structure WCfg where
  form : Form
  caskonly : Bool
  appstore : Nat
  isMac : Bool
  cask_repo : Str

/-- Serialization prefix for before-hooks (`cmd_before`). -/
def cmdBefore (f : Form) : Str :=
  if f.isBundle then str "#before " else if f.isCmd then [] else str "before "

/-- Serialization prefix for after-hooks (`cmd_after`). -/
def cmdAfter (f : Form) : Str :=
  if f.isBundle then str "#after " else if f.isCmd then [] else str "after "

/-- Serialization prefix for raw commands (`cmd_other`). -/
def cmdOther (f : Form) : Str := if f.isBundle then str "#" else []

/-- Serialization prefix for packages (`cmd_install`). -/
def cmdInstall (f : Form) : Str :=
  if f.isBundle then str "brew " else if f.isCmd then str "brew install " else str "brew "

/-- Serialization prefix for taps (`cmd_tap`). -/
def cmdTap (f : Form) : Str := if f.isCmd then str "brew tap " else str "tap "

/-- Serialization prefix for casks (`cmd_cask`). -/
def cmdCask (f : Form) : Str :=
  if f.isCmd then str "brew install " else str "cask "

/-- Serialization prefix for cask-installed apps without a cask file
(`cmd_cask_nocask`); always a comment. -/
def cmdCaskNocask (f : Form) : Str :=
  if f.isCmd then str "#brew install " else str "#cask "

/-- Serialization prefix for store apps (`cmd_appstore`). -/
def cmdAppstore (f : Form) : Str :=
  if f.isBundle then str "mas " else if f.isCmd then str "mas purchase " else str "appstore "

/-- Serialization prefix for the main file (`cmd_main`); a comment except
in the plain dialect. -/
def cmdMain (f : Form) : Str :=
  if f.isBundle ∨ f.isCmd then str "#main " else str "main "

/-- Serialization prefix for other included files (`cmd_file`). -/
def cmdFile (f : Form) : Str :=
  if f.isBundle ∨ f.isCmd then str "#file " else str "file "

/-- The bootstrap preamble written in the command dialect
(`output_prefix`, lines 664-681), after Python escape processing and
line-continuation joining, split into lines. -/
def preambleLines : List Str :=
  [str "#!/usr/bin/env bash",
   [],
   str "#BREWFILE_IGNORE",
   str "if ! which brew >& /dev/null;then",
   str "  brew_installed=0",
   str "  echo Homebrew is not installed!",
   str "  echo Install now...",
   str "  echo /bin/bash -c \\\"\\$\\(curl -fsSL",
   str "https://raw.githubusercontent.com/Homebrew/",
   str "install/master/install.sh\\)\\  /bin/bash -c \"$(curl -fsSL",
   str "https://raw.githubusercontent.com/Homebrew/",
   str "install/master/install.sh)\\  echo",
   str "fi",
   str "#BREWFILE_ENDIGNORE",
   []]

/-- `BrewInfo.packout`: quote the identifier in the bundle dialect. -/
def packout (f : Form) (pack : Str) : Str :=
  if f.isBundle then '\'' :: pack ++ ['\''] else pack

/-- Python `re.sub("^--", "", x)`. -/
def dropDashDash (x : Str) : Str :=
  if (str "--").isPrefixOf x then x.drop 2 else x

/-- Python `sep.join(ws)` for a multi-character separator. -/
def joinSep (sep : Str) : List Str → Str
  | [] => []
  | [w] => w
  | w :: ws => w ++ sep ++ joinSep sep ws

/-- `BrewInfo.convert_option`: in the bundle dialect a non-empty option
string becomes a structured `, args: [...]` suffix. -/
def convert_option (f : Form) (opt : Str) : Str :=
  if opt ≠ [] ∧ f.isBundle then
    str ", args: [" ++
      joinSep (str ", ")
        ((words opt).map (fun x => '\'' :: dropDashDash x ++ ['\''])) ++
      str "]"
  else opt

/-- `BrewInfo.mas_pack`: in the bundle dialect a store app is rendered as
`'name', id: pid`. -/
def mas_pack (f : Form) (pack : Str) : Str :=
  if f.isBundle then
    '\'' :: unwords ((words pack).drop 1) ++ str "', id: " ++ ((words pack).headD [])
  else pack

/-- Sort key for store apps
(`x.split()[1].lower() if len(x.split()) > 1 else x.split()[0]`).
The source raises `IndexError` on an all-whitespace name; theorems about
`write` therefore assume store-app names have at least one word, making
the `[]` fallback here unreachable. -/
def appKey (x : Str) : Str :=
  match words x with
  | [] => []
  | [w] => w
  | _ :: w :: _ => lowerStr w

/-- `BrewInfo.sort` (lines 363-390): priority order on taps, lexicographic
order on the other domains, name order on store apps.  The single
if/elif partition loop of the source is rendered as four filters with the
same mutually-exclusive conditions, preserving relative order. -/
def sortSt (cfg : WCfg) (st : BrewSt) : BrewSt :=
  let isCore := fun t => t = str "homebrew/core"
  let isCask := fun t => ¬ t = str "homebrew/core" ∧ t = cfg.cask_repo
  let isBrewTap := fun t => ¬ t = str "homebrew/core" ∧ ¬ t = cfg.cask_repo ∧
    (str "homebrew/").isPrefixOf t = true
  let isOther := fun t => ¬ t = str "homebrew/core" ∧ ¬ t = cfg.cask_repo ∧
    ¬ (str "homebrew/").isPrefixOf t = true
  { st with
      tap_list :=
        st.tap_list.filter (fun t => isCore t) ++
        sSort lexLe (st.tap_list.filter (fun t => decide (isBrewTap t))) ++
        st.tap_list.filter (fun t => decide (isCask t)) ++
        sSort lexLe (st.tap_list.filter (fun t => decide (isOther t))),
      brew_list := sSort lexLe st.brew_list,
      brew_full_list := sSort lexLe st.brew_full_list,
      cask_list := sSort lexLe st.cask_list,
      main_list := sSort lexLe st.main_list,
      file_list := sSort lexLe st.file_list,
      cask_nocask_list := sSort lexLe st.cask_nocask_list,
      appstore_list := sSort (fun x y => lexLe (appKey x) (appKey y)) st.appstore_list }

/-- `first_tap_pack_write` (lines 707-714): section banner on the first
tap, and the `tap` line itself before the first entry of a non-direct
tap. -/
def firstTapPackWrite (f : Form) (isfirst directFirst isfirstPack : Bool)
    (tap : Str) : List Str :=
  (if isfirst then [[], str "# tap repositories and their packages"] else []) ++
  (if ¬ directFirst ∧ isfirstPack then [[], cmdTap f ++ packout f tap] else [])

/-- The inner brew loop of the tap section (lines 731-741): iterate over a
snapshot of `brew_list`, emit every package the current tap provides, and
remove it from the live list and options dict.  `brew_list_opt[p]` raises
`KeyError` once a duplicate entry's binding was deleted; the model uses
the empty default, which the no-duplicate assumption of the round-trip
theorem makes unreachable. -/
def tapBrewLoop (f : Form) (tapPacks : List Str) :
    List Str → List Str → List (Str × Str) → Bool →
    List Str × List Str × List (Str × Str) × Bool
  | [], brewL, opts, directFirst => ([], brewL, opts, directFirst)
  | p :: rest, brewL, opts, directFirst =>
      if removeRb (lastSlash p) ∈ tapPacks then
        let hdr : List Str := if directFirst then [[], str "## Direct install"] else []
        let line := cmdInstall f ++ packout f p ++
          convert_option f ((lookupA opts p).getD [])
        let r := tapBrewLoop f tapPacks rest (brewL.erase p) (delA opts p) false
        (hdr ++ line :: r.1, r.2)
      else
        let r := tapBrewLoop f tapPacks rest brewL opts directFirst
        (r.1, r.2)

/-- The inner cask loop of the tap section (lines 744-751). -/
def tapCaskLoop (f : Form) (t : Str) (tapCasks : List Str) :
    List Str → List Str → Bool → Bool →
    List Str × List Str × Bool × Bool
  | [], caskL, isfirst, isfirstPack => ([], caskL, isfirst, isfirstPack)
  | p :: rest, caskL, isfirst, isfirstPack =>
      if p ∈ tapCasks then
        let hdr := firstTapPackWrite f isfirst false isfirstPack t
        let r := tapCaskLoop f t tapCasks rest (caskL.erase p) false false
        (hdr ++ (cmdCask f ++ packout f p) :: r.1, r.2)
      else
        let r := tapCaskLoop f t tapCasks rest caskL isfirst isfirstPack
        (r.1, r.2)

/-- Result of the tap section: emitted lines and the surviving
`brew_list` / `brew_list_opt` / `cask_list`. -/
structure TapOut where
  lines : List Str
  brewL : List Str
  opts : List (Str × Str)
  caskL : List Str

/-- The tap section of `write` (lines 704-751): for every tap in priority
order, emit the tap line and the packages/casks that tap provides,
consuming them from the live lists.  `isfirst` spans taps; `isfirst_pack`
and `direct_first` are per-tap. -/
def tapSection (cfg : WCfg) (orc : TapOracle) :
    List Str → List Str → List (Str × Str) → List Str → Bool → TapOut
  | [], brewL, opts, caskL, _ =>
      { lines := [], brewL := brewL, opts := opts, caskL := caskL }
  | t :: ts, brewL, opts, caskL, isfirst =>
      let tapPacks := orc.packs t
      if t = str "direct" ∧ tapPacks = [] then
        tapSection cfg orc ts brewL opts caskL isfirst
      else
        let directFirst0 := t = str "direct"
        let stepBrew :
            List Str × List Str × List (Str × Str) × Bool × Bool :=
          if ¬ cfg.caskonly then
            let hdr := firstTapPackWrite cfg.form isfirst directFirst0 true t
            let r := tapBrewLoop cfg.form tapPacks brewL brewL opts directFirst0
            (hdr ++ r.1, r.2.1, r.2.2.1, false, false)
          else ([], brewL, opts, isfirst, true)
        let lines1 := stepBrew.1
        let brewL1 := stepBrew.2.1
        let opts1 := stepBrew.2.2.1
        let isfirst1 := stepBrew.2.2.2.1
        let isfirstPack1 := stepBrew.2.2.2.2
        if ¬ cfg.isMac then
          let r := tapSection cfg orc ts brewL1 opts1 caskL isfirst1
          { r with lines := lines1 ++ r.lines }
        else
          let tapCasks := orc.casks t
          let rc := tapCaskLoop cfg.form t tapCasks caskL caskL isfirst1 isfirstPack1
          let r := tapSection cfg orc ts brewL1 opts1 rc.2.1 rc.2.2.1
          { r with lines := lines1 ++ rc.1 ++ r.lines }

/-- The remaining-packages section (`# Other Homebrew packages`,
lines 753-759). -/
def brewOtherSection (cfg : WCfg) (brewL : List Str) (opts : List (Str × Str)) :
    List Str :=
  if ¬ cfg.caskonly ∧ brewL ≠ [] then
    [[], str "# Other Homebrew packages"] ++
      brewL.map (fun p =>
        cmdInstall cfg.form ++ packout cfg.form p ++
          convert_option cfg.form ((lookupA opts p).getD []))
  else []

/-- The remaining-casks section (`# Other Cask applications`,
lines 761-765). -/
def caskOtherSection (cfg : WCfg) (caskL : List Str) : List Str :=
  if cfg.isMac ∧ caskL ≠ [] then
    [[], str "# Other Cask applications"] ++
      caskL.map (fun c => cmdCask cfg.form ++ packout cfg.form c)
  else []

/-- The cask-without-cask-file section (lines 767-772); always comments. -/
def nocaskSection (cfg : WCfg) (nocaskL : List Str) : List Str :=
  if cfg.isMac ∧ nocaskL ≠ [] then
    [[], str "# Below applications were installed by Cask,",
     str "# but do not have corresponding casks.", []] ++
      nocaskL.map (fun c => cmdCaskNocask cfg.form ++ packout cfg.form c)
  else []

/-- The store-app section (lines 774-779); emitted only on a Mac with the
app-store option enabled (truthy). -/
def appstoreSection (cfg : WCfg) (appL : List Str) : List Str :=
  if cfg.isMac ∧ cfg.appstore ≠ 0 ∧ appL ≠ [] then
    [[], str "# App Store applications"] ++
      appL.map (fun a => cmdAppstore cfg.form ++ mas_pack cfg.form a)
  else []

/-- The main-file section (lines 781-785). -/
def mainSection (cfg : WCfg) (mainL : List Str) : List Str :=
  if mainL ≠ [] then
    [[], str "# Main file"] ++
      mainL.map (fun m => cmdMain cfg.form ++ packout cfg.form m)
  else []

/-- The additional-files section (lines 787-792); gated on
`len(file_list) > len(main_list)`. -/
def fileSection (cfg : WCfg) (fileL mainL : List Str) : List Str :=
  if mainL.length < fileL.length then
    [[], str "# Additional files"] ++
      (fileL.filter (fun x => x ∉ mainL)).map
        (fun m => cmdFile cfg.form ++ packout cfg.form m)
  else []

/-- The before-hooks section (lines 697-701; first section, no leading
blank line). -/
def beforeSection (cfg : WCfg) (cs : List Str) : List Str :=
  if cs ≠ [] then
    str "# Before commands" :: cs.map (fun c => cmdBefore cfg.form ++ c)
  else []

/-- The raw-commands section (`# Other commands`, lines 794-798). -/
def otherCmdSection (cfg : WCfg) (cs : List Str) : List Str :=
  if cs ≠ [] then
    [[], str "# Other commands"] ++ cs.map (fun c => cmdOther cfg.form ++ c)
  else []

/-- The after-hooks section (lines 800-804). -/
def afterSection (cfg : WCfg) (cs : List Str) : List Str :=
  if cs ≠ [] then
    [[], str "# After commands"] ++ cs.map (fun c => cmdAfter cfg.form ++ c)
  else []

/-- `BrewInfo.write` (lines 635-812), as the list of lines of the
serialized output.  An empty result models the source's `if output:`
guard (nothing at all is written, not even the command-dialect preamble);
the trailing `chmod` calls have no bearing on the text. -/
def writeLines (cfg : WCfg) (orc : TapOracle) (st0 : BrewSt) : List Str :=
  let st := sortSt cfg st0
  let taps :=
    if st.tap_list ≠ [] then
      tapSection cfg orc st.tap_list st.brew_list st.brew_list_opt st.cask_list true
    else
      { lines := [], brewL := st.brew_list, opts := st.brew_list_opt,
        caskL := st.cask_list }
  let body :=
    beforeSection cfg st.before_input ++
    taps.lines ++
    brewOtherSection cfg taps.brewL taps.opts ++
    caskOtherSection cfg taps.caskL ++
    nocaskSection cfg st.cask_nocask_list ++
    appstoreSection cfg st.appstore_list ++
    mainSection cfg st.main_list ++
    fileSection cfg st.file_list st.main_list ++
    otherCmdSection cfg st.cmd_input ++
    afterSection cfg st.after_input
  if body = [] then []
  else (if cfg.form.isCmd then preambleLines else []) ++ body

/-- Empty tap oracle, used to instantiate witnesses. -/
def orc0 : TapOracle := { packs := fun _ => [], casks := fun _ => [] }

/-- Fresh parsing context, used to instantiate witnesses. -/
def ctx0 : RCtx := { st := emptyBrew, form := Form.fnone, ign := false }

/-- The exact conditions under which one iteration of the `read` loop
raises `IndexError`: an actively parsed line (not ignored, not blank, not
a comment) whose cleaned token list is empty, or a comma-bearing `mas`
line with fewer than four whitespace-separated words. -/
def readCrash (ctx : RCtx) (line : Str) : Prop :=
  ignAfter ctx.ign line = false ∧ isBlankLine line = false ∧
  isCommentLine line = false ∧
  (cArgs line = [] ∨
    (dispatchCmd line = str "mas" ∧ containsChar ',' line = true ∧
      (words line).length < 4))

/-- Parsing context inside an ignore block, used to instantiate witnesses. -/
def ctxIgn : RCtx := { st := emptyBrew, form := Form.fnone, ign := true }

/-- C9: for every line of a manifest file that lies inside an ignore block
(the `is_ignore` flag is set and the line is not the `BREWFILE_ENDIGNORE`
end marker), `read()` produces no entry in any domain from that line — the
parsing context is returned unchanged; and a `BREWFILE_IGNORE` begin
marker (a line that starts with `#`) only sets the flag, likewise
producing no entry. -/
theorem c9_ignore_block_produces_no_entry :
    (∀ (orc : TapOracle) (ctx : RCtx) (line : Str), ctx.ign = true →
      matchHashKw (str "BREWFILE_ENDIGNORE") line = false →
      readLine orc ctx line = some ctx) ∧
    (∀ (orc : TapOracle) (ctx : RCtx) (line : Str),
      matchHashKw (str "BREWFILE_IGNORE") line = true →
      readLine orc ctx line = some { ctx with ign := true }) := by
  constructor
  · intro orc ctx line hig hend
    cases ctx with
    | mk st form ign =>
        simp only at hig
        subst hig
        have h1 : ignAfter true line = true := by simp [ignAfter, hend]
        simp [readLine, h1]
  · intro orc ctx line hbegin
    have h1 : ignAfter ctx.ign line = true := by simp [ignAfter, hbegin]
    simp [readLine, h1]

theorem c9_ignore_block_produces_no_entry_witness :
    (ctxIgn.ign = true ∧
      matchHashKw (str "BREWFILE_ENDIGNORE") (str "brew vim") = false ∧
      readLine orc0 ctxIgn (str "brew vim") = some ctxIgn) ∧
    (matchHashKw (str "BREWFILE_IGNORE") (str "#BREWFILE_IGNORE") = true ∧
      readLine orc0 ctx0 (str "#BREWFILE_IGNORE") = some { ctx0 with ign := true }) :=
  ⟨⟨rfl, by decide,
    c9_ignore_block_produces_no_entry.1 orc0 ctxIgn (str "brew vim") rfl (by decide)⟩,
   ⟨by decide,
    c9_ignore_block_produces_no_entry.2 orc0 ctx0 (str "#BREWFILE_IGNORE") (by decide)⟩⟩

/-- C10: every `read()` that succeeds in opening its file — including a
present-but-empty file — leaves the implicit `direct` entry in the
document's `tap_input`, inserted before any line is parsed, so the parsed
tap input of a readable file is never empty; for an absent file (`IOError`
on open) `read()` returns `False` with every input list empty. -/
theorem c10_direct_tap_always_present :
    (∀ (orc : TapOracle) (f0 : Form) (st0 : BrewSt) (ls : List Str) (res : RCtx × Bool),
      readBF orc f0 st0 (some ls) = some res →
      str "direct" ∈ res.1.st.tap_input ∧ res.1.st.tap_input ≠ []) ∧
    (∀ (orc : TapOracle) (f0 : Form) (st0 : BrewSt),
      readBF orc f0 st0 none =
        some ({ st := clear_input st0, form := f0, ign := false }, false) ∧
      (clear_input st0).brew_input = [] ∧ (clear_input st0).brew_input_opt = [] ∧
      (clear_input st0).tap_input = [] ∧ (clear_input st0).cask_input = [] ∧
      (clear_input st0).appstore_input = [] ∧ (clear_input st0).main_input = [] ∧
      (clear_input st0).file_input = [] ∧ (clear_input st0).before_input = [] ∧
      (clear_input st0).after_input = [] ∧ (clear_input st0).cmd_input = []) := by
  constructor
  · intro orc f0 st0 ls res h
    rw [readBF] at h
    rcases Option.map_eq_some'.mp h with ⟨c, hc, hcres⟩
    have hd : str "direct" ∈ c.st.tap_input := by
      refine readFrom_tap_mono hc ?_
      simp [clear_input]
    subst hcres
    exact ⟨hd, List.ne_nil_of_mem hd⟩
  · intro orc f0 st0
    exact ⟨rfl, rfl, rfl, rfl, rfl, rfl, rfl, rfl, rfl, rfl, rfl⟩

/-- Expected result of reading the one-line manifest `brew vim` from a
fresh state, used by the C10 witness. -/
def c10res : RCtx :=
  { st := { emptyBrew with
              brew_input := [str "vim"],
              brew_input_opt := [(str "vim", [])],
              tap_input := [str "direct"] },
    form := Form.fnone, ign := false }

theorem c10_direct_tap_always_present_witness :
    str "direct" ∈ c10res.st.tap_input ∧ c10res.st.tap_input ≠ [] :=
  c10_direct_tap_always_present.1 orc0 Form.fnone emptyBrew [str "brew vim"]
    (c10res, true) (by decide)

/-- Aux : on an actively parsed line (not ignored, not blank, not a
comment) `readLine` is the parsing core. -/
theorem readLine_active {orc : TapOracle} {ctx : RCtx} {line : Str}
    (hig : ignAfter ctx.ign line = false) (hbl : isBlankLine line = false)
    (hcm : isCommentLine line = false) :
    readLine orc ctx line = (parseLine orc ctx.form line).map
      (fun fe => { st := applyEff ctx.st fe.2, form := fe.1, ign := false }) := by
  rw [readLine]
  simp [hig, hbl, hcm]

/-- C6 counterexample: the claim fails on the code in two ways.  The line
`mas 1password,` (a comma-bearing `mas` line with fewer than four words)
makes `read()` raise `IndexError` at `line.split()[3]`, so `read()` does
raise parse errors; and the line `echo tap dance`, whose first token
`echo` is not a recognized directive, is not classified into
`raw_command` — the dialect-normalization pop re-reads it as a `tap`
directive for `dance`. -/
theorem c6_counterexample :
    readLine orc0 ctx0 (str "mas 1password,") = none ∧
    readLines orc0 Form.fnone [str "echo tap dance"] =
      some { st := { emptyBrew with tap_input := [str "direct", str "dance"] },
             form := Form.cmd, ign := false } := by
  constructor
  · decide
  · decide

/-- C6 (amended): `read()` raises (`IndexError`) exactly on actively
parsed lines whose cleaned token list is empty or which are comma-bearing
`mas` lines with fewer than four words — it never raises on any other
line.  A line whose dispatch token (the first cleaned token after the
dialect-normalization pops) is not a recognized directive is classified
into the `raw_command` domain with the whole stripped line as identifier,
and the raw-command section of `write` passes these entries through
verbatim in the plain and command dialects while prefixing `#` in the
bundle dialect. -/
theorem c6_unrecognized_lines_degrade_to_raw :
    (∀ (orc : TapOracle) (ctx : RCtx) (line : Str),
      readLine orc ctx line = none → readCrash ctx line) ∧
    (∀ (orc : TapOracle) (ctx : RCtx) (line : Str),
      ignAfter ctx.ign line = false → isBlankLine line = false →
      isCommentLine line = false → cArgs line ≠ [] →
      ¬ recognizedCmd (dispatchCmd line) →
      ∃ f', readLine orc ctx line =
        some { st := { ctx.st with cmd_input := ctx.st.cmd_input ++ [strip line] },
               form := f', ign := false }) ∧
    (∀ (cfg : WCfg) (cs : List Str), cfg.form.isBundle = false →
      otherCmdSection cfg cs =
        if cs = [] then [] else [[], str "# Other commands"] ++ cs) ∧
    (∀ (cfg : WCfg) (cs : List Str), cfg.form.isBundle = true →
      otherCmdSection cfg cs =
        if cs = [] then []
        else [[], str "# Other commands"] ++ cs.map (fun c => '#' :: c)) := by
  refine ⟨?_, ?_, ?_, ?_⟩
  · intro orc ctx line h
    cases hig : ignAfter ctx.ign line with
    | true => rw [readLine] at h; simp [hig] at h
    | false =>
      cases hbl : isBlankLine line with
      | true => rw [readLine] at h; simp [hig, hbl] at h
      | false =>
        cases hcm : isCommentLine line with
        | true => rw [readLine] at h; simp [hig, hbl, hcm] at h
        | false =>
          rw [readLine_active hig hbl hcm, Option.map_eq_none'] at h
          refine ⟨hig, hbl, hcm, ?_⟩
          by_cases hargs : cArgs line = []
          · exact Or.inl hargs
          · refine Or.inr ?_
            by_cases h1 : dispatchCmd line = str "brew" ∨ dispatchCmd line = str "install"
            · simp +decide [parseLine, hargs, h1] at h
            · by_cases h2 : dispatchCmd line = str "tap"
              · simp +decide [parseLine, hargs, h1, h2] at h
              · by_cases h3 : dispatchCmd line = str "tapall"
                · simp +decide [parseLine, hargs, h1, h2, h3] at h
                · by_cases h4 : dispatchCmd line = str "cask"
                  · simp +decide [parseLine, hargs, h1, h2, h3, h4] at h
                  · by_cases h5 : dispatchCmd line = str "mas" ∧ containsChar ',' line = true
                    · simp +decide [parseLine, hargs, h1, h2, h3, h4, h5] at h
                      rcases hw1 : (words line)[1]? with _ | w1
                      · have hl := List.getElem?_eq_none_iff.mp hw1
                        exact ⟨h5.1, h5.2, by omega⟩
                      · rcases hw3 : (words line)[3]? with _ | w3
                        · have hl := List.getElem?_eq_none_iff.mp hw3
                          exact ⟨h5.1, h5.2, by omega⟩
                        · rw [hw1, hw3] at h
                          simp at h
                    · by_cases h6 : dispatchCmd line = str "appstore" ∨ dispatchCmd line = str "mas"
                      · simp +decide [parseLine, hargs, h1, h2, h3, h4, h5, h6] at h
                      · by_cases h7 : dispatchCmd line = str "main"
                        · simp +decide [parseLine, hargs, h1, h2, h3, h4, h5, h6, h7] at h
                        · by_cases h8 : dispatchCmd line = str "file" ∨
                              lowerStr (dispatchCmd line) = str "brewfile"
                          · simp +decide [parseLine, hargs, h1, h2, h3, h4, h5, h6, h7, h8] at h
                          · by_cases h9 : dispatchCmd line = str "before"
                            · simp +decide [parseLine, hargs, h1, h2, h3, h4, h5, h6, h7, h8, h9] at h
                            · by_cases h10 : dispatchCmd line = str "after"
                              · simp +decide [parseLine, hargs, h1, h2, h3, h4, h5, h6, h7,
                                  h8, h9, h10] at h
                              · simp +decide [parseLine, hargs, h1, h2, h3, h4, h5, h6, h7,
                                  h8, h9, h10] at h
  · intro orc ctx line hig hbl hcm hargs hrec
    unfold recognizedCmd at hrec
    push_neg at hrec
    obtain ⟨r1, r2, r3, r4, r5, r6, r7, r8, r9, r10, r11, r12⟩ := hrec
    rw [readLine_active hig hbl hcm]
    simp only [parseLine, hargs, r1, r2, r3, r4, r5, r6, r7, r8, r9, r10, r11, r12,
      if_false, false_and, or_self, Option.map_some', ne_eq, not_false_eq_true,
      false_or, or_false, if_neg, ite_false]
    exact ⟨_, rfl⟩
  · intro cfg cs h
    unfold otherCmdSection cmdOther
    rw [h]
    cases cs <;> simp
  · intro cfg cs h
    unfold otherCmdSection cmdOther
    rw [h]
    have h9 : str "#" = ['#'] := rfl
    cases cs <;> simp [h9]

theorem c6_unrecognized_lines_degrade_to_raw_witness :
    ∃ f', readLine orc0 ctx0 (str "frobnicate --x") =
      some { st := { ctx0.st with
                       cmd_input := ctx0.st.cmd_input ++ [strip (str "frobnicate --x")] },
             form := f', ign := false } :=
  c6_unrecognized_lines_degrade_to_raw.2.1 orc0 ctx0 (str "frobnicate --x")
    (by decide) (by decide) (by decide) (by decide) (by decide)

/-! ### Theorems about the reconciler -/

theorem foldl_preserve {α β : Type} {P : β → Prop} {f : β → α → β}
    (hf : ∀ st a, P st → P (f st a)) :
    ∀ (l : List α) (st : β), P st → P (l.foldl f st) := by
  intro l
  induction l with
  | nil => intro st h; exact h
  | cons a as ih => intro st h; exact ih (f st a) (hf st a h)

/-- All-success process oracle. -/
def porOK : ProcOracle :=
  { ret := fun _ => 0, out := fun _ => [], expand := id, getOption := fun _ => [] }

/-- Process oracle on which `brew install vim` fails. -/
def porFailVim : ProcOracle :=
  { porOK with ret := fun s => if s = str "brew install vim" then 1 else 0 }

/-- Standard install configuration for the concrete scenarios. -/
def cfgInstall : ICfg :=
  { caskonly := false, appstore := 1, isMac := true, link := false,
    masAvail := true, masCmd := str "mas", masCmdInstalled := false,
    reattachCmdInstalled := false }

/-- The C2 example scenario: `vim` declared with `--with-lua`, installed
with `--with-python`. -/
def envVim : IEnv :=
  { tap_input := [str "direct"], brew_input := [str "vim"],
    brew_input_opt := [(str "vim", str " --with-lua")],
    brew_full_list := [str "vim"], brew_list := [str "vim"],
    brew_list_opt := [(str "vim", str " --with-python")] }

/-- The C5 scenario: `vim` and `wget` both need installing. -/
def envC5 : IEnv :=
  { tap_input := [str "direct"], brew_input := [str "vim", str "wget"],
    brew_input_opt := [(str "vim", []), (str "wget", [])] }

/-- C2: in the converge-to-declared brew loop, a declared package present
in the actual installed list whose declared options equal the installed
options as sorted token sets is skipped; on a mismatch exactly a
`reinstall` with the declared options is decided; an absent package gets
an `install`.  In particular the manifest `brew vim --with-lua` against
an actual `vim` installed with `--with-python` produces exactly one
`reinstall vim --with-lua` action and no other action. -/
theorem c2_install_package_trichotomy :
    (∀ (fullList : List Str) (inOpt listOpt : List (Str × Str)) (p : Str),
      p ∈ fullList → (lookupA listOpt p).isSome →
      (sortedTokens ((lookupA inOpt p).getD []) =
          sortedTokens ((lookupA listOpt p).getD []) →
        brewDecision fullList inOpt listOpt p = none) ∧
      (sortedTokens ((lookupA inOpt p).getD []) ≠
          sortedTokens ((lookupA listOpt p).getD []) →
        brewDecision fullList inOpt listOpt p = some (str "reinstall"))) ∧
    (∀ (fullList : List Str) (inOpt listOpt : List (Str × Str)) (p : Str),
      p ∉ fullList →
      brewDecision fullList inOpt listOpt p = some (str "install")) ∧
    (install cfgInstall porOK envVim).1.actions =
      [IAct.brewCmd (str "reinstall") (str "vim") (str " --with-lua")] := by
  refine ⟨?_, ?_, ?_⟩
  · intro fullList inOpt listOpt p hp hs
    constructor
    · intro heq
      unfold brewDecision
      rw [if_pos hp, if_pos (Or.inr heq)]
    · intro hne
      unfold brewDecision
      rw [if_pos hp, if_neg ?_]
      rintro (hnone | heq)
      · rw [hnone] at hs; cases hs
      · exact hne heq
  · intro fullList inOpt listOpt p hp
    unfold brewDecision
    rw [if_neg hp]
  · decide

theorem c2_install_package_trichotomy_witness :
    (brewDecision [str "vim"] [(str "vim", str " --with-lua")]
        [(str "vim", str " --with-python")] (str "vim") =
      some (str "reinstall")) ∧
    (brewDecision [str "vim"] [(str "vim", str " --b --a")]
        [(str "vim", str " --a --b")] (str "vim") = none) ∧
    (brewDecision [] [(str "wget", [])] [] (str "wget") =
      some (str "install")) :=
  ⟨(c2_install_package_trichotomy.1 [str "vim"] [(str "vim", str " --with-lua")]
      [(str "vim", str " --with-python")] (str "vim") (by decide) (by decide)).2
      (by decide),
   (c2_install_package_trichotomy.1 [str "vim"] [(str "vim", str " --b --a")]
      [(str "vim", str " --a --b")] (str "vim") (by decide) (by decide)).1
      (by decide),
   c2_install_package_trichotomy.2.1 [] [(str "wget", [])] [] (str "wget")
      (by decide)⟩

theorem runProc_warnings {por cmdStr act r} :
    (runProc por cmdStr act r).warnings = r.warnings := by
  unfold runProc
  split <;> rfl

theorem linkScan_warnings {cfg por lines r} :
    (linkScan cfg por lines r).warnings = r.warnings := by
  unfold linkScan
  refine foldl_preserve (P := fun s => s.warnings = r.warnings) ?_ lines r rfl
  intro st line hst
  dsimp only
  split_ifs <;> simp [runProc_warnings, hst]

theorem brewLoopStep_warnings {cfg por env st p} :
    (brewLoopStep cfg por env st p).r.warnings = st.r.warnings := by
  unfold brewLoopStep
  split
  · rfl
  · split
    · rfl
    · dsimp only
      split
      · rfl
      · next rl heq2 =>
          obtain ⟨rv, rls⟩ := rl
          have hz := helperProc_true_ret_zero heq2
          subst hz
          rw [if_neg (by simp)]
          dsimp only
          split_ifs <;> simp [linkScan_warnings]

theorem installBrewLoop_warnings {cfg por env st} :
    (installBrewLoop cfg por env st).r.warnings = st.r.warnings := by
  unfold installBrewLoop
  split
  · refine foldl_preserve (P := fun s => s.r.warnings = st.r.warnings) ?_
      env.brew_input st rfl
    intro s p hs
    dsimp only
    rw [brewLoopStep_warnings]
    exact hs
  · rfl

/-- C5 (code bug): every `self.proc` call of the brew loop uses the
default `exit_on_err=True`, under which `BrewHelper.proc` calls
`sys.exit(ret)` on a non-zero exit code; a single failing `brew install`
therefore aborts the whole run before the recoverable-warning branch at
lines 2015-2020 can execute.  Concretely, with `vim` failing and `wget`
still to install, the run stops after the `vim` attempt: `wget` is never
attempted and no warning is emitted; and in general the brew loop can
never add a warning. -/
theorem c5_failed_install_aborts_batch :
    install cfgInstall porFailVim envC5 =
      ({ actions := [IAct.brewCmd (str "install") (str "vim") []],
         warnings := [], aborted := true }, false) ∧
    IAct.brewCmd (str "install") (str "wget") [] ∉
      (install cfgInstall porFailVim envC5).1.actions ∧
    (∀ (cfg : ICfg) (por : ProcOracle) (env : IEnv) (st : BrewLoopSt),
      (installBrewLoop cfg por env st).r.warnings = st.r.warnings) := by
  refine ⟨by decide, by decide, ?_⟩
  intro cfg por env st
  exact installBrewLoop_warnings

theorem untap_not_mem_appstore {cfg : CCfg} {env : IEnv} {R : Str} :
    CAct.untap R ∉ (cleanupAppstore cfg env).plan := by
  unfold cleanupAppstore
  split
  · refine foldl_preserve (P := fun (st : CAppSt) => CAct.untap R ∉ st.plan) ?_
      env.appstore_list _ (by simp)
    intro st p hst
    dsimp only
    split_ifs <;> simp [List.mem_append, hst]
  · simp

theorem untap_not_mem_casks {cfg : CCfg} {env : IEnv} {R : Str} :
    CAct.untap R ∉ (cleanupCasks cfg env).1 := by
  unfold cleanupCasks
  split
  · refine foldl_preserve
      (P := fun (st : List CAct × List Str) => CAct.untap R ∉ st.1) ?_
      env.cask_list _ (by simp)
    intro st p hst
    dsimp only
    split_ifs <;> simp [List.mem_append, hst]
  · simp

theorem untap_not_mem_brew {closed : List Str} {env : IEnv} {R : Str} :
    CAct.untap R ∉ cleanupBrew closed env := by
  intro h
  unfold cleanupBrew at h
  split at h
  · rw [List.mem_filterMap] at h
    obtain ⟨p, _, he⟩ := h
    split at he
    · cases he
    · simp at he
  · cases h

theorem mem_cleanupTaps_flag {cfg orc closed env tapL R}
    (h : CAct.untap R ∈ cleanupTaps cfg orc closed env tapL) :
    untapFlag cfg orc closed env R = true := by
  unfold cleanupTaps at h
  split at h
  · rw [List.mem_filterMap] at h
    obtain ⟨p, _, he⟩ := h
    split at he
    · cases he
    · split at he
      · next hf =>
          cases he
          exact hf
      · cases he
  · cases h

theorem mem_taps_of_mem_cleanup {cfg orc info env R}
    (h : CAct.untap R ∈ (cleanup cfg orc info env).1) :
    CAct.untap R ∈ cleanupTaps cfg orc (closedBrewInput info env.brew_input) env
      (if cfg.isMac ∧ (cleanupCasks cfg env).2 ≠ [] then
        env.tap_list.erase cfg.cask_repo
      else env.tap_list) := by
  simp only [cleanup] at h
  rcases List.mem_append.1 h with h | h
  · rcases List.mem_append.1 h with h | h
    · rcases List.mem_append.1 h with h | h
      · rcases List.mem_append.1 h with h | h
        · exact absurd h untap_not_mem_appstore
        · exact absurd h untap_not_mem_casks
      · exact absurd h untap_not_mem_brew
    · exact h
  · simp at h

theorem brewUninstall_mem_cleanupBrew (closed : List Str) {env : IEnv} {P : Str}
    (hP : P ∈ env.brew_list) (hPc : P ∉ closed) :
    CAct.brewUninstall P ∈ cleanupBrew closed env := by
  unfold cleanupBrew
  rw [if_pos (List.ne_nil_of_mem hP)]
  exact List.mem_filterMap.2 ⟨P, hP, by rw [if_neg hPc]⟩

/-- C3: in the cleanup plan, a tap `R` is untapped only when none of the
formulae it provides is in the declared-input closure — in particular
none is declared directly — and, on macOS, none of its casks is
declared; and whenever an undeclared installed package `P` is removed
and a tap `R` is untapped in the same plan, the removal of `P` is
queued before the untap of `R` (packages are planned before taps). -/
theorem c3_untap_only_if_unconsumed_and_after_packages :
    (∀ (cfg : CCfg) (orc : TapOracle) (info : List (Str × List Str))
        (env : IEnv) (R : Str),
      CAct.untap R ∈ (cleanup cfg orc info env).1 →
      (∀ tp ∈ orc.packs R, tp ∉ env.brew_input) ∧
      (cfg.isMac = true → ∀ tc ∈ orc.casks R, tc ∉ env.cask_input)) ∧
    (∀ (cfg : CCfg) (orc : TapOracle) (info : List (Str × List Str))
        (env : IEnv) (P R : Str),
      P ∈ env.brew_list → P ∉ closedBrewInput info env.brew_input →
      CAct.untap R ∈ (cleanup cfg orc info env).1 →
      ∃ l1 l2 l3, (cleanup cfg orc info env).1 =
        l1 ++ CAct.brewUninstall P :: (l2 ++ CAct.untap R :: l3)) := by
  constructor
  · intro cfg orc info env R h
    have hflag := mem_cleanupTaps_flag (mem_taps_of_mem_cleanup h)
    unfold untapFlag at hflag
    rw [decide_eq_true_iff] at hflag
    obtain ⟨h1, h2⟩ := hflag
    exact ⟨fun tp htp hin => h1 tp htp (closedBrewInput_mono hin), h2⟩
  · intro cfg orc info env P R hP hPc h
    have hB := brewUninstall_mem_cleanupBrew (closedBrewInput info env.brew_input) hP hPc
    have hD := mem_taps_of_mem_cleanup h
    obtain ⟨c1, c2, hc⟩ := List.append_of_mem hB
    obtain ⟨d1, d2, hd⟩ := List.append_of_mem hD
    refine ⟨(cleanupAppstore cfg env).plan ++ (cleanupCasks cfg env).1 ++ c1,
      c2 ++ d1, d2 ++ [CAct.brewCleanup, CAct.rmCache], ?_⟩
    simp only [cleanup]
    rw [hc, hd]
    simp [List.append_assoc]

/-- Oracle stating that the tap `user/repo` provides the formula
`mypack` and nothing else. -/
def orcC3 : TapOracle :=
  { packs := fun p => if p = str "user/repo" then [str "mypack"] else [],
    casks := fun _ => [] }

/-- Actual state for the C3 witness: `mypack` installed, `user/repo`
tapped, nothing declared. -/
def envC3 : IEnv :=
  { brew_list := [str "mypack"], tap_list := [str "user/repo"] }

/-- Standard cleanup configuration for the concrete scenarios. -/
def ccfgW : CCfg :=
  { isMac := true, appstore := 1, masAvail := true, appdirlist := [],
    isAppDir := fun _ => false, cask_repo := str "homebrew/cask" }

theorem c3_untap_only_if_unconsumed_and_after_packages_witness :
    ∃ l1 l2 l3, (cleanup ccfgW orcC3 [] envC3).1 =
      l1 ++ CAct.brewUninstall (str "mypack") ::
        (l2 ++ CAct.untap (str "user/repo") :: l3) :=
  c3_untap_only_if_unconsumed_and_after_packages.2 ccfgW orcC3 [] envC3
    (str "mypack") (str "user/repo") (by decide) (by decide) (by decide)

/-- The C7 scenario: declared and actual store app share the numeric id
`409183694` but have different names. -/
def env7 : IEnv :=
  { appstore_input := [str "409183694 Foo"],
    appstore_list := [str "409183694 Bar"] }

/-- C7 counterexample: in the converge-to-declared run, the declared
entry `409183694 Foo` and the actual entry `409183694 Bar` share their
numeric id, yet a purchase action is produced — id equality does not
make them identical there, because the install loop compares only the
name parts. -/
theorem c7_counterexample :
    (install cfgInstall porOK env7).1.actions =
      [IAct.masPurchase (str "409183694")] ∧
    (install cfgInstall porOK env7).1.actions ≠ [] := by
  constructor
  · decide
  · decide

/-- C7 (amended): the id-takes-precedence rule holds only in the cleanup
matching — there a shared non-empty numeric id makes declared and actual
entries match whatever the names, and a matched actual entry is never
removed; in the install loop the matching compares only the name parts,
so a declared entry whose name matches no actual name produces a
purchase action even when its id is already present. -/
theorem c7_store_app_id_precedence_cleanup_only :
    (∀ (inputs : List Str) (p : Str),
      (appIdName p).1 ≠ [] →
      (∃ pi ∈ inputs, (appIdName pi).1 = (appIdName p).1) →
      appstoreIsInput inputs p = true) ∧
    (∀ (cfg : CCfg) (inputs : List Str) (p : Str),
      appstoreIsInput inputs p = true →
      (cleanupAppstore cfg
        { appstore_input := inputs, appstore_list := [p] }).plan = []) ∧
    (∀ (cfg : ICfg) (por : ProcOracle) (env : IEnv) (r : InstallRun) (p : Str),
      cfg.isMac = true → cfg.appstore ≠ 0 → cfg.masAvail = true →
      env.appstore_input = [p] →
      r.aborted = false →
      p ∉ env.appstore_list →
      (∀ pl ∈ env.appstore_list, (appIdName9 pl).2 ≠ (appIdName9 p).2) →
      (appIdName9 p).1 ≠ [] →
      (installAppstoreLoop cfg por env r).actions =
        r.actions ++ [IAct.masPurchase (appIdName9 p).1]) := by
  refine ⟨?_, ?_, ?_⟩
  · intro inputs p hne ⟨pi, hpi, hid⟩
    unfold appstoreIsInput
    rw [List.any_eq_true]
    refine ⟨pi, hpi, ?_⟩
    rw [decide_eq_true_iff]
    exact Or.inl ⟨hne, hid.symm⟩
  · intro cfg inputs p hmatch
    by_cases h1 : cfg.appstore = 1
    · unfold cleanupAppstore
      rw [if_pos ⟨h1, by simp⟩]
      simp only [List.foldl_cons, List.foldl_nil]
      rw [if_pos hmatch]
    · unfold cleanupAppstore
      rw [if_neg (fun hc => h1 hc.1)]
  · intro cfg por env r p hmac happ hmas henv hab hmem hname hid
    unfold installAppstoreLoop
    rw [if_pos ⟨hmac, happ⟩, henv]
    simp only [List.foldl_cons, List.foldl_nil]
    rw [hab]
    simp only [Bool.false_eq_true, if_false]
    rw [if_neg hmem]
    have hisl : env.appstore_list.any
        (fun pl => (appIdName9 pl).2 = (appIdName9 p).2) = false := by
      rw [List.any_eq_false]
      intro pl hpl
      simp only [decide_eq_true_eq]
      exact hname pl hpl
    rw [hisl]
    simp only [Bool.false_eq_true, if_false]
    rw [if_pos hid, hmas]
    simp only [if_true]
    unfold runProc
    split <;> rfl

theorem c7_store_app_id_precedence_cleanup_only_witness :
    appstoreIsInput [str "409183694 Foo"] (str "409183694 Bar") = true ∧
    (cleanupAppstore ccfgW
      { appstore_input := [str "409183694 Foo"],
        appstore_list := [str "409183694 Bar"] }).plan = [] ∧
    (installAppstoreLoop cfgInstall porOK env7 {}).actions =
      ({} : InstallRun).actions ++
        [IAct.masPurchase (appIdName9 (str "409183694 Foo")).1] :=
  ⟨c7_store_app_id_precedence_cleanup_only.1 [str "409183694 Foo"]
      (str "409183694 Bar") (by decide) ⟨str "409183694 Foo", by decide, by decide⟩,
   c7_store_app_id_precedence_cleanup_only.2.1 ccfgW [str "409183694 Foo"]
      (str "409183694 Bar") (by decide),
   c7_store_app_id_precedence_cleanup_only.2.2 cfgInstall porOK env7 {}
      (str "409183694 Foo") (by decide) (by decide) (by decide) (by decide)
      (by decide) (by decide) (by decide) (by decide)⟩

/-- The C8 scenario: actual store-app name carries a parenthesized
version suffix absent from the declared entry. -/
def env8 : IEnv :=
  { appstore_input := [str "123456789 Foo"],
    appstore_list := [str "123456789 Foo (2.1)"] }

/-- C8 counterexample: in the converge-to-declared run the version
suffix of the actual entry `123456789 Foo (2.1)` is not stripped, so the
declared `123456789 Foo` does not match it and a purchase action is
produced instead of the claimed no-action match. -/
theorem c8_counterexample :
    (install cfgInstall porOK env8).1.actions =
      [IAct.masPurchase (str "123456789")] ∧
    (install cfgInstall porOK env8).1.actions ≠ [] := by
  constructor
  · decide
  · decide

/-! ### The `BrewFile.clean_list` model (lines 1617-1647) -/

/-- Removal loop pattern of `clean_list`: iterate over a snapshot of a
list and `remove` (erase the first occurrence of) every entry failing
the keep test, which is evaluated against data that the loop does not
modify. -/
def eraseLoop (keep : Str → Bool) (l : List Str) : List Str :=
  l.foldl (fun cur p => if keep p then cur else cur.erase p) l

theorem eraseLoop_aux (keep : Str → Bool) :
    ∀ (s k : List Str), (∀ x ∈ k, keep x = true) →
      s.foldl (fun cur p => if keep p then cur else cur.erase p) (k ++ s) =
        k ++ s.filter keep := by
  intro s
  induction s with
  | nil => intro k hk; simp
  | cons a s' ih =>
      intro k hk
      by_cases ha : keep a = true
      · have h1 : k ++ a :: s' = (k ++ [a]) ++ s' := by simp
        rw [List.foldl_cons, if_pos ha, h1, ih (k ++ [a]) ?_]
        · simp [List.filter_cons, ha]
        · intro x hx
          rcases List.mem_append.1 hx with hx | hx
          · exact hk x hx
          · simp at hx; subst hx; exact ha
      · have hak : a ∉ k := fun hmem => ha (hk a hmem)
        rw [List.foldl_cons, if_neg ha, List.erase_append_right _ hak,
          List.erase_cons_head, ih k hk]
        simp [List.filter_cons, ha]

theorem eraseLoop_eq_filter (keep : Str → Bool) (l : List Str) :
    eraseLoop keep l = l.filter keep := by
  have h := eraseLoop_aux keep l [] (by simp)
  simpa [eraseLoop] using h

/-- `BrewInfo.add` on a list field: extend with the values not already
present (`[x for x in val if x not in self.list_dic[name]]`). -/
def addL (cur val : List Str) : List Str :=
  cur ++ val.filter (fun x => decide (x ∉ cur))

/-- `BrewFile.get(name, only_ext=True)` on a list field: the main copy is
emptied and each satellite's list is appended. -/
def getOnlyExt (ext : List BrewSt) (sel : BrewSt → List Str) : List Str :=
  ext.foldl (fun acc b => acc ++ sel b) []

theorem getOnlyExt_aux {sel : BrewSt → List Str} {x : Str} :
    ∀ (ext : List BrewSt) (acc : List Str),
      (x ∈ acc ∨ ∃ b ∈ ext, x ∈ sel b) →
      x ∈ ext.foldl (fun acc b => acc ++ sel b) acc := by
  intro ext
  induction ext with
  | nil =>
      intro acc h
      rcases h with h | ⟨b, hb, _⟩
      · exact h
      · cases hb
  | cons e es ih =>
      intro acc h
      rw [List.foldl_cons]
      refine ih (acc ++ sel e) ?_
      rcases h with h | ⟨b, hb, hx⟩
      · exact Or.inl (List.mem_append.2 (Or.inl h))
      · rcases List.mem_cons.1 hb with hb | hb
        · subst hb; exact Or.inl (List.mem_append.2 (Or.inr hx))
        · exact Or.inr ⟨b, hb, hx⟩

theorem mem_getOnlyExt {ext : List BrewSt} (sel : BrewSt → List Str)
    {b : BrewSt} {x : Str} (hb : b ∈ ext) (hx : x ∈ sel b) :
    x ∈ getOnlyExt ext sel :=
  getOnlyExt_aux ext [] (Or.inr ⟨b, hb, hx⟩)

/-- Phase one of `clean_list` (lines 1620-1625): every declared input of
a document that is not in the root document's actual list is removed, per
domain. -/
def inputPrune (rootL b : BrewSt) : BrewSt :=
  { b with
      brew_input := eraseLoop (fun p => decide (p ∈ rootL.brew_list)) b.brew_input,
      tap_input := eraseLoop (fun p => decide (p ∈ rootL.tap_list)) b.tap_input,
      cask_input := eraseLoop (fun p => decide (p ∈ rootL.cask_list)) b.cask_input,
      appstore_input := eraseLoop (fun p => decide (p ∈ rootL.appstore_list))
        b.appstore_input }

/-- `BrewFile.list_to_main` (lines 1078-1088): absorb the root document's
actual lists into the main document, unless the root is the main
document. -/
def list_to_main (rootL main1 : BrewSt) (rootIsMain : Bool) : BrewSt :=
  if rootIsMain then main1
  else
    { main1 with
        brew_list := addL main1.brew_list rootL.brew_list,
        brew_full_list := addL main1.brew_full_list rootL.brew_list,
        tap_list := addL main1.tap_list rootL.tap_list,
        cask_list := addL main1.cask_list rootL.cask_list,
        cask_nocask_list := addL main1.cask_nocask_list rootL.cask_list,
        appstore_list := addL main1.appstore_list rootL.appstore_list,
        brew_list_opt := updateA main1.brew_list_opt rootL.brew_list_opt }

/-- The dedup pass of `clean_list` (lines 1630-1640): an entry of the
main document's absorbed lists that some satellite still declares is
removed from main (`tap_list` is deliberately not deduped, and
`cask_nocask_list` is checked against the cask inputs). -/
def mainDedup (ext : List BrewSt) (main2 : BrewSt) : BrewSt :=
  { main2 with
      brew_list := eraseLoop
        (fun p => decide (p ∉ getOnlyExt ext (fun b => b.brew_input)))
        main2.brew_list,
      cask_list := eraseLoop
        (fun p => decide (p ∉ getOnlyExt ext (fun b => b.cask_input)))
        main2.cask_list,
      cask_nocask_list := eraseLoop
        (fun p => decide (p ∉ getOnlyExt ext (fun b => b.cask_input)))
        main2.cask_nocask_list,
      appstore_list := eraseLoop
        (fun p => decide (p ∉ getOnlyExt ext (fun b => b.appstore_input)))
        main2.appstore_list }

/-- `BrewFile.clean_list` (lines 1617-1647) over the document graph:
root document, main document (the same object as root when `rootIsMain`),
and the satellite documents (which contain the root when it is not
main).  Returns the final main document and the final satellites. -/
def clean_list (root mainSt : BrewSt) (ext : List BrewSt)
    (rootIsMain : Bool) : BrewSt × List BrewSt :=
  let ext1 := ext.map (inputPrune root)
  let main1 := inputPrune root (if rootIsMain then root else mainSt)
  let main2 := list_to_main root main1 rootIsMain
  let main3 := mainDedup ext1 main2
  let main4 :=
    { main3 with
        main_list := addL main3.main_list main3.main_input,
        file_list := addL main3.file_list main3.file_input }
  (main4, ext1.map input_to_list)

/-- C4: after `clean_list`, for each identity domain (brew package, cask,
store app), an identifier declared in any satellite document's input is
absent from the main document's absorbed list (including the no-cask cask
list for the cask domain). -/
theorem c4_satellite_input_absent_from_main :
    ∀ (root mainSt : BrewSt) (ext : List BrewSt) (rootIsMain : Bool)
      (b : BrewSt) (p : Str),
      b ∈ (clean_list root mainSt ext rootIsMain).2 →
      (p ∈ b.brew_input →
        p ∉ (clean_list root mainSt ext rootIsMain).1.brew_list) ∧
      (p ∈ b.cask_input →
        p ∉ (clean_list root mainSt ext rootIsMain).1.cask_list ∧
        p ∉ (clean_list root mainSt ext rootIsMain).1.cask_nocask_list) ∧
      (p ∈ b.appstore_input →
        p ∉ (clean_list root mainSt ext rootIsMain).1.appstore_list) := by
  intro root mainSt ext rootIsMain b p hb
  simp only [clean_list, List.mem_map] at hb
  obtain ⟨b1, hb1, hbeq⟩ := hb
  have hbrew : b.brew_input = b1.brew_input := by
    rw [← hbeq]; rfl
  have hcask : b.cask_input = b1.cask_input := by
    rw [← hbeq]; rfl
  have happ : b.appstore_input = b1.appstore_input := by
    rw [← hbeq]; rfl
  have hmem : b1 ∈ ext.map (inputPrune root) := List.mem_map.2 hb1
  refine ⟨?_, ?_, ?_⟩
  · intro hp
    rw [hbrew] at hp
    have hin := mem_getOnlyExt (fun b => b.brew_input) hmem hp
    simp only [clean_list, mainDedup, eraseLoop_eq_filter]
    intro hcontra
    rw [List.mem_filter] at hcontra
    rw [decide_eq_true_eq] at hcontra
    exact hcontra.2 hin
  · intro hp
    rw [hcask] at hp
    have hin := mem_getOnlyExt (fun b => b.cask_input) hmem hp
    constructor
    · simp only [clean_list, mainDedup, eraseLoop_eq_filter]
      intro hcontra
      rw [List.mem_filter] at hcontra
      rw [decide_eq_true_eq] at hcontra
      exact hcontra.2 hin
    · simp only [clean_list, mainDedup, eraseLoop_eq_filter]
      intro hcontra
      rw [List.mem_filter] at hcontra
      rw [decide_eq_true_eq] at hcontra
      exact hcontra.2 hin
  · intro hp
    rw [happ] at hp
    have hin := mem_getOnlyExt (fun b => b.appstore_input) hmem hp
    simp only [clean_list, mainDedup, eraseLoop_eq_filter]
    intro hcontra
    rw [List.mem_filter] at hcontra
    rw [decide_eq_true_eq] at hcontra
    exact hcontra.2 hin

/-- Root-is-main document for the C4 witness: `x` declared and
installed. -/
def rootW : BrewSt :=
  { emptyBrew with brew_input := [str "x"], brew_list := [str "x"] }

/-- Satellite document for the C4 witness: `x` declared there too. -/
def bW0 : BrewSt := { emptyBrew with brew_input := [str "x"] }

theorem c4_satellite_input_absent_from_main_witness :
    str "x" ∉ (clean_list rootW rootW [bW0] true).1.brew_list :=
  (c4_satellite_input_absent_from_main rootW rootW [bW0] true
    (input_to_list (inputPrune rootW bW0)) (str "x")
    (by decide)).1 (by decide)

/-- C8 (amended): the trailing parenthesized version suffix is stripped
only by the cleanup matching — `appIdName` reduces `123456789 Foo (2.1)`
to id `123456789` and name `Foo`, the entry matches the declared
`123456789 Foo`, and the cleanup plan contains no removal for it — while
the install matching keeps the suffix in the name, so the same pair is
not a match there and the install run queues a purchase action. -/
theorem c8_version_strip_cleanup_only :
    appIdName (str "123456789 Foo (2.1)") = (str "123456789", str "Foo") ∧
    appIdName9 (str "123456789 Foo (2.1)") =
      (str "123456789", str "Foo (2.1)") ∧
    appstoreIsInput [str "123456789 Foo"] (str "123456789 Foo (2.1)") = true ∧
    cleanup ccfgW orc0 [] env8 = ([CAct.brewCleanup, CAct.rmCache], []) ∧
    (installAppstoreLoop cfgInstall porOK env8 {}).actions =
      [IAct.masPurchase (str "123456789")] := by
  refine ⟨by decide, by decide, by decide, by decide, by decide⟩

/-! ### String lemmas for the round trip -/

theorem cleanChars_append (a b : Str) :
    cleanChars (a ++ b) = cleanChars a ++ cleanChars b := by
  unfold cleanChars
  rw [List.filter_append, List.map_append]

theorem wordsAux_nonws {p : Str} (hws : p.all (fun c => ¬ isWs c) = true) :
    ∀ (rest : Str) (acc : Str),
      wordsAux (p ++ rest) acc = wordsAux rest (p.reverse ++ acc) := by
  induction p with
  | nil => intro rest acc; simp
  | cons c cs ih =>
      intro rest acc
      rw [List.all_cons, Bool.and_eq_true] at hws
      have hc : isWs c = false := by
        rcases hws with ⟨h1, _⟩
        simpa using h1
      show wordsAux (c :: (cs ++ rest)) acc = _
      rw [wordsAux, if_neg (by rw [hc]; exact Bool.false_ne_true),
        ih hws.2 rest (c :: acc)]
      simp

theorem words_single {p : Str} (hp : p ≠ [])
    (hws : p.all (fun c => ¬ isWs c) = true) : words p = [p] := by
  have h := wordsAux_nonws hws [] []
  rw [List.append_nil] at h
  rw [words, h, List.append_nil, wordsAux,
    if_neg (by simpa using hp)]
  simp

theorem words_word_space {p : Str} (hp : p ≠ [])
    (hws : p.all (fun c => ¬ isWs c) = true) (x : Str) :
    words (p ++ ' ' :: x) = p :: words x := by
  have h := wordsAux_nonws hws (' ' :: x) []
  rw [List.append_nil] at h
  rw [words, h, wordsAux]
  rw [if_pos (by simp [isWs]), if_neg (by simpa using hp)]
  simp [words]

theorem dropWhile_eq_self_of_head {c : Char} {l : Str} (h : c ∉ l) :
    l.dropWhile (· = c) = l := by
  cases l with
  | nil => rfl
  | cons a as =>
      have hne : ¬ (a = c) := by
        intro hac
        rw [hac] at h
        exact h (List.mem_cons_self c as)
      simp [List.dropWhile_cons, hne]

theorem stripChar_eq_self {c : Char} {l : Str} (h : c ∉ l) :
    stripChar c l = l := by
  unfold stripChar
  rw [dropWhile_eq_self_of_head h,
    dropWhile_eq_self_of_head (by simpa using h), List.reverse_reverse]

theorem length_cleanChars_le (l : Str) : (cleanChars l).length ≤ l.length := by
  unfold cleanChars
  rw [List.length_map]
  exact List.length_filter_le _ l

/-- A clean single-token identifier for the plain dialect: nonempty, no
whitespace, and fixed by the character cleaning of `read`. -/
def tokenOK (p : Str) : Prop :=
  p ≠ [] ∧ p.all (fun c => ¬ isWs c) = true ∧ cleanChars p = p

/-- Normalized option string: absent, or starting with the separating
space the reader itself produces. -/
def optOK (o : Str) : Prop := o = [] ∨ o.head? = some ' '

/-- A payload whose cleaned token list cannot trigger the first
dialect-normalization pop when it follows a directive token. -/
def popSafeTail (x : Str) : Prop :=
  (words (cleanChars x)).length < 2 ∨
  ((words (cleanChars x)).get? 0 ≠ some (str "tap") ∧
   (words (cleanChars x)).get? 0 ≠ some (str "cask"))

theorem words_cons_space (x : Str) : words (' ' :: x) = words x := by
  rw [words, wordsAux]
  simp [isWs, words]

theorem cleanChars_cons_space (t : Str) :
    cleanChars (' ' :: t) = ' ' :: cleanChars t := by
  unfold cleanChars
  rw [List.filter_cons]
  simp

theorem words_clean_payload {p o : Str} (hp : tokenOK p) (ho : optOK o) :
    words (cleanChars (p ++ o)) = p :: words (cleanChars o) := by
  obtain ⟨hp1, hp2, hp3⟩ := hp
  rcases ho with ho | ho
  · subst ho
    rw [List.append_nil]
    rw [hp3, words_single hp1 hp2]
    rfl
  · obtain ⟨t, rfl⟩ : ∃ t, o = ' ' :: t := by
      cases o with
      | nil => cases ho
      | cons c t =>
          simp only [List.head?_cons, Option.some.injEq] at ho
          exact ⟨t, by rw [ho]⟩
    rw [cleanChars_append, hp3, cleanChars_cons_space,
      words_word_space hp1 hp2, words_cons_space]

theorem cArgs_directive {w : Str} (hw1 : w ≠ [])
    (hw2 : w.all (fun c => ¬ isWs c) = true)
    (hw3 : cleanChars w = w) (rest : Str) :
    cArgs (w ++ ' ' :: rest) = w :: words (cleanChars rest) := by
  unfold cArgs
  rw [show w ++ ' ' :: rest = w ++ (' ' :: rest) from rfl,
    cleanChars_append, hw3, cleanChars_cons_space,
    words_word_space hw1 hw2]

theorem args1of_eq {a : List Str} (h : pop1b a = false) : args1of a = a := by
  rw [args1of, h]
  simp

theorem args2of_eq {a : List Str} (h : pop2b a = false) : args2of a = a := by
  rw [args2of, h]
  simp

theorem pop1b_payload {a b : Str} {l : List Str}
    (hb1 : b ≠ str "tap") (hb2 : b ≠ str "cask") :
    pop1b (a :: b :: l) = false := by
  unfold pop1b
  rw [decide_eq_false_iff_not]
  rintro ⟨-, h | h⟩
  · exact hb1 (by simpa using h)
  · exact hb2 (by simpa using h)

theorem pop1b_short {a : List Str} (h : a.length ≤ 2) : pop1b a = false := by
  unfold pop1b
  rw [decide_eq_false_iff_not]
  rintro ⟨hl, -⟩
  omega

theorem pop1b_safe {x : Str} {ws : List Str}
    (h : ws.length < 2 ∨
      (ws.get? 0 ≠ some (str "tap") ∧ ws.get? 0 ≠ some (str "cask"))) :
    pop1b (x :: ws) = false := by
  unfold pop1b
  rw [decide_eq_false_iff_not]
  rintro ⟨hl, hor⟩
  simp only [List.length_cons] at hl
  rcases h with h | ⟨h1, h2⟩
  · omega
  · have hg : (x :: ws).get? 1 = ws.get? 0 := rfl
    rw [hg] at hor
    cases hws : ws.get? 0 with
    | none =>
        rw [hws] at hor
        rcases hor with h | h <;> simp [str] at h
    | some w =>
        rw [hws] at hor
        simp only [Option.getD_some] at hor
        rcases hor with h | h
        · exact h1 (by rw [hws, h])
        · exact h2 (by rw [hws, h])

theorem pop2b_payload {a b : Str} {l : List Str} (hb : b ≠ str "install") :
    pop2b (a :: b :: l) = false := by
  unfold pop2b
  rw [decide_eq_false_iff_not]
  rintro ⟨-, -, h⟩
  exact hb (by simpa using h)

theorem pop2b_head {a : Str} {l : List Str}
    (h1 : a ≠ str "brew") (h2 : a ≠ str "cask") :
    pop2b (a :: l) = false := by
  unfold pop2b
  rw [decide_eq_false_iff_not]
  rintro ⟨-, h, -⟩
  rcases h with h | h
  · exact h1 (by simpa using h)
  · exact h2 (by simpa using h)

theorem pop2b_short {a : List Str} (h : a.length ≤ 2) : pop2b a = false := by
  unfold pop2b
  rw [decide_eq_false_iff_not]
  rintro ⟨hl, -⟩
  omega

theorem parseLine_brew (orc : TapOracle) (form0 : Form) {p o : Str}
    (hp : tokenOK p) (ho : optOK o)
    (h1 : p ≠ str "tap") (h2 : p ≠ str "cask") (h3 : p ≠ str "install") :
    ∃ f' o', parseLine orc form0 (str "brew " ++ p ++ o) =
      some (f', Eff.brewE p o') := by
  have hpre : str "brew " ++ p ++ o = str "brew" ++ ' ' :: (p ++ o) := rfl
  have hargs : cArgs (str "brew " ++ p ++ o) =
      str "brew" :: p :: words (cleanChars o) := by
    rw [hpre, cArgs_directive (by decide) (by decide) (by decide),
      words_clean_payload hp ho]
  have hpop1 : pop1b (cArgs (str "brew " ++ p ++ o)) = false := by
    rw [hargs]; exact pop1b_payload h1 h2
  have hpop2 : pop2b (cArgs (str "brew " ++ p ++ o)) = false := by
    rw [hargs]; exact pop2b_payload h3
  have hpopped : poppedArgs (str "brew " ++ p ++ o) =
      str "brew" :: p :: words (cleanChars o) := by
    rw [poppedArgs, args1of_eq hpop1, args2of_eq hpop2, hargs]
  have hcmd : dispatchCmd (str "brew " ++ p ++ o) = str "brew" := by
    rw [dispatchCmd, hpopped]; rfl
  unfold parseLine
  rw [if_neg (by rw [hargs]; simp)]
  dsimp only
  rw [hcmd, if_pos (Or.inl rfl), hpopped]
  simp only [List.get?_cons_succ, List.get?_cons_zero, Option.getD_some]
  exact ⟨_, _, rfl⟩

theorem parseLine_tap (orc : TapOracle) (form0 : Form) {t : Str}
    (ht : tokenOK t) :
    ∃ f', parseLine orc form0 (str "tap " ++ t) = some (f', Eff.tapE t) := by
  have hpre : str "tap " ++ t = str "tap" ++ ' ' :: t := rfl
  have hargs : cArgs (str "tap " ++ t) = [str "tap", t] := by
    rw [hpre, cArgs_directive (by decide) (by decide) (by decide),
      ht.2.2, words_single ht.1 ht.2.1]
  have hpop1 : pop1b (cArgs (str "tap " ++ t)) = false := by
    rw [hargs]; exact pop1b_short (by simp)
  have hpop2 : pop2b (cArgs (str "tap " ++ t)) = false := by
    rw [hargs]; exact pop2b_short (by simp)
  have hpopped : poppedArgs (str "tap " ++ t) = [str "tap", t] := by
    rw [poppedArgs, args1of_eq hpop1, args2of_eq hpop2, hargs]
  have hcmd : dispatchCmd (str "tap " ++ t) = str "tap" := by
    rw [dispatchCmd, hpopped]; rfl
  unfold parseLine
  rw [if_neg (by rw [hargs]; simp)]
  dsimp only
  rw [hcmd, if_neg (by rintro (h | h) <;> cases h),
    if_pos rfl, hpopped]
  simp only [List.get?_cons_succ, List.get?_cons_zero, Option.getD_some]
  exact ⟨_, rfl⟩

theorem parseLine_cask (orc : TapOracle) (form0 : Form) {c : Str}
    (hc : tokenOK c) :
    ∃ f', parseLine orc form0 (str "cask " ++ c) = some (f', Eff.caskE c) := by
  have hpre : str "cask " ++ c = str "cask" ++ ' ' :: c := rfl
  have hargs : cArgs (str "cask " ++ c) = [str "cask", c] := by
    rw [hpre, cArgs_directive (by decide) (by decide) (by decide),
      hc.2.2, words_single hc.1 hc.2.1]
  have hpop1 : pop1b (cArgs (str "cask " ++ c)) = false := by
    rw [hargs]; exact pop1b_short (by simp)
  have hpop2 : pop2b (cArgs (str "cask " ++ c)) = false := by
    rw [hargs]; exact pop2b_short (by simp)
  have hpopped : poppedArgs (str "cask " ++ c) = [str "cask", c] := by
    rw [poppedArgs, args1of_eq hpop1, args2of_eq hpop2, hargs]
  have hcmd : dispatchCmd (str "cask " ++ c) = str "cask" := by
    rw [dispatchCmd, hpopped]; rfl
  unfold parseLine
  rw [if_neg (by rw [hargs]; simp)]
  dsimp only
  rw [hcmd, if_neg (by decide), if_neg (by decide), if_neg (by decide),
    if_pos rfl, hpopped]
  simp only [List.get?_cons_succ, List.get?_cons_zero, Option.getD_some]
  exact ⟨_, rfl⟩

theorem length_dropWhile_le (p : Char → Bool) (l : Str) :
    (l.dropWhile p).length ≤ l.length := by
  induction l with
  | nil => simp
  | cons a as ih =>
      rw [List.dropWhile_cons]
      split
      · exact Nat.le_trans ih (Nat.le_succ _)
      · exact Nat.le_refl _

theorem length_strip_le (l : Str) : (strip l).length ≤ l.length := by
  unfold strip
  rw [List.length_reverse]
  calc ((l.dropWhile isWs).reverse.dropWhile isWs).length
      ≤ (l.dropWhile isWs).reverse.length := length_dropWhile_le _ _
    _ = (l.dropWhile isWs).length := List.length_reverse _
    _ ≤ l.length := length_dropWhile_le _ _

theorem dropSpace_of_strip {a : Str} (ha : strip a = a) :
    a.dropWhile (· = ' ') = a := by
  cases a with
  | nil => rfl
  | cons c t =>
      by_cases hc : c = ' '
      · exfalso
        have h1 : (c :: t).dropWhile isWs = t.dropWhile isWs := by
          rw [List.dropWhile_cons, if_pos (by rw [hc]; decide)]
        have h2 : (strip (c :: t)).length ≤ t.length := by
          unfold strip
          rw [h1, List.length_reverse]
          calc ((t.dropWhile isWs).reverse.dropWhile isWs).length
              ≤ (t.dropWhile isWs).reverse.length := length_dropWhile_le _ _
            _ = (t.dropWhile isWs).length := List.length_reverse _
            _ ≤ t.length := length_dropWhile_le _ _
        rw [ha] at h2
        simp at h2
      · rw [List.dropWhile_cons, if_neg (by simpa using hc)]

theorem subAppstore_line {a : Str} (ha : strip a = a) :
    subAppstore (str "appstore " ++ a) = a := by
  unfold subAppstore
  have h1 : (str "appstore " ++ a).dropWhile (· = ' ') =
      str "appstore " ++ a := by
    show ('a' :: (str "ppstore " ++ a)).dropWhile (· = ' ') = _
    rw [List.dropWhile_cons, if_neg (by decide)]
    rfl
  rw [h1, if_pos]
  · have h2 : str "appstore " ++ a = str "appstore" ++ ' ' :: a := rfl
    rw [h2]
    have h3 : (str "appstore" ++ ' ' :: a).drop 8 = ' ' :: a :=
      List.drop_left (str "appstore") (' ' :: a)
    rw [h3, List.dropWhile_cons, if_pos (by decide)]
    exact dropSpace_of_strip ha
  · have h2 : str "appstore " ++ a = str "appstore" ++ (' ' :: a) := rfl
    rw [h2, List.isPrefixOf_iff_prefix]
    exact List.prefix_append _ _

theorem parseLine_appstore (orc : TapOracle) (form0 : Form) {a : Str}
    (ha : strip a = a) (hq1 : '\'' ∉ a) (hq2 : '"' ∉ a)
    (hps : popSafeTail a) :
    ∃ f', parseLine orc form0 (str "appstore " ++ a) =
      some (f', Eff.appstoreE a) := by
  have hpre : str "appstore " ++ a = str "appstore" ++ ' ' :: a := rfl
  have hargs : cArgs (str "appstore " ++ a) =
      str "appstore" :: words (cleanChars a) := by
    rw [hpre, cArgs_directive (by decide) (by decide) (by decide)]
  have hpop1 : pop1b (cArgs (str "appstore " ++ a)) = false := by
    rw [hargs]; exact pop1b_safe hps
  have hpop2 : pop2b (cArgs (str "appstore " ++ a)) = false := by
    rw [hargs]; exact pop2b_head (by decide) (by decide)
  have hpopped : poppedArgs (str "appstore " ++ a) =
      str "appstore" :: words (cleanChars a) := by
    rw [poppedArgs, args1of_eq hpop1, args2of_eq hpop2, hargs]
  have hcmd : dispatchCmd (str "appstore " ++ a) = str "appstore" := by
    rw [dispatchCmd, hpopped]; rfl
  unfold parseLine
  rw [if_neg (by rw [hargs]; simp)]
  dsimp only
  rw [hcmd, if_neg (by decide), if_neg (by decide), if_neg (by decide),
    if_neg (by decide),
    if_neg (by rintro ⟨h, -⟩; simp [str] at h),
    if_pos (Or.inl rfl),
    subAppstore_line ha, ha, stripChar_eq_self hq1, stripChar_eq_self hq2]
  exact ⟨_, rfl⟩

theorem parseLine_main (orc : TapOracle) (form0 : Form) {m : Str}
    (hm : tokenOK m) :
    ∃ f', parseLine orc form0 (str "main " ++ m) = some (f', Eff.mainE m) := by
  have hpre : str "main " ++ m = str "main" ++ ' ' :: m := rfl
  have hargs : cArgs (str "main " ++ m) = [str "main", m] := by
    rw [hpre, cArgs_directive (by decide) (by decide) (by decide),
      hm.2.2, words_single hm.1 hm.2.1]
  have hpop1 : pop1b (cArgs (str "main " ++ m)) = false := by
    rw [hargs]; exact pop1b_short (by simp)
  have hpop2 : pop2b (cArgs (str "main " ++ m)) = false := by
    rw [hargs]; exact pop2b_short (by simp)
  have hpopped : poppedArgs (str "main " ++ m) = [str "main", m] := by
    rw [poppedArgs, args1of_eq hpop1, args2of_eq hpop2, hargs]
  have hcmd : dispatchCmd (str "main " ++ m) = str "main" := by
    rw [dispatchCmd, hpopped]; rfl
  unfold parseLine
  rw [if_neg (by rw [hargs]; simp)]
  dsimp only
  rw [hcmd, if_neg (by decide), if_neg (by decide), if_neg (by decide),
    if_neg (by decide),
    if_neg (by rintro ⟨h, -⟩; simp [str] at h),
    if_neg (by decide), if_pos rfl, hpopped]
  simp only [List.get?_cons_succ, List.get?_cons_zero, Option.getD_some]
  exact ⟨_, rfl⟩

theorem parseLine_file (orc : TapOracle) (form0 : Form) {m : Str}
    (hm : tokenOK m) :
    ∃ f', parseLine orc form0 (str "file " ++ m) = some (f', Eff.fileE m) := by
  have hpre : str "file " ++ m = str "file" ++ ' ' :: m := rfl
  have hargs : cArgs (str "file " ++ m) = [str "file", m] := by
    rw [hpre, cArgs_directive (by decide) (by decide) (by decide),
      hm.2.2, words_single hm.1 hm.2.1]
  have hpop1 : pop1b (cArgs (str "file " ++ m)) = false := by
    rw [hargs]; exact pop1b_short (by simp)
  have hpop2 : pop2b (cArgs (str "file " ++ m)) = false := by
    rw [hargs]; exact pop2b_short (by simp)
  have hpopped : poppedArgs (str "file " ++ m) = [str "file", m] := by
    rw [poppedArgs, args1of_eq hpop1, args2of_eq hpop2, hargs]
  have hcmd : dispatchCmd (str "file " ++ m) = str "file" := by
    rw [dispatchCmd, hpopped]; rfl
  unfold parseLine
  rw [if_neg (by rw [hargs]; simp)]
  dsimp only
  rw [hcmd, if_neg (by decide), if_neg (by decide), if_neg (by decide),
    if_neg (by decide),
    if_neg (by rintro ⟨h, -⟩; simp [str] at h),
    if_neg (by decide), if_neg (by decide), if_pos (Or.inl rfl), hpopped]
  simp only [List.get?_cons_succ, List.get?_cons_zero, Option.getD_some]
  exact ⟨_, rfl⟩

theorem parseLine_before (orc : TapOracle) (form0 : Form) {c : Str}
    (hn : strip (unwords (words c)) = c) (hps : popSafeTail c) :
    ∃ f', parseLine orc form0 (str "before " ++ c) =
      some (f', Eff.beforeE c) := by
  have hpre : str "before " ++ c = str "before" ++ ' ' :: c := rfl
  have hargs : cArgs (str "before " ++ c) =
      str "before" :: words (cleanChars c) := by
    rw [hpre, cArgs_directive (by decide) (by decide) (by decide)]
  have hpop1 : pop1b (cArgs (str "before " ++ c)) = false := by
    rw [hargs]; exact pop1b_safe hps
  have hpop2 : pop2b (cArgs (str "before " ++ c)) = false := by
    rw [hargs]; exact pop2b_head (by decide) (by decide)
  have hpopped : poppedArgs (str "before " ++ c) =
      str "before" :: words (cleanChars c) := by
    rw [poppedArgs, args1of_eq hpop1, args2of_eq hpop2, hargs]
  have hcmd : dispatchCmd (str "before " ++ c) = str "before" := by
    rw [dispatchCmd, hpopped]; rfl
  have hwords : words (str "before " ++ c) = str "before" :: words c := by
    rw [hpre, words_word_space (by decide) (by decide)]
  unfold parseLine
  rw [if_neg (by rw [hargs]; simp)]
  dsimp only
  rw [hcmd, if_neg (by decide), if_neg (by decide), if_neg (by decide),
    if_neg (by decide),
    if_neg (by rintro ⟨h, -⟩; simp [str] at h),
    if_neg (by decide), if_neg (by decide),
    if_neg (by rintro (h | h) <;> simp [str, lowerStr] at h),
    if_pos rfl, hwords]
  simp only [List.drop_succ_cons, List.drop_zero]
  rw [hn]
  exact ⟨_, rfl⟩

theorem parseLine_after (orc : TapOracle) (form0 : Form) {c : Str}
    (hn : strip (unwords (words c)) = c) (hps : popSafeTail c) :
    ∃ f', parseLine orc form0 (str "after " ++ c) =
      some (f', Eff.afterE c) := by
  have hpre : str "after " ++ c = str "after" ++ ' ' :: c := rfl
  have hargs : cArgs (str "after " ++ c) =
      str "after" :: words (cleanChars c) := by
    rw [hpre, cArgs_directive (by decide) (by decide) (by decide)]
  have hpop1 : pop1b (cArgs (str "after " ++ c)) = false := by
    rw [hargs]; exact pop1b_safe hps
  have hpop2 : pop2b (cArgs (str "after " ++ c)) = false := by
    rw [hargs]; exact pop2b_head (by decide) (by decide)
  have hpopped : poppedArgs (str "after " ++ c) =
      str "after" :: words (cleanChars c) := by
    rw [poppedArgs, args1of_eq hpop1, args2of_eq hpop2, hargs]
  have hcmd : dispatchCmd (str "after " ++ c) = str "after" := by
    rw [dispatchCmd, hpopped]; rfl
  have hwords : words (str "after " ++ c) = str "after" :: words c := by
    rw [hpre, words_word_space (by decide) (by decide)]
  unfold parseLine
  rw [if_neg (by rw [hargs]; simp)]
  dsimp only
  rw [hcmd, if_neg (by decide), if_neg (by decide), if_neg (by decide),
    if_neg (by decide),
    if_neg (by rintro ⟨h, -⟩; simp [str] at h),
    if_neg (by decide), if_neg (by decide),
    if_neg (by rintro (h | h) <;> simp [str, lowerStr] at h),
    if_neg (by decide), if_pos rfl, hwords]
  simp only [List.drop_succ_cons, List.drop_zero]
  rw [hn]
  exact ⟨_, rfl⟩

theorem parseLine_raw (orc : TapOracle) (form0 : Form) {c : Str}
    (hne : cArgs c ≠ []) (hnr : ¬ recognizedCmd (dispatchCmd c))
    (hs : strip c = c) :
    ∃ f', parseLine orc form0 c = some (f', Eff.rawE c) := by
  unfold recognizedCmd at hnr
  push_neg at hnr
  obtain ⟨hbrew, hinstall, htap, htapall, hcask, hmas, happ, hmain,
    hfile, hbf, hbefore, hafter⟩ := hnr
  unfold parseLine
  rw [if_neg hne]
  dsimp only
  rw [if_neg (by rintro (h | h); exacts [hbrew h, hinstall h]),
    if_neg htap, if_neg htapall, if_neg hcask,
    if_neg (by rintro ⟨h, -⟩; exact hmas h),
    if_neg (by rintro (h | h); exacts [happ h, hmas h]),
    if_neg hmain,
    if_neg (by rintro (h | h); exacts [hfile h, hbf h]),
    if_neg hbefore, if_neg hafter, hs]
  exact ⟨_, rfl⟩

theorem matchHashKw_head {kw : Str} {c0 : Char} {rest : Str} (h : c0 ≠ '#') :
    matchHashKw kw (c0 :: rest) = false := by
  unfold matchHashKw
  simp [h]

theorem readLine_head {orc : TapOracle} {ctx : RCtx} {c0 : Char} {rest : Str}
    (hig : ctx.ign = false) (hc1 : c0 ≠ '#') (hc2 : c0 ≠ ' ') :
    readLine orc ctx (c0 :: rest) = (parseLine orc ctx.form (c0 :: rest)).map
      (fun fe => { st := applyEff ctx.st fe.2, form := fe.1, ign := false }) := by
  apply readLine_active
  · rw [ignAfter, matchHashKw_head hc1, matchHashKw_head hc1]
    simp [hig]
  · simp [isBlankLine, hc2]
  · unfold isCommentLine
    rw [List.dropWhile_cons, if_neg (by simpa using hc2)]
    split
    · next heq =>
        exfalso
        exact hc1 (List.head_eq_of_cons_eq heq)
    · rfl

theorem readLine_blank {orc : TapOracle} {ctx : RCtx} (hig : ctx.ign = false) :
    readLine orc ctx [] = some ctx := by
  rw [readLine]
  have h1 : ignAfter ctx.ign [] = false := by
    rw [ignAfter]
    simp [matchHashKw, hig]
  simp only [h1]
  rw [if_neg (by simp), if_pos (Or.inl (by simp [isBlankLine]))]
  cases ctx with
  | mk st form ign => simp at hig; rw [hig]

theorem readLine_comment {orc : TapOracle} {ctx : RCtx} {rest : Str}
    (hig : ctx.ign = false)
    (h1 : matchHashKw (str "BREWFILE_IGNORE") ('#' :: rest) = false)
    (h2 : matchHashKw (str "BREWFILE_ENDIGNORE") ('#' :: rest) = false) :
    readLine orc ctx ('#' :: rest) = some ctx := by
  rw [readLine]
  have hign : ignAfter ctx.ign ('#' :: rest) = false := by
    rw [ignAfter, h1, h2]
    simp [hig]
  simp only [hign]
  rw [if_neg (by simp), if_pos (Or.inr (by
    unfold isCommentLine
    rw [List.dropWhile_cons, if_neg (by decide)]
    rfl))]
  cases ctx with
  | mk st form ign => simp at hig; rw [hig]

theorem readLine_brewL (orc : TapOracle) {ctx : RCtx} {p o : Str}
    (hig : ctx.ign = false) (hp : tokenOK p) (ho : optOK o)
    (h1 : p ≠ str "tap") (h2 : p ≠ str "cask") (h3 : p ≠ str "install") :
    ∃ f' opts', readLine orc ctx (str "brew " ++ p ++ o) =
      some { st := { ctx.st with
                       brew_input := ctx.st.brew_input ++ [p],
                       brew_input_opt := opts' },
             form := f', ign := false } := by
  obtain ⟨f', o', he⟩ :=
    parseLine_brew orc ctx.form hp ho h1 h2 h3
  have hr : readLine orc ctx (str "brew " ++ p ++ o) =
      (parseLine orc ctx.form (str "brew " ++ p ++ o)).map
        (fun fe => { st := applyEff ctx.st fe.2, form := fe.1, ign := false }) :=
    readLine_head hig (by decide) (by decide)
  rw [hr, he]
  exact ⟨f', _, rfl⟩

theorem readLine_tapL (orc : TapOracle) {ctx : RCtx} {t : Str}
    (hig : ctx.ign = false) (ht : tokenOK t) :
    ∃ f', readLine orc ctx (str "tap " ++ t) =
      some { st := { ctx.st with tap_input := ctx.st.tap_input ++ [t] },
             form := f', ign := false } := by
  obtain ⟨f', he⟩ := parseLine_tap orc ctx.form ht
  have hr : readLine orc ctx (str "tap " ++ t) =
      (parseLine orc ctx.form (str "tap " ++ t)).map
        (fun fe => { st := applyEff ctx.st fe.2, form := fe.1, ign := false }) :=
    readLine_head hig (by decide) (by decide)
  rw [hr, he]
  exact ⟨f', rfl⟩

theorem readLine_caskL (orc : TapOracle) {ctx : RCtx} {c : Str}
    (hig : ctx.ign = false) (hc : tokenOK c) :
    ∃ f', readLine orc ctx (str "cask " ++ c) =
      some { st := { ctx.st with cask_input := ctx.st.cask_input ++ [c] },
             form := f', ign := false } := by
  obtain ⟨f', he⟩ := parseLine_cask orc ctx.form hc
  have hr : readLine orc ctx (str "cask " ++ c) =
      (parseLine orc ctx.form (str "cask " ++ c)).map
        (fun fe => { st := applyEff ctx.st fe.2, form := fe.1, ign := false }) :=
    readLine_head hig (by decide) (by decide)
  rw [hr, he]
  exact ⟨f', rfl⟩

theorem readLine_appstoreL (orc : TapOracle) {ctx : RCtx} {a : Str}
    (hig : ctx.ign = false) (ha : strip a = a) (hq1 : '\'' ∉ a)
    (hq2 : '"' ∉ a) (hps : popSafeTail a) :
    ∃ f', readLine orc ctx (str "appstore " ++ a) =
      some { st := { ctx.st with
                       appstore_input := ctx.st.appstore_input ++ [a] },
             form := f', ign := false } := by
  obtain ⟨f', he⟩ :=
    parseLine_appstore orc ctx.form ha hq1 hq2 hps
  have hr : readLine orc ctx (str "appstore " ++ a) =
      (parseLine orc ctx.form (str "appstore " ++ a)).map
        (fun fe => { st := applyEff ctx.st fe.2, form := fe.1, ign := false }) :=
    readLine_head hig (by decide) (by decide)
  rw [hr, he]
  exact ⟨f', rfl⟩

theorem readLine_mainL (orc : TapOracle) {ctx : RCtx} {m : Str}
    (hig : ctx.ign = false) (hm : tokenOK m) :
    ∃ f', readLine orc ctx (str "main " ++ m) =
      some { st := { ctx.st with
                       main_input := ctx.st.main_input ++ [m],
                       file_input := ctx.st.file_input ++ [m] },
             form := f', ign := false } := by
  obtain ⟨f', he⟩ := parseLine_main orc ctx.form hm
  have hr : readLine orc ctx (str "main " ++ m) =
      (parseLine orc ctx.form (str "main " ++ m)).map
        (fun fe => { st := applyEff ctx.st fe.2, form := fe.1, ign := false }) :=
    readLine_head hig (by decide) (by decide)
  rw [hr, he]
  exact ⟨f', rfl⟩

theorem readLine_fileL (orc : TapOracle) {ctx : RCtx} {m : Str}
    (hig : ctx.ign = false) (hm : tokenOK m) :
    ∃ f', readLine orc ctx (str "file " ++ m) =
      some { st := { ctx.st with file_input := ctx.st.file_input ++ [m] },
             form := f', ign := false } := by
  obtain ⟨f', he⟩ := parseLine_file orc ctx.form hm
  have hr : readLine orc ctx (str "file " ++ m) =
      (parseLine orc ctx.form (str "file " ++ m)).map
        (fun fe => { st := applyEff ctx.st fe.2, form := fe.1, ign := false }) :=
    readLine_head hig (by decide) (by decide)
  rw [hr, he]
  exact ⟨f', rfl⟩

theorem readLine_beforeL (orc : TapOracle) {ctx : RCtx} {c : Str}
    (hig : ctx.ign = false) (hn : strip (unwords (words c)) = c)
    (hps : popSafeTail c) :
    ∃ f', readLine orc ctx (str "before " ++ c) =
      some { st := { ctx.st with
                       before_input := ctx.st.before_input ++ [c] },
             form := f', ign := false } := by
  obtain ⟨f', he⟩ := parseLine_before orc ctx.form hn hps
  have hr : readLine orc ctx (str "before " ++ c) =
      (parseLine orc ctx.form (str "before " ++ c)).map
        (fun fe => { st := applyEff ctx.st fe.2, form := fe.1, ign := false }) :=
    readLine_head hig (by decide) (by decide)
  rw [hr, he]
  exact ⟨f', rfl⟩

theorem readLine_afterL (orc : TapOracle) {ctx : RCtx} {c : Str}
    (hig : ctx.ign = false) (hn : strip (unwords (words c)) = c)
    (hps : popSafeTail c) :
    ∃ f', readLine orc ctx (str "after " ++ c) =
      some { st := { ctx.st with after_input := ctx.st.after_input ++ [c] },
             form := f', ign := false } := by
  obtain ⟨f', he⟩ := parseLine_after orc ctx.form hn hps
  have hr : readLine orc ctx (str "after " ++ c) =
      (parseLine orc ctx.form (str "after " ++ c)).map
        (fun fe => { st := applyEff ctx.st fe.2, form := fe.1, ign := false }) :=
    readLine_head hig (by decide) (by decide)
  rw [hr, he]
  exact ⟨f', rfl⟩

/-- A line that reaches the `raw_command` fallback of the dispatch on
re-reading. -/
def rawOK (x : Str) : Prop :=
  strip x = x ∧ cArgs x ≠ [] ∧ ¬ recognizedCmd (dispatchCmd x) ∧
  isCommentLine x = false

theorem readLine_rawL (orc : TapOracle) {ctx : RCtx} {x : Str}
    (hig : ctx.ign = false) (hx : rawOK x) :
    ∃ f', readLine orc ctx x =
      some { st := { ctx.st with cmd_input := ctx.st.cmd_input ++ [x] },
             form := f', ign := false } := by
  obtain ⟨hs, hne, hnr, hcm⟩ := hx
  have hxne : x ≠ [] := by
    intro h
    rw [h] at hne
    exact hne rfl
  obtain ⟨c0, rest, rfl⟩ : ∃ c0 rest, x = c0 :: rest := by
    cases x with
    | nil => exact absurd rfl hxne
    | cons a b => exact ⟨a, b, rfl⟩
  have hc2 : c0 ≠ ' ' := by
    intro h
    have hd := dropSpace_of_strip hs
    rw [List.dropWhile_cons, if_pos (by simpa using h)] at hd
    have := congrArg List.length hd
    have hle := length_dropWhile_le (· = ' ') rest
    simp at this
    omega
  have hc1 : c0 ≠ '#' := by
    intro h
    unfold isCommentLine at hcm
    rw [List.dropWhile_cons, if_neg (by rw [h]; decide)] at hcm
    rw [h] at hcm
    simp at hcm
  obtain ⟨f', he⟩ :=
    parseLine_raw orc ctx.form hne hnr hs
  rw [readLine_head hig hc1 hc2, he]
  exact ⟨f', rfl⟩

theorem readFrom_append {orc : TapOracle} (l1 l2 : List Str) (ctx : RCtx) :
    readFrom orc ctx (l1 ++ l2) =
      (readFrom orc ctx l1).bind (fun c => readFrom orc c l2) := by
  unfold readFrom
  rw [List.foldlM_append]
  rfl

/-- Configuration of the plain-dialect write used for the round trip. -/
def wcfgP : WCfg :=
  { form := Form.fnone, caskonly := false, appstore := 1, isMac := true,
    cask_repo := str "homebrew/cask" }

/-- Normalized hook command: whitespace-normalized, and its cleaned token
list does not trigger the dialect-normalization pop. -/
def hookOK (c : Str) : Prop := strip (unwords (words c)) = c ∧ popSafeTail c

/-- A package identifier that parses back as such after a `brew` prefix. -/
def brewTokenOK (p : Str) : Prop :=
  tokenOK p ∧ p ≠ str "tap" ∧ p ≠ str "cask" ∧ p ≠ str "install"

/-- A store-app entry that round trips through an `appstore` line. -/
def appOK (a : Str) : Prop :=
  strip a = a ∧ '\'' ∉ a ∧ '"' ∉ a ∧ popSafeTail a

/-- A line skipped by the reader without effect: blank, or a comment that
is not an ignore marker. -/
def skipLineOK (l : Str) : Prop :=
  (l = [] ∨ l.head? = some '#') ∧
  matchHashKw (str "BREWFILE_IGNORE") l = false ∧
  matchHashKw (str "BREWFILE_ENDIGNORE") l = false

instance (l : Str) : Decidable (skipLineOK l) := by
  unfold skipLineOK
  infer_instance

theorem readLine_skipL {orc : TapOracle} {ctx : RCtx} {l : Str}
    (hig : ctx.ign = false) (h : skipLineOK l) :
    readLine orc ctx l = some ctx := by
  obtain ⟨h0, h1, h2⟩ := h
  rcases h0 with h0 | h0
  · rw [h0]; exact readLine_blank hig
  · obtain ⟨rest, rfl⟩ : ∃ rest, l = '#' :: rest := by
      cases l with
      | nil => cases h0
      | cons a b =>
          simp only [List.head?_cons, Option.some.injEq] at h0
          exact ⟨b, by rw [h0]⟩
    exact readLine_comment hig h1 h2

theorem readFrom_skips {orc : TapOracle} :
    ∀ (ls : List Str) (ctx : RCtx), ctx.ign = false →
      (∀ l ∈ ls, skipLineOK l) → readFrom orc ctx ls = some ctx := by
  intro ls
  induction ls with
  | nil => intro ctx _ _; rfl
  | cons a as ih =>
      intro ctx hig h
      have hc : readFrom orc ctx (a :: as) =
          (readLine orc ctx a).bind (fun c => readFrom orc c as) := rfl
      rw [hc, readLine_skipL hig (h a (List.mem_cons_self a as)),
        Option.some_bind]
      exact ih ctx hig (fun l hl => h l (List.mem_cons_of_mem a hl))

theorem readFrom_cons {orc : TapOracle} {ctx : RCtx} {x : Str}
    {rest : List Str} :
    readFrom orc ctx (x :: rest) =
      (readLine orc ctx x).bind (fun c => readFrom orc c rest) := rfl

theorem lookupA_mem {ps : List (Str × Str)} {k v : Str}
    (h : lookupA ps k = some v) : (k, v) ∈ ps := by
  induction ps with
  | nil => cases h
  | cons kv rest ih =>
      obtain ⟨k', v'⟩ := kv
      rw [lookupA] at h
      split at h
      · next heq =>
          cases h
          rw [heq]
          exact List.mem_cons_self _ _
      · exact List.mem_cons_of_mem _ (ih h)

theorem mem_delA {ps : List (Str × Str)} {k : Str} {x : Str × Str}
    (h : x ∈ delA ps k) : x ∈ ps := by
  induction ps with
  | nil => cases h
  | cons kv rest ih =>
      rw [delA] at h
      split at h
      · exact List.mem_cons_of_mem _ h
      · rcases List.mem_cons.1 h with h | h
        · rw [h]; exact List.mem_cons_self _ _
        · exact List.mem_cons_of_mem _ (ih h)

theorem erase_inst_eq (l : List Str) (a : Str) :
    l.erase a = @List.erase Str instBEqOfDecidableEq l a := by
  induction l with
  | nil => rfl
  | cons x xs ih =>
      rw [List.erase_cons, @List.erase_cons Str instBEqOfDecidableEq a x xs, ih]
      by_cases hxa : x = a
      · simp [hxa]
      · simp [beq_iff_eq, hxa]

theorem subperm_tail_erase {p : Str} {rest live : List Str}
    (h : (p :: rest).Subperm live) : rest.Subperm (live.erase p) := by
  rw [erase_inst_eq]
  have hm : (p ::ₘ (rest : Multiset Str)) ≤ (live : Multiset Str) := by
    rw [show (p ::ₘ (rest : Multiset Str)) =
      ((p :: rest : List Str) : Multiset Str) from rfl]
    exact Multiset.coe_le.2 h
  have h2 := Multiset.erase_le_erase p hm
  rw [Multiset.erase_cons_head] at h2
  exact Multiset.coe_le.1 (le_of_le_of_eq h2 (Multiset.coe_erase live p))

theorem mem_of_subperm_head {p : Str} {rest live : List Str}
    (h : (p :: rest).Subperm live) : p ∈ live :=
  h.subset (List.mem_cons_self p rest)

theorem subperm_of_cons_subperm {p : Str} {rest live : List Str}
    (h : (p :: rest).Subperm live) : rest.Subperm live :=
  List.Subperm.trans (List.sublist_cons_self p rest).subperm h

theorem readFrom_brewLines {orc : TapOracle} (o : Str → Str) :
    ∀ (ps : List Str) (ctx : RCtx), ctx.ign = false →
      (∀ p ∈ ps, brewTokenOK p) → (∀ p ∈ ps, optOK (o p)) →
      ∃ f' opts',
        readFrom orc ctx (ps.map (fun p => str "brew " ++ p ++ o p)) =
          some { st := { ctx.st with
                           brew_input := ctx.st.brew_input ++ ps,
                           brew_input_opt := opts' },
                 form := f', ign := false } := by
  intro ps
  induction ps with
  | nil =>
      intro ctx hig _ _
      refine ⟨ctx.form, ctx.st.brew_input_opt, ?_⟩
      cases ctx with
      | mk st form ign =>
          simp at hig
          subst hig
          simp [readFrom]
  | cons p ps ih =>
      intro ctx hig htok hopt
      obtain ⟨f1, opts1, h1⟩ := readLine_brewL orc hig
        (htok p (List.mem_cons_self p ps)).1
        (hopt p (List.mem_cons_self p ps))
        (htok p (List.mem_cons_self p ps)).2.1
        (htok p (List.mem_cons_self p ps)).2.2.1
        (htok p (List.mem_cons_self p ps)).2.2.2
      rw [List.map_cons, readFrom_cons, h1, Option.some_bind]
      obtain ⟨f2, opts2, h2⟩ := ih
        { st := { ctx.st with
                    brew_input := ctx.st.brew_input ++ [p],
                    brew_input_opt := opts1 },
          form := f1, ign := false } rfl
        (fun q hq => htok q (List.mem_cons_of_mem p hq))
        (fun q hq => hopt q (List.mem_cons_of_mem p hq))
      refine ⟨f2, opts2, ?_⟩
      rw [h2]
      have ha : (ctx.st.brew_input ++ [p]) ++ ps =
          ctx.st.brew_input ++ p :: ps := by simp
      simp only [ha]

theorem readFrom_caskLines {orc : TapOracle} :
    ∀ (cs : List Str) (ctx : RCtx), ctx.ign = false →
      (∀ c ∈ cs, tokenOK c) →
      ∃ f', readFrom orc ctx (cs.map (fun c => str "cask " ++ c)) =
        some { st := { ctx.st with
                         cask_input := ctx.st.cask_input ++ cs },
               form := f', ign := false } := by
  intro cs
  induction cs with
  | nil =>
      intro ctx hig _
      refine ⟨ctx.form, ?_⟩
      cases ctx with
      | mk st form ign =>
          simp at hig
          subst hig
          simp [readFrom]
  | cons c cs ih =>
      intro ctx hig htok
      obtain ⟨f1, h1⟩ := readLine_caskL orc hig
        (htok c (List.mem_cons_self c cs))
      rw [List.map_cons, readFrom_cons, h1, Option.some_bind]
      obtain ⟨f2, h2⟩ := ih
        { st := { ctx.st with cask_input := ctx.st.cask_input ++ [c] },
          form := f1, ign := false } rfl
        (fun q hq => htok q (List.mem_cons_of_mem c hq))
      refine ⟨f2, ?_⟩
      rw [h2]
      have ha : (ctx.st.cask_input ++ [c]) ++ cs =
          ctx.st.cask_input ++ c :: cs := by simp
      simp only [ha]

theorem readFrom_appstoreLines {orc : TapOracle} :
    ∀ (cs : List Str) (ctx : RCtx), ctx.ign = false →
      (∀ a ∈ cs, appOK a) →
      ∃ f', readFrom orc ctx (cs.map (fun a => str "appstore " ++ a)) =
        some { st := { ctx.st with
                         appstore_input := ctx.st.appstore_input ++ cs },
               form := f', ign := false } := by
  intro cs
  induction cs with
  | nil =>
      intro ctx hig _
      refine ⟨ctx.form, ?_⟩
      cases ctx with
      | mk st form ign =>
          simp at hig
          subst hig
          simp [readFrom]
  | cons a cs ih =>
      intro ctx hig htok
      obtain ⟨ha1, ha2, ha3, ha4⟩ := htok a (List.mem_cons_self a cs)
      obtain ⟨f1, h1⟩ := readLine_appstoreL orc hig ha1 ha2 ha3 ha4
      rw [List.map_cons, readFrom_cons, h1, Option.some_bind]
      obtain ⟨f2, h2⟩ := ih
        { st := { ctx.st with
                    appstore_input := ctx.st.appstore_input ++ [a] },
          form := f1, ign := false } rfl
        (fun q hq => htok q (List.mem_cons_of_mem a hq))
      refine ⟨f2, ?_⟩
      rw [h2]
      have ha : (ctx.st.appstore_input ++ [a]) ++ cs =
          ctx.st.appstore_input ++ a :: cs := by simp
      simp only [ha]

theorem readFrom_mainLines {orc : TapOracle} :
    ∀ (ms : List Str) (ctx : RCtx), ctx.ign = false →
      (∀ m ∈ ms, tokenOK m) →
      ∃ f', readFrom orc ctx (ms.map (fun m => str "main " ++ m)) =
        some { st := { ctx.st with
                         main_input := ctx.st.main_input ++ ms,
                         file_input := ctx.st.file_input ++ ms },
               form := f', ign := false } := by
  intro ms
  induction ms with
  | nil =>
      intro ctx hig _
      refine ⟨ctx.form, ?_⟩
      cases ctx with
      | mk st form ign =>
          simp at hig
          subst hig
          simp [readFrom]
  | cons m ms ih =>
      intro ctx hig htok
      obtain ⟨f1, h1⟩ := readLine_mainL orc hig
        (htok m (List.mem_cons_self m ms))
      rw [List.map_cons, readFrom_cons, h1, Option.some_bind]
      obtain ⟨f2, h2⟩ := ih
        { st := { ctx.st with
                    main_input := ctx.st.main_input ++ [m],
                    file_input := ctx.st.file_input ++ [m] },
          form := f1, ign := false } rfl
        (fun q hq => htok q (List.mem_cons_of_mem m hq))
      refine ⟨f2, ?_⟩
      rw [h2]
      have ha : (ctx.st.main_input ++ [m]) ++ ms =
          ctx.st.main_input ++ m :: ms := by simp
      have hb : (ctx.st.file_input ++ [m]) ++ ms =
          ctx.st.file_input ++ m :: ms := by simp
      simp only [ha, hb]

theorem readFrom_fileLines {orc : TapOracle} :
    ∀ (ms : List Str) (ctx : RCtx), ctx.ign = false →
      (∀ m ∈ ms, tokenOK m) →
      ∃ f', readFrom orc ctx (ms.map (fun m => str "file " ++ m)) =
        some { st := { ctx.st with
                         file_input := ctx.st.file_input ++ ms },
               form := f', ign := false } := by
  intro ms
  induction ms with
  | nil =>
      intro ctx hig _
      refine ⟨ctx.form, ?_⟩
      cases ctx with
      | mk st form ign =>
          simp at hig
          subst hig
          simp [readFrom]
  | cons m ms ih =>
      intro ctx hig htok
      obtain ⟨f1, h1⟩ := readLine_fileL orc hig
        (htok m (List.mem_cons_self m ms))
      rw [List.map_cons, readFrom_cons, h1, Option.some_bind]
      obtain ⟨f2, h2⟩ := ih
        { st := { ctx.st with file_input := ctx.st.file_input ++ [m] },
          form := f1, ign := false } rfl
        (fun q hq => htok q (List.mem_cons_of_mem m hq))
      refine ⟨f2, ?_⟩
      rw [h2]
      have ha : (ctx.st.file_input ++ [m]) ++ ms =
          ctx.st.file_input ++ m :: ms := by simp
      simp only [ha]

theorem readFrom_beforeLines {orc : TapOracle} :
    ∀ (cs : List Str) (ctx : RCtx), ctx.ign = false →
      (∀ c ∈ cs, hookOK c) →
      ∃ f', readFrom orc ctx (cs.map (fun c => str "before " ++ c)) =
        some { st := { ctx.st with
                         before_input := ctx.st.before_input ++ cs },
               form := f', ign := false } := by
  intro cs
  induction cs with
  | nil =>
      intro ctx hig _
      refine ⟨ctx.form, ?_⟩
      cases ctx with
      | mk st form ign =>
          simp at hig
          subst hig
          simp [readFrom]
  | cons c cs ih =>
      intro ctx hig htok
      obtain ⟨f1, h1⟩ := readLine_beforeL orc hig
        (htok c (List.mem_cons_self c cs)).1
        (htok c (List.mem_cons_self c cs)).2
      rw [List.map_cons, readFrom_cons, h1, Option.some_bind]
      obtain ⟨f2, h2⟩ := ih
        { st := { ctx.st with
                    before_input := ctx.st.before_input ++ [c] },
          form := f1, ign := false } rfl
        (fun q hq => htok q (List.mem_cons_of_mem c hq))
      refine ⟨f2, ?_⟩
      rw [h2]
      have ha : (ctx.st.before_input ++ [c]) ++ cs =
          ctx.st.before_input ++ c :: cs := by simp
      simp only [ha]

theorem readFrom_afterLines {orc : TapOracle} :
    ∀ (cs : List Str) (ctx : RCtx), ctx.ign = false →
      (∀ c ∈ cs, hookOK c) →
      ∃ f', readFrom orc ctx (cs.map (fun c => str "after " ++ c)) =
        some { st := { ctx.st with
                         after_input := ctx.st.after_input ++ cs },
               form := f', ign := false } := by
  intro cs
  induction cs with
  | nil =>
      intro ctx hig _
      refine ⟨ctx.form, ?_⟩
      cases ctx with
      | mk st form ign =>
          simp at hig
          subst hig
          simp [readFrom]
  | cons c cs ih =>
      intro ctx hig htok
      obtain ⟨f1, h1⟩ := readLine_afterL orc hig
        (htok c (List.mem_cons_self c cs)).1
        (htok c (List.mem_cons_self c cs)).2
      rw [List.map_cons, readFrom_cons, h1, Option.some_bind]
      obtain ⟨f2, h2⟩ := ih
        { st := { ctx.st with
                    after_input := ctx.st.after_input ++ [c] },
          form := f1, ign := false } rfl
        (fun q hq => htok q (List.mem_cons_of_mem c hq))
      refine ⟨f2, ?_⟩
      rw [h2]
      have ha : (ctx.st.after_input ++ [c]) ++ cs =
          ctx.st.after_input ++ c :: cs := by simp
      simp only [ha]

theorem readFrom_rawLines {orc : TapOracle} :
    ∀ (cs : List Str) (ctx : RCtx), ctx.ign = false →
      (∀ c ∈ cs, rawOK c) →
      ∃ f', readFrom orc ctx cs =
        some { st := { ctx.st with
                         cmd_input := ctx.st.cmd_input ++ cs },
               form := f', ign := false } := by
  intro cs
  induction cs with
  | nil =>
      intro ctx hig _
      refine ⟨ctx.form, ?_⟩
      cases ctx with
      | mk st form ign =>
          simp at hig
          subst hig
          simp [readFrom]
  | cons c cs ih =>
      intro ctx hig htok
      obtain ⟨f1, h1⟩ := readLine_rawL orc hig
        (htok c (List.mem_cons_self c cs))
      rw [readFrom_cons, h1, Option.some_bind]
      obtain ⟨f2, h2⟩ := ih
        { st := { ctx.st with cmd_input := ctx.st.cmd_input ++ [c] },
          form := f1, ign := false } rfl
        (fun q hq => htok q (List.mem_cons_of_mem c hq))
      refine ⟨f2, ?_⟩
      rw [h2]
      have ha : (ctx.st.cmd_input ++ [c]) ++ cs =
          ctx.st.cmd_input ++ c :: cs := by simp
      simp only [ha]

theorem cmdInstall_plain : cmdInstall Form.fnone = str "brew " := by decide

theorem cmdTap_plain : cmdTap Form.fnone = str "tap " := by decide

theorem cmdCask_plain : cmdCask Form.fnone = str "cask " := by decide

theorem cmdAppstore_plain : cmdAppstore Form.fnone = str "appstore " := by
  decide

theorem cmdMain_plain : cmdMain Form.fnone = str "main " := by decide

theorem cmdFile_plain : cmdFile Form.fnone = str "file " := by decide

theorem cmdBefore_plain : cmdBefore Form.fnone = str "before " := by decide

theorem cmdAfter_plain : cmdAfter Form.fnone = str "after " := by decide

theorem cmdOther_plain : cmdOther Form.fnone = [] := by decide

theorem packout_plain (p : Str) : packout Form.fnone p = p := by
  unfold packout
  rw [if_neg (by decide)]

theorem convert_option_plain (o : Str) : convert_option Form.fnone o = o := by
  unfold convert_option
  rw [if_neg]
  rintro ⟨-, h⟩
  revert h
  decide

theorem mas_pack_plain (a : Str) : mas_pack Form.fnone a = a := by
  unfold mas_pack
  rw [if_neg (by decide)]

theorem optOK_lookup {opts : List (Str × Str)} {p : Str}
    (hopt : ∀ kv ∈ opts, optOK kv.2) : optOK ((lookupA opts p).getD []) := by
  cases hlk : lookupA opts p with
  | none => exact Or.inl rfl
  | some v =>
      simp only [Option.getD_some]
      exact hopt (p, v) (lookupA_mem hlk)

theorem tapBrewLoop_spec (orc : TapOracle) (tp : List Str) :
    ∀ (snap : List Str) (live : List Str) (opts : List (Str × Str))
      (dfirst : Bool) (ctx : RCtx),
      ctx.ign = false →
      (∀ p ∈ snap, brewTokenOK p) →
      (∀ kv ∈ opts, optOK kv.2) →
      snap.Subperm live →
      ∃ f' opts' packsE,
        readFrom orc ctx (tapBrewLoop Form.fnone tp snap live opts dfirst).1 =
          some { st := { ctx.st with
                           brew_input := ctx.st.brew_input ++ packsE,
                           brew_input_opt := opts' },
                 form := f', ign := false } ∧
        (packsE ++
          (tapBrewLoop Form.fnone tp snap live opts dfirst).2.1).Perm live ∧
        (∀ kv ∈ (tapBrewLoop Form.fnone tp snap live opts dfirst).2.2.1,
          kv ∈ opts) := by
  intro snap
  induction snap with
  | nil =>
      intro live opts dfirst ctx hig _ _ _
      refine ⟨ctx.form, ctx.st.brew_input_opt, [], ?_, ?_, ?_⟩
      · cases ctx with
        | mk st form ign =>
            simp at hig
            subst hig
            simp [readFrom, tapBrewLoop]
      · simp only [tapBrewLoop, List.nil_append]
        exact List.Perm.refl live
      · intro kv hkv
        simpa [tapBrewLoop] using hkv
  | cons p rest ih =>
      intro live opts dfirst ctx hig htok hopt hsub
      by_cases hmem : removeRb (lastSlash p) ∈ tp
      · simp only [tapBrewLoop]
        rw [if_pos hmem]
        dsimp only
        have hline : cmdInstall Form.fnone ++ packout Form.fnone p ++
            convert_option Form.fnone ((lookupA opts p).getD []) =
            str "brew " ++ p ++ (lookupA opts p).getD [] := by
          rw [cmdInstall_plain, packout_plain, convert_option_plain]
        rw [hline]
        have hhdr : readFrom orc ctx
            (if dfirst then [[], str "## Direct install"] else []) =
            some ctx := by
          cases dfirst
          · rfl
          · exact readFrom_skips _ ctx hig (by
              intro l hl
              simp only [if_pos rfl] at hl
              rcases List.mem_cons.1 hl with h | h
              · rw [h]; exact ⟨Or.inl rfl, rfl, rfl⟩
              · rcases List.mem_cons.1 h with h | h
                · rw [h]; refine ⟨Or.inr rfl, by decide, by decide⟩
                · cases h)
        rw [readFrom_append, hhdr, Option.some_bind]
        obtain ⟨f1, opts1, h1⟩ := readLine_brewL orc hig
          (htok p (List.mem_cons_self p rest)).1
          (optOK_lookup hopt)
          (htok p (List.mem_cons_self p rest)).2.1
          (htok p (List.mem_cons_self p rest)).2.2.1
          (htok p (List.mem_cons_self p rest)).2.2.2
        rw [readFrom_cons, h1, Option.some_bind]
        obtain ⟨f2, opts2, packsE2, h2, hperm, hsubo⟩ := ih (live.erase p)
          (delA opts p) false
          { st := { ctx.st with
                      brew_input := ctx.st.brew_input ++ [p],
                      brew_input_opt := opts1 },
            form := f1, ign := false } rfl
          (fun q hq => htok q (List.mem_cons_of_mem p hq))
          (fun kv hkv => hopt kv (mem_delA hkv))
          (subperm_tail_erase hsub)
        refine ⟨f2, opts2, p :: packsE2, ?_, ?_, ?_⟩
        · rw [h2]
          have ha : (ctx.st.brew_input ++ [p]) ++ packsE2 =
              ctx.st.brew_input ++ p :: packsE2 := by simp
          simp only [ha]
        · have h3 : (p :: packsE2) ++
              (tapBrewLoop Form.fnone tp rest (live.erase p)
                (delA opts p) false).2.1 =
              p :: (packsE2 ++ (tapBrewLoop Form.fnone tp rest (live.erase p)
                (delA opts p) false).2.1) := rfl
          rw [h3]
          have h4 := List.Perm.cons p hperm
          nth_rewrite 2 [erase_inst_eq live p] at h4
          exact List.Perm.trans h4
            (List.perm_cons_erase (mem_of_subperm_head hsub)).symm
        · intro kv hkv
          exact mem_delA (hsubo kv hkv)
      · simp only [tapBrewLoop]
        rw [if_neg hmem]
        dsimp only
        exact ih live opts dfirst ctx hig
          (fun q hq => htok q (List.mem_cons_of_mem p hq)) hopt
          (subperm_of_cons_subperm hsub)

theorem tapCaskLoop_spec (orc : TapOracle) (t : Str) (tc : List Str) :
    ∀ (snap : List Str) (live : List Str) (ctx : RCtx),
      ctx.ign = false →
      (∀ c ∈ snap, tokenOK c) →
      snap.Subperm live →
      ∃ f' casksE,
        readFrom orc ctx
          (tapCaskLoop Form.fnone t tc snap live false false).1 =
          some { st := { ctx.st with
                           cask_input := ctx.st.cask_input ++ casksE },
                 form := f', ign := false } ∧
        (casksE ++
          (tapCaskLoop Form.fnone t tc snap live false false).2.1).Perm live := by
  intro snap
  induction snap with
  | nil =>
      intro live ctx hig _ _
      refine ⟨ctx.form, [], ?_, ?_⟩
      · cases ctx with
        | mk st form ign =>
            simp at hig
            subst hig
            simp [readFrom, tapCaskLoop]
      · simp only [tapCaskLoop, List.nil_append]
        exact List.Perm.refl live
  | cons c rest ih =>
      intro live ctx hig htok hsub
      by_cases hmem : c ∈ tc
      · simp only [tapCaskLoop]
        rw [if_pos hmem]
        dsimp only
        have hhdr : firstTapPackWrite Form.fnone false false false t = [] := rfl
        rw [hhdr]
        have hline : cmdCask Form.fnone ++ packout Form.fnone c =
            str "cask " ++ c := by
          rw [cmdCask_plain, packout_plain]
        rw [hline]
        obtain ⟨f1, h1⟩ := readLine_caskL orc hig
          (htok c (List.mem_cons_self c rest))
        rw [List.nil_append, readFrom_cons, h1, Option.some_bind]
        obtain ⟨f2, casksE2, h2, hperm⟩ := ih (live.erase c)
          { st := { ctx.st with cask_input := ctx.st.cask_input ++ [c] },
            form := f1, ign := false } rfl
          (fun q hq => htok q (List.mem_cons_of_mem c hq))
          (subperm_tail_erase hsub)
        refine ⟨f2, c :: casksE2, ?_, ?_⟩
        · rw [h2]
          have ha : (ctx.st.cask_input ++ [c]) ++ casksE2 =
              ctx.st.cask_input ++ c :: casksE2 := by simp
          simp only [ha]
        · have h3 : (c :: casksE2) ++
              (tapCaskLoop Form.fnone t tc rest (live.erase c)
                false false).2.1 =
              c :: (casksE2 ++ (tapCaskLoop Form.fnone t tc rest (live.erase c)
                false false).2.1) := rfl
          rw [h3]
          have h4 := List.Perm.cons c hperm
          nth_rewrite 2 [erase_inst_eq live c] at h4
          exact List.Perm.trans h4
            (List.perm_cons_erase (mem_of_subperm_head hsub)).symm
      · simp only [tapCaskLoop]
        rw [if_neg hmem]
        dsimp only
        exact ih live ctx hig
          (fun q hq => htok q (List.mem_cons_of_mem c hq))
          (subperm_of_cons_subperm hsub)

theorem tapCaskLoop_flags (t : Str) (tc : List Str) :
    ∀ (snap live : List Str),
      (tapCaskLoop Form.fnone t tc snap live false false).2.2.1 = false ∧
      (tapCaskLoop Form.fnone t tc snap live false false).2.2.2 = false := by
  intro snap
  induction snap with
  | nil => intro live; exact ⟨rfl, rfl⟩
  | cons c rest ih =>
      intro live
      by_cases hmem : c ∈ tc
      · simp only [tapCaskLoop]
        rw [if_pos hmem]
        dsimp only
        exact ih _
      · simp only [tapCaskLoop]
        rw [if_neg hmem]
        dsimp only
        exact ih live

theorem firstTap_spec (orc : TapOracle) {ctx : RCtx} {isfirst : Bool}
    {t : Str} (hig : ctx.ign = false) (ht : tokenOK t) :
    ∃ f', readFrom orc ctx (firstTapPackWrite Form.fnone isfirst false true t) =
      some { st := { ctx.st with tap_input := ctx.st.tap_input ++ [t] },
             form := f', ign := false } := by
  unfold firstTapPackWrite
  rw [if_pos (show ¬ (false : Bool) = true ∧ (true : Bool) = true by decide),
    cmdTap_plain, packout_plain, readFrom_append]
  have hsk : readFrom orc ctx
      (if isfirst = true then
        [[], str "# tap repositories and their packages"] else []) =
      some ctx := by
    cases isfirst
    · rfl
    · apply readFrom_skips _ _ hig
      intro l hl
      rw [if_pos rfl] at hl
      rcases List.mem_cons.1 hl with h | h
      · rw [h]; exact ⟨Or.inl rfl, rfl, rfl⟩
      · rcases List.mem_cons.1 h with h | h
        · rw [h]; exact ⟨Or.inr rfl, by decide, by decide⟩
        · cases h
  rw [hsk, Option.some_bind, readFrom_cons, readLine_blank hig,
    Option.some_bind, readFrom_cons]
  obtain ⟨f1, h1⟩ := readLine_tapL orc hig ht
  rw [h1, Option.some_bind]
  exact ⟨f1, rfl⟩

theorem tapSection_spec (orc : TapOracle)
    (hd : orc.packs (str "direct") = []) :
    ∀ (ts : List Str) (brewL : List Str) (opts : List (Str × Str))
      (caskL : List Str) (isfirst : Bool) (ctx : RCtx),
      ctx.ign = false →
      (∀ t ∈ ts, t = str "direct" ∨ tokenOK t) →
      (∀ p ∈ brewL, brewTokenOK p) →
      (∀ kv ∈ opts, optOK kv.2) →
      (∀ c ∈ caskL, tokenOK c) →
      ∃ f' opts' packsE casksE,
        readFrom orc ctx
          (tapSection wcfgP orc ts brewL opts caskL isfirst).lines =
          some { st := { ctx.st with
                           tap_input := ctx.st.tap_input ++
                             ts.filter (fun t => decide (t ≠ str "direct")),
                           brew_input := ctx.st.brew_input ++ packsE,
                           brew_input_opt := opts',
                           cask_input := ctx.st.cask_input ++ casksE },
                 form := f', ign := false } ∧
        (packsE ++
          (tapSection wcfgP orc ts brewL opts caskL isfirst).brewL).Perm brewL ∧
        (casksE ++
          (tapSection wcfgP orc ts brewL opts caskL isfirst).caskL).Perm caskL ∧
        (∀ kv ∈ (tapSection wcfgP orc ts brewL opts caskL isfirst).opts,
          kv ∈ opts) := by
  intro ts
  induction ts with
  | nil =>
      intro brewL opts caskL isfirst ctx hig _ _ _ _
      refine ⟨ctx.form, ctx.st.brew_input_opt, [], [], ?_, ?_, ?_, ?_⟩
      · cases ctx with
        | mk st form ign =>
            simp at hig
            subst hig
            simp [readFrom, tapSection]
      · simp only [tapSection, List.nil_append]
        exact List.Perm.refl brewL
      · simp only [tapSection, List.nil_append]
        exact List.Perm.refl caskL
      · intro kv hkv
        simpa [tapSection] using hkv
  | cons t ts ih =>
      intro brewL opts caskL isfirst ctx hig hts htokB hopt htokC
      by_cases hskip : t = str "direct" ∧ orc.packs t = []
      · simp only [tapSection]
        rw [if_pos hskip]
        have hfil : (t :: ts).filter (fun t => decide (t ≠ str "direct")) =
            ts.filter (fun t => decide (t ≠ str "direct")) := by
          rw [List.filter_cons]
          simp [hskip.1]
        rw [hfil]
        exact ih brewL opts caskL isfirst ctx hig
          (fun q hq => hts q (List.mem_cons_of_mem t hq)) htokB hopt htokC
      · have htd : t ≠ str "direct" := by
          intro h
          exact hskip ⟨h, by rw [h]; exact hd⟩
        have htok : tokenOK t := by
          rcases hts t (List.mem_cons_self t ts) with h | h
          · exact absurd h htd
          · exact h
        simp only [tapSection]
        rw [if_neg hskip]
        rw [if_pos (show ¬ wcfgP.caskonly = true by decide)]
        rw [if_neg (show ¬ ¬ wcfgP.isMac = true by decide)]
        have hdf : (decide (t = str "direct") : Bool) = false := by
          simp [htd]
        simp only [hdf, show wcfgP.form = Form.fnone from rfl]
        set B := tapBrewLoop Form.fnone (orc.packs t) brewL brewL opts false
          with hB
        set C := tapCaskLoop Form.fnone t (orc.casks t) caskL caskL false false
          with hC
        set F := firstTapPackWrite Form.fnone isfirst false true t with hF
        set R := tapSection wcfgP orc ts B.2.1 B.2.2.1 C.2.1 false with hR
        rw [readFrom_append, readFrom_append, readFrom_append]
        obtain ⟨f1, h1⟩ := firstTap_spec orc hig htok
        rw [h1, Option.some_bind]
        obtain ⟨f2, opts1, packsE1, h2, hperm1, hsubo1⟩ :=
          tapBrewLoop_spec orc (orc.packs t) brewL brewL opts false
            { st := { ctx.st with tap_input := ctx.st.tap_input ++ [t] },
              form := f1, ign := false } rfl htokB hopt
            (List.Subperm.refl brewL)
        rw [h2, Option.some_bind]
        obtain ⟨f3, casksE1, h3, hperm2⟩ :=
          tapCaskLoop_spec orc t (orc.casks t) caskL caskL
            { st := { { ctx.st with tap_input := ctx.st.tap_input ++ [t] } with
                        brew_input := ctx.st.brew_input ++ packsE1,
                        brew_input_opt := opts1 },
              form := f2, ign := false } rfl htokC
            (List.Subperm.refl caskL)
        rw [h3, Option.some_bind]
        have hflag : (tapCaskLoop Form.fnone t (orc.casks t) caskL caskL
            false false).2.2.1 = false :=
          (tapCaskLoop_flags t (orc.casks t) caskL caskL).1
        rw [hflag]
        have htokB2 : ∀ p ∈ B.2.1, brewTokenOK p := by
          intro q hq
          exact htokB q (hperm1.mem_iff.1 (List.mem_append.2 (Or.inr hq)))
        have hopt2 : ∀ kv ∈ B.2.2.1, optOK kv.2 := by
          intro kv hkv
          exact hopt kv (hsubo1 kv hkv)
        have htokC2 : ∀ c ∈ C.2.1, tokenOK c := by
          intro q hq
          exact htokC q (hperm2.mem_iff.1 (List.mem_append.2 (Or.inr hq)))
        obtain ⟨f4, opts2, packsE2, casksE2, h4, hperm3, hperm4, hsubo2⟩ :=
          ih B.2.1 B.2.2.1 C.2.1 false
            { st := { { { ctx.st with tap_input := ctx.st.tap_input ++ [t] } with
                          brew_input := ctx.st.brew_input ++ packsE1,
                          brew_input_opt := opts1 } with
                        cask_input := ctx.st.cask_input ++ casksE1 },
              form := f3, ign := false } rfl
            (fun q hq => hts q (List.mem_cons_of_mem t hq)) htokB2 hopt2 htokC2
        refine ⟨f4, opts2, packsE1 ++ packsE2, casksE1 ++ casksE2, ?_, ?_, ?_, ?_⟩
        · dsimp only at h4 ⊢
          rw [h4]
          simp [List.filter_cons, htd, List.append_assoc]
        · rw [List.append_assoc]
          exact List.Perm.trans (List.Perm.append_left packsE1 hperm3) hperm1
        · rw [List.append_assoc]
          exact List.Perm.trans (List.Perm.append_left casksE1 hperm4) hperm2
        · intro kv hkv
          exact hsubo1 kv (hsubo2 kv hkv)

theorem beforeSection_spec (orc : TapOracle) (ctx : RCtx) (cs : List Str)
    (hig : ctx.ign = false) (h : ∀ c ∈ cs, hookOK c) :
    ∃ f', readFrom orc ctx (beforeSection wcfgP cs) =
      some { st := { ctx.st with
                       before_input := ctx.st.before_input ++ cs },
             form := f', ign := false } := by
  by_cases hcs : cs = []
  · subst hcs
    refine ⟨ctx.form, ?_⟩
    cases ctx with
    | mk st form ign =>
        simp at hig
        subst hig
        simp [readFrom, beforeSection]
  · unfold beforeSection
    rw [if_pos hcs]
    have hm : (fun c => cmdBefore wcfgP.form ++ c) =
        (fun c => str "before " ++ c) := by
      funext c
      rw [show cmdBefore wcfgP.form = str "before " from cmdBefore_plain]
    rw [hm, readFrom_cons, readLine_skipL hig (by decide), Option.some_bind]
    exact readFrom_beforeLines cs ctx hig h

theorem afterSection_spec (orc : TapOracle) (ctx : RCtx) {cs : List Str}
    (hig : ctx.ign = false) (h : ∀ c ∈ cs, hookOK c) :
    ∃ f', readFrom orc ctx (afterSection wcfgP cs) =
      some { st := { ctx.st with
                       after_input := ctx.st.after_input ++ cs },
             form := f', ign := false } := by
  by_cases hcs : cs = []
  · subst hcs
    refine ⟨ctx.form, ?_⟩
    cases ctx with
    | mk st form ign =>
        simp at hig
        subst hig
        simp [readFrom, afterSection]
  · unfold afterSection
    rw [if_pos hcs]
    have hm : (fun c => cmdAfter wcfgP.form ++ c) =
        (fun c => str "after " ++ c) := by
      funext c
      rw [show cmdAfter wcfgP.form = str "after " from cmdAfter_plain]
    rw [hm, List.cons_append, List.cons_append, List.nil_append]
    rw [readFrom_cons, readLine_blank hig, Option.some_bind,
      readFrom_cons, readLine_skipL hig (by decide), Option.some_bind]
    exact readFrom_afterLines cs ctx hig h

theorem otherCmdSection_spec (orc : TapOracle) (ctx : RCtx) {cs : List Str}
    (hig : ctx.ign = false) (h : ∀ c ∈ cs, rawOK c) :
    ∃ f', readFrom orc ctx (otherCmdSection wcfgP cs) =
      some { st := { ctx.st with
                       cmd_input := ctx.st.cmd_input ++ cs },
             form := f', ign := false } := by
  by_cases hcs : cs = []
  · subst hcs
    refine ⟨ctx.form, ?_⟩
    cases ctx with
    | mk st form ign =>
        simp at hig
        subst hig
        simp [readFrom, otherCmdSection]
  · unfold otherCmdSection
    rw [if_pos hcs]
    have hm : cs.map (fun c => cmdOther wcfgP.form ++ c) = cs := by
      have h1 : (fun c => cmdOther wcfgP.form ++ c) = (fun c : Str => c) := by
        funext c
        rw [show cmdOther wcfgP.form = [] from cmdOther_plain]
        rfl
      rw [h1, List.map_id']
    rw [hm, List.cons_append, List.cons_append, List.nil_append]
    rw [readFrom_cons, readLine_blank hig, Option.some_bind,
      readFrom_cons, readLine_skipL hig (by decide), Option.some_bind]
    exact readFrom_rawLines cs ctx hig h

theorem mainSection_spec (orc : TapOracle) (ctx : RCtx) {ms : List Str}
    (hig : ctx.ign = false) (h : ∀ m ∈ ms, tokenOK m) :
    ∃ f', readFrom orc ctx (mainSection wcfgP ms) =
      some { st := { ctx.st with
                       main_input := ctx.st.main_input ++ ms,
                       file_input := ctx.st.file_input ++ ms },
             form := f', ign := false } := by
  by_cases hcs : ms = []
  · subst hcs
    refine ⟨ctx.form, ?_⟩
    cases ctx with
    | mk st form ign =>
        simp at hig
        subst hig
        simp [readFrom, mainSection]
  · unfold mainSection
    rw [if_pos hcs]
    have hm : (fun m => cmdMain wcfgP.form ++ packout wcfgP.form m) =
        (fun m => str "main " ++ m) := by
      funext m
      rw [show cmdMain wcfgP.form = str "main " from cmdMain_plain,
        show packout wcfgP.form m = m from packout_plain m]
    rw [hm, List.cons_append, List.cons_append, List.nil_append]
    rw [readFrom_cons, readLine_blank hig, Option.some_bind,
      readFrom_cons, readLine_skipL hig (by decide), Option.some_bind]
    exact readFrom_mainLines ms ctx hig h

theorem fileSection_spec (orc : TapOracle) (ctx : RCtx) (fileL mainL : List Str)
    (hig : ctx.ign = false) (h : ∀ m ∈ fileL, tokenOK m) :
    ∃ f', readFrom orc ctx (fileSection wcfgP fileL mainL) =
      some { st := { ctx.st with
                       file_input := ctx.st.file_input ++
                         (if mainL.length < fileL.length then
                           fileL.filter (fun x => decide (x ∉ mainL)) else []) },
             form := f', ign := false } := by
  by_cases hlen : mainL.length < fileL.length
  · unfold fileSection
    rw [if_pos hlen]
    have hm : (fun m => cmdFile wcfgP.form ++ packout wcfgP.form m) =
        (fun m => str "file " ++ m) := by
      funext m
      rw [show cmdFile wcfgP.form = str "file " from cmdFile_plain,
        show packout wcfgP.form m = m from packout_plain m]
    rw [hm, List.cons_append, List.cons_append, List.nil_append]
    rw [readFrom_cons, readLine_blank hig, Option.some_bind,
      readFrom_cons, readLine_skipL hig (by decide), Option.some_bind,
      if_pos hlen]
    exact readFrom_fileLines _ ctx hig
      (fun q hq => h q (List.mem_of_mem_filter hq))
  · unfold fileSection
    rw [if_neg hlen]
    rw [if_neg hlen]
    refine ⟨ctx.form, ?_⟩
    cases ctx with
    | mk st form ign =>
        simp at hig
        subst hig
        simp [readFrom]

theorem appstoreSection_spec (orc : TapOracle) (ctx : RCtx) {appL : List Str}
    (hig : ctx.ign = false) (h : ∀ a ∈ appL, appOK a) :
    ∃ f', readFrom orc ctx (appstoreSection wcfgP appL) =
      some { st := { ctx.st with
                       appstore_input := ctx.st.appstore_input ++ appL },
             form := f', ign := false } := by
  by_cases hcs : appL = []
  · subst hcs
    refine ⟨ctx.form, ?_⟩
    cases ctx with
    | mk st form ign =>
        simp at hig
        subst hig
        simp [readFrom, appstoreSection]
  · unfold appstoreSection
    rw [if_pos ⟨by decide, by decide, hcs⟩]
    have hm : (fun a => cmdAppstore wcfgP.form ++ mas_pack wcfgP.form a) =
        (fun a => str "appstore " ++ a) := by
      funext a
      rw [show cmdAppstore wcfgP.form = str "appstore " from cmdAppstore_plain,
        show mas_pack wcfgP.form a = a from mas_pack_plain a]
    rw [hm, List.cons_append, List.cons_append, List.nil_append]
    rw [readFrom_cons, readLine_blank hig, Option.some_bind,
      readFrom_cons, readLine_skipL hig (by decide), Option.some_bind]
    exact readFrom_appstoreLines appL ctx hig h

theorem caskOtherSection_spec (orc : TapOracle) (ctx : RCtx) {caskL : List Str}
    (hig : ctx.ign = false) (h : ∀ c ∈ caskL, tokenOK c) :
    ∃ f', readFrom orc ctx (caskOtherSection wcfgP caskL) =
      some { st := { ctx.st with
                       cask_input := ctx.st.cask_input ++ caskL },
             form := f', ign := false } := by
  by_cases hcs : caskL = []
  · subst hcs
    refine ⟨ctx.form, ?_⟩
    cases ctx with
    | mk st form ign =>
        simp at hig
        subst hig
        simp [readFrom, caskOtherSection]
  · unfold caskOtherSection
    rw [if_pos ⟨by decide, hcs⟩]
    have hm : (fun c => cmdCask wcfgP.form ++ packout wcfgP.form c) =
        (fun c => str "cask " ++ c) := by
      funext c
      rw [show cmdCask wcfgP.form = str "cask " from cmdCask_plain,
        show packout wcfgP.form c = c from packout_plain c]
    rw [hm, List.cons_append, List.cons_append, List.nil_append]
    rw [readFrom_cons, readLine_blank hig, Option.some_bind,
      readFrom_cons, readLine_skipL hig (by decide), Option.some_bind]
    exact readFrom_caskLines caskL ctx hig h

theorem brewOtherSection_spec (orc : TapOracle) (ctx : RCtx) {brewL : List Str}
    {opts : List (Str × Str)} (hig : ctx.ign = false)
    (h : ∀ p ∈ brewL, brewTokenOK p) (ho : ∀ kv ∈ opts, optOK kv.2) :
    ∃ f' opts', readFrom orc ctx (brewOtherSection wcfgP brewL opts) =
      some { st := { ctx.st with
                       brew_input := ctx.st.brew_input ++ brewL,
                       brew_input_opt := opts' },
             form := f', ign := false } := by
  by_cases hcs : brewL = []
  · subst hcs
    refine ⟨ctx.form, ctx.st.brew_input_opt, ?_⟩
    cases ctx with
    | mk st form ign =>
        simp at hig
        subst hig
        simp [readFrom, brewOtherSection]
  · unfold brewOtherSection
    rw [if_pos ⟨by decide, hcs⟩]
    have hm : (fun p => cmdInstall wcfgP.form ++ packout wcfgP.form p ++
        convert_option wcfgP.form ((lookupA opts p).getD [])) =
        (fun p => str "brew " ++ p ++ ((lookupA opts p).getD [])) := by
      funext p
      rw [show cmdInstall wcfgP.form = str "brew " from cmdInstall_plain,
        show packout wcfgP.form p = p from packout_plain p,
        show convert_option wcfgP.form ((lookupA opts p).getD []) =
          (lookupA opts p).getD [] from convert_option_plain _]
    rw [hm, List.cons_append, List.cons_append, List.nil_append]
    rw [readFrom_cons, readLine_blank hig, Option.some_bind,
      readFrom_cons, readLine_skipL hig (by decide), Option.some_bind]
    exact readFrom_brewLines (fun p => (lookupA opts p).getD []) brewL ctx hig h
      (fun p _ => optOK_lookup ho)

theorem readFrom_nil {orc : TapOracle} (ctx : RCtx) :
    readFrom orc ctx [] = some ctx := rfl

theorem writeTaps_eq (cfg : WCfg) (orc : TapOracle) (tl bl : List Str)
    (opts : List (Str × Str)) (cl : List Str) :
    (if tl ≠ [] then tapSection cfg orc tl bl opts cl true
     else { lines := [], brewL := bl, opts := opts, caskL := cl }) =
    tapSection cfg orc tl bl opts cl true := by
  by_cases h : tl = []
  · subst h
    rw [if_neg (by simp)]
    rfl
  · rw [if_pos h]

theorem nocaskSection_nil : nocaskSection wcfgP [] = [] := by
  rw [nocaskSection, if_neg]
  rintro ⟨-, h⟩
  exact h rfl

theorem ite_body_collapse (body : List Str) :
    (if body = [] then ([] : List Str)
     else (if wcfgP.form.isCmd = true then preambleLines else []) ++ body) =
    body := by
  split
  · next hb => exact hb.symm
  · rw [if_neg (by decide), List.nil_append]

theorem writeLines_readBack {orc : TapOracle}
    (hd : orc.packs (str "direct") = [])
    (st0 : BrewSt) (ctx : RCtx) (hig : ctx.ign = false)
    (hB : ∀ p ∈ (sortSt wcfgP st0).brew_list, brewTokenOK p)
    (hBO : ∀ kv ∈ (sortSt wcfgP st0).brew_list_opt, optOK kv.2)
    (hT : ∀ t ∈ (sortSt wcfgP st0).tap_list, t = str "direct" ∨ tokenOK t)
    (hC : ∀ c ∈ (sortSt wcfgP st0).cask_list, tokenOK c)
    (hNC : (sortSt wcfgP st0).cask_nocask_list = [])
    (hA : ∀ a ∈ (sortSt wcfgP st0).appstore_list, appOK a)
    (hM : ∀ m ∈ (sortSt wcfgP st0).main_list, tokenOK m)
    (hFi : ∀ m ∈ (sortSt wcfgP st0).file_list, tokenOK m)
    (hBe : ∀ c ∈ (sortSt wcfgP st0).before_input, hookOK c)
    (hCm : ∀ c ∈ (sortSt wcfgP st0).cmd_input, rawOK c)
    (hAf : ∀ c ∈ (sortSt wcfgP st0).after_input, hookOK c) :
    ∃ f' opts' packsE casksE,
      readFrom orc ctx (writeLines wcfgP orc st0) =
        some { st := { ctx.st with
                         brew_input_opt := opts',
                         brew_input := ctx.st.brew_input ++ packsE,
                         tap_input := ctx.st.tap_input ++
                           (sortSt wcfgP st0).tap_list.filter
                             (fun t => decide (t ≠ str "direct")),
                         cask_input := ctx.st.cask_input ++ casksE,
                         appstore_input := ctx.st.appstore_input ++
                           (sortSt wcfgP st0).appstore_list,
                         main_input := ctx.st.main_input ++
                           (sortSt wcfgP st0).main_list,
                         file_input := ctx.st.file_input ++
                           ((sortSt wcfgP st0).main_list ++
                             (if (sortSt wcfgP st0).main_list.length <
                                 (sortSt wcfgP st0).file_list.length then
                               (sortSt wcfgP st0).file_list.filter
                                 (fun x => decide
                                   (x ∉ (sortSt wcfgP st0).main_list))
                             else [])),
                         before_input := ctx.st.before_input ++
                           (sortSt wcfgP st0).before_input,
                         cmd_input := ctx.st.cmd_input ++
                           (sortSt wcfgP st0).cmd_input,
                         after_input := ctx.st.after_input ++
                           (sortSt wcfgP st0).after_input },
               form := f', ign := false } ∧
      packsE.Perm (sortSt wcfgP st0).brew_list ∧
      casksE.Perm (sortSt wcfgP st0).cask_list := by
  simp only [writeLines]
  rw [writeTaps_eq, ite_body_collapse]
  obtain ⟨f1, h1⟩ := beforeSection_spec orc ctx
    ((sortSt wcfgP st0).before_input) hig hBe
  obtain ⟨f2, opts1, packsE1, casksE1, h2, hperm1, hperm2, hsubo1⟩ :=
    tapSection_spec orc hd (sortSt wcfgP st0).tap_list
      (sortSt wcfgP st0).brew_list (sortSt wcfgP st0).brew_list_opt
      (sortSt wcfgP st0).cask_list true
      { st := { ctx.st with
                  before_input := ctx.st.before_input ++
                    (sortSt wcfgP st0).before_input },
        form := f1, ign := false } rfl hT hB hBO hC
  have hB2 : ∀ p ∈ (tapSection wcfgP orc (sortSt wcfgP st0).tap_list
      (sortSt wcfgP st0).brew_list (sortSt wcfgP st0).brew_list_opt
      (sortSt wcfgP st0).cask_list true).brewL, brewTokenOK p :=
    fun q hq => hB q (hperm1.mem_iff.1 (List.mem_append.2 (Or.inr hq)))
  have hBO2 : ∀ kv ∈ (tapSection wcfgP orc (sortSt wcfgP st0).tap_list
      (sortSt wcfgP st0).brew_list (sortSt wcfgP st0).brew_list_opt
      (sortSt wcfgP st0).cask_list true).opts, optOK kv.2 :=
    fun kv hkv => hBO kv (hsubo1 kv hkv)
  have hC2 : ∀ c ∈ (tapSection wcfgP orc (sortSt wcfgP st0).tap_list
      (sortSt wcfgP st0).brew_list (sortSt wcfgP st0).brew_list_opt
      (sortSt wcfgP st0).cask_list true).caskL, tokenOK c :=
    fun q hq => hC q (hperm2.mem_iff.1 (List.mem_append.2 (Or.inr hq)))
  obtain ⟨f3, opts2, h3⟩ := brewOtherSection_spec orc
    { st := { ctx.st with
                before_input := ctx.st.before_input ++
                  (sortSt wcfgP st0).before_input,
                tap_input := ctx.st.tap_input ++
                  (sortSt wcfgP st0).tap_list.filter
                    (fun t => decide (t ≠ str "direct")),
                brew_input := ctx.st.brew_input ++ packsE1,
                brew_input_opt := opts1,
                cask_input := ctx.st.cask_input ++ casksE1 },
              form := f2, ign := false } rfl hB2 hBO2
  obtain ⟨f4, h4⟩ := caskOtherSection_spec orc
    { st := { ctx.st with
                before_input := ctx.st.before_input ++
                  (sortSt wcfgP st0).before_input,
                tap_input := ctx.st.tap_input ++
                  (sortSt wcfgP st0).tap_list.filter
                    (fun t => decide (t ≠ str "direct")),
                brew_input := ctx.st.brew_input ++ packsE1 ++
                  (tapSection wcfgP orc (sortSt wcfgP st0).tap_list
                    (sortSt wcfgP st0).brew_list
                    (sortSt wcfgP st0).brew_list_opt
                    (sortSt wcfgP st0).cask_list true).brewL,
                brew_input_opt := opts2,
                cask_input := ctx.st.cask_input ++ casksE1 },
              form := f3, ign := false } rfl hC2
  obtain ⟨f5, h5⟩ := appstoreSection_spec orc
    { st := { ctx.st with
                before_input := ctx.st.before_input ++
                  (sortSt wcfgP st0).before_input,
                tap_input := ctx.st.tap_input ++
                  (sortSt wcfgP st0).tap_list.filter
                    (fun t => decide (t ≠ str "direct")),
                brew_input := ctx.st.brew_input ++ packsE1 ++
                  (tapSection wcfgP orc (sortSt wcfgP st0).tap_list
                    (sortSt wcfgP st0).brew_list
                    (sortSt wcfgP st0).brew_list_opt
                    (sortSt wcfgP st0).cask_list true).brewL,
                brew_input_opt := opts2,
                cask_input := ctx.st.cask_input ++ casksE1 ++
                  (tapSection wcfgP orc (sortSt wcfgP st0).tap_list
                    (sortSt wcfgP st0).brew_list
                    (sortSt wcfgP st0).brew_list_opt
                    (sortSt wcfgP st0).cask_list true).caskL },
              form := f4, ign := false } rfl hA
  obtain ⟨f6, h6⟩ := mainSection_spec orc
    { st := { ctx.st with
                before_input := ctx.st.before_input ++
                  (sortSt wcfgP st0).before_input,
                tap_input := ctx.st.tap_input ++
                  (sortSt wcfgP st0).tap_list.filter
                    (fun t => decide (t ≠ str "direct")),
                brew_input := ctx.st.brew_input ++ packsE1 ++
                  (tapSection wcfgP orc (sortSt wcfgP st0).tap_list
                    (sortSt wcfgP st0).brew_list
                    (sortSt wcfgP st0).brew_list_opt
                    (sortSt wcfgP st0).cask_list true).brewL,
                brew_input_opt := opts2,
                cask_input := ctx.st.cask_input ++ casksE1 ++
                  (tapSection wcfgP orc (sortSt wcfgP st0).tap_list
                    (sortSt wcfgP st0).brew_list
                    (sortSt wcfgP st0).brew_list_opt
                    (sortSt wcfgP st0).cask_list true).caskL,
                appstore_input := ctx.st.appstore_input ++
                  (sortSt wcfgP st0).appstore_list },
              form := f5, ign := false } rfl hM
  obtain ⟨f7, h7⟩ := fileSection_spec orc
    { st := { ctx.st with
                before_input := ctx.st.before_input ++
                  (sortSt wcfgP st0).before_input,
                tap_input := ctx.st.tap_input ++
                  (sortSt wcfgP st0).tap_list.filter
                    (fun t => decide (t ≠ str "direct")),
                brew_input := ctx.st.brew_input ++ packsE1 ++
                  (tapSection wcfgP orc (sortSt wcfgP st0).tap_list
                    (sortSt wcfgP st0).brew_list
                    (sortSt wcfgP st0).brew_list_opt
                    (sortSt wcfgP st0).cask_list true).brewL,
                brew_input_opt := opts2,
                cask_input := ctx.st.cask_input ++ casksE1 ++
                  (tapSection wcfgP orc (sortSt wcfgP st0).tap_list
                    (sortSt wcfgP st0).brew_list
                    (sortSt wcfgP st0).brew_list_opt
                    (sortSt wcfgP st0).cask_list true).caskL,
                appstore_input := ctx.st.appstore_input ++
                  (sortSt wcfgP st0).appstore_list,
                main_input := ctx.st.main_input ++
                  (sortSt wcfgP st0).main_list,
                file_input := ctx.st.file_input ++
                  (sortSt wcfgP st0).main_list },
              form := f6, ign := false }
    ((sortSt wcfgP st0).file_list)
    ((sortSt wcfgP st0).main_list) rfl hFi
  obtain ⟨f8, h8⟩ := otherCmdSection_spec orc
    { st := { ctx.st with
                before_input := ctx.st.before_input ++
                  (sortSt wcfgP st0).before_input,
                tap_input := ctx.st.tap_input ++
                  (sortSt wcfgP st0).tap_list.filter
                    (fun t => decide (t ≠ str "direct")),
                brew_input := ctx.st.brew_input ++ packsE1 ++
                  (tapSection wcfgP orc (sortSt wcfgP st0).tap_list
                    (sortSt wcfgP st0).brew_list
                    (sortSt wcfgP st0).brew_list_opt
                    (sortSt wcfgP st0).cask_list true).brewL,
                brew_input_opt := opts2,
                cask_input := ctx.st.cask_input ++ casksE1 ++
                  (tapSection wcfgP orc (sortSt wcfgP st0).tap_list
                    (sortSt wcfgP st0).brew_list
                    (sortSt wcfgP st0).brew_list_opt
                    (sortSt wcfgP st0).cask_list true).caskL,
                appstore_input := ctx.st.appstore_input ++
                  (sortSt wcfgP st0).appstore_list,
                main_input := ctx.st.main_input ++
                  (sortSt wcfgP st0).main_list,
                file_input := ctx.st.file_input ++
                  (sortSt wcfgP st0).main_list ++
                  (if (sortSt wcfgP st0).main_list.length <
                      (sortSt wcfgP st0).file_list.length then
                    (sortSt wcfgP st0).file_list.filter
                      (fun x => decide (x ∉ (sortSt wcfgP st0).main_list))
                  else []) },
              form := f7, ign := false } rfl hCm
  obtain ⟨f9, h9⟩ := afterSection_spec orc
    { st := { ctx.st with
                before_input := ctx.st.before_input ++
                  (sortSt wcfgP st0).before_input,
                tap_input := ctx.st.tap_input ++
                  (sortSt wcfgP st0).tap_list.filter
                    (fun t => decide (t ≠ str "direct")),
                brew_input := ctx.st.brew_input ++ packsE1 ++
                  (tapSection wcfgP orc (sortSt wcfgP st0).tap_list
                    (sortSt wcfgP st0).brew_list
                    (sortSt wcfgP st0).brew_list_opt
                    (sortSt wcfgP st0).cask_list true).brewL,
                brew_input_opt := opts2,
                cask_input := ctx.st.cask_input ++ casksE1 ++
                  (tapSection wcfgP orc (sortSt wcfgP st0).tap_list
                    (sortSt wcfgP st0).brew_list
                    (sortSt wcfgP st0).brew_list_opt
                    (sortSt wcfgP st0).cask_list true).caskL,
                appstore_input := ctx.st.appstore_input ++
                  (sortSt wcfgP st0).appstore_list,
                main_input := ctx.st.main_input ++
                  (sortSt wcfgP st0).main_list,
                file_input := ctx.st.file_input ++
                  (sortSt wcfgP st0).main_list ++
                  (if (sortSt wcfgP st0).main_list.length <
                      (sortSt wcfgP st0).file_list.length then
                    (sortSt wcfgP st0).file_list.filter
                      (fun x => decide (x ∉ (sortSt wcfgP st0).main_list))
                  else []),
                cmd_input := ctx.st.cmd_input ++
                  (sortSt wcfgP st0).cmd_input },
              form := f8, ign := false } rfl hAf
  refine ⟨f9, opts2, packsE1 ++
    (tapSection wcfgP orc (sortSt wcfgP st0).tap_list
      (sortSt wcfgP st0).brew_list (sortSt wcfgP st0).brew_list_opt
      (sortSt wcfgP st0).cask_list true).brewL,
    casksE1 ++
    (tapSection wcfgP orc (sortSt wcfgP st0).tap_list
      (sortSt wcfgP st0).brew_list (sortSt wcfgP st0).brew_list_opt
      (sortSt wcfgP st0).cask_list true).caskL, ?_, hperm1, hperm2⟩
  rw [readFrom_append, readFrom_append, readFrom_append, readFrom_append,
    readFrom_append, readFrom_append, readFrom_append, readFrom_append,
    readFrom_append]
  rw [h1, Option.some_bind]
  dsimp only at h2 ⊢
  rw [h2, Option.some_bind]
  dsimp only at h3 ⊢
  rw [h3, Option.some_bind]
  dsimp only at h4 ⊢
  rw [h4, Option.some_bind]
  rw [hNC, nocaskSection_nil, readFrom_nil, Option.some_bind]
  dsimp only at h5 ⊢
  rw [h5, Option.some_bind]
  dsimp only at h6 ⊢
  rw [h6, Option.some_bind]
  dsimp only at h7 ⊢
  rw [h7, Option.some_bind]
  dsimp only at h8 ⊢
  rw [h8, Option.some_bind]
  dsimp only at h9 ⊢
  rw [h9]
  exact congrArg some (by simp [List.append_assoc])

instance (p : Str) : Decidable (tokenOK p) := by
  unfold tokenOK; infer_instance

instance (o : Str) : Decidable (optOK o) := by
  unfold optOK; infer_instance

instance (x : Str) : Decidable (popSafeTail x) := by
  unfold popSafeTail; infer_instance

instance (c : Str) : Decidable (hookOK c) := by
  unfold hookOK; infer_instance

instance (p : Str) : Decidable (brewTokenOK p) := by
  unfold brewTokenOK; infer_instance

instance (a : Str) : Decidable (appOK a) := by
  unfold appOK; infer_instance

instance (x : Str) : Decidable (rawOK x) := by
  unfold rawOK
  have : Decidable (¬ recognizedCmd (dispatchCmd x)) := instDecidableNot
  infer_instance

theorem length_sIns (le : Str → Str → Bool) (x : Str) :
    ∀ l : List Str, (sIns le x l).length = l.length + 1 := by
  intro l
  induction l with
  | nil => rfl
  | cons a as ih =>
      unfold sIns
      split <;> simp [List.length_cons, ih]

theorem length_sSort (le : Str → Str → Bool) (l : List Str) :
    (sSort le l).length = l.length := by
  induction l with
  | nil => rfl
  | cons a as ih =>
      show (sIns le a (sSort le as)).length = as.length + 1
      rw [length_sIns, ih]

theorem mem_sortSt_tap {cfg : WCfg} {st : BrewSt} {x : Str} :
    x ∈ (sortSt cfg st).tap_list ↔ x ∈ st.tap_list := by
  show x ∈ st.tap_list.filter _ ++ sSort lexLe (st.tap_list.filter _) ++
      st.tap_list.filter _ ++ sSort lexLe (st.tap_list.filter _) ↔ _
  constructor
  · intro h
    rcases List.mem_append.1 h with h | h
    · rcases List.mem_append.1 h with h | h
      · rcases List.mem_append.1 h with h | h
        · exact List.mem_of_mem_filter h
        · exact List.mem_of_mem_filter (mem_sSort.1 h)
      · exact List.mem_of_mem_filter h
    · exact List.mem_of_mem_filter (mem_sSort.1 h)
  · intro h
    by_cases h1 : x = str "homebrew/core"
    · refine List.mem_append.2 (Or.inl (List.mem_append.2 (Or.inl
        (List.mem_append.2 (Or.inl ?_)))))
      refine List.mem_filter.2 ⟨h, ?_⟩
      simp only [decide_eq_true_eq]
      exact h1
    · by_cases h2 : x = cfg.cask_repo
      · refine List.mem_append.2 (Or.inl (List.mem_append.2 (Or.inr ?_)))
        refine List.mem_filter.2 ⟨h, ?_⟩
        simp only [decide_eq_true_eq]
        exact ⟨h1, h2⟩
      · by_cases h3 : (str "homebrew/").isPrefixOf x = true
        · refine List.mem_append.2 (Or.inl (List.mem_append.2 (Or.inl
            (List.mem_append.2 (Or.inr ?_)))))
          refine mem_sSort.2 (List.mem_filter.2 ⟨h, ?_⟩)
          simp only [decide_eq_true_eq]
          exact ⟨h1, h2, h3⟩
        · refine List.mem_append.2 (Or.inr ?_)
          refine mem_sSort.2 (List.mem_filter.2 ⟨h, ?_⟩)
          simp only [decide_eq_true_eq]
          exact ⟨h1, h2, h3⟩

/-- The write configuration carrying an arbitrary session dialect (the
other fields as in the default macOS run, as for `wcfgP`). -/
def wcfgOf (f : Form) : WCfg :=
  { form := f, caskonly := false, appstore := 1, isMac := true,
    cask_repo := str "homebrew/cask" }

theorem main_eq_file_of_card {mainL fileL : List Str}
    (hsub : ∀ m ∈ mainL, m ∈ fileL) (hnm : mainL.Nodup) (hnf : fileL.Nodup)
    (hlen : fileL.length ≤ mainL.length) :
    ∀ x, x ∈ fileL ↔ x ∈ mainL := by
  have hfs : mainL.toFinset ⊆ fileL.toFinset := by
    intro a ha
    rw [List.mem_toFinset] at ha ⊢
    exact hsub a ha
  have hcards : fileL.toFinset.card ≤ mainL.toFinset.card := by
    rw [List.toFinset_card_of_nodup hnm, List.toFinset_card_of_nodup hnf]
    exact hlen
  have heq : mainL.toFinset = fileL.toFinset :=
    Finset.eq_of_subset_of_card_le hfs hcards
  intro x
  rw [← List.mem_toFinset, ← List.mem_toFinset (l := mainL), ← heq]

/-- C1 counterexample: the round trip is not entry-set preserving in the
bundle dialect.  The text `brew 'vim'` / `main 'sub'` auto-detects the
bundle dialect (quotes on a `brew` line) and produces the entry sets
brew = {vim}, main = file = {sub}.  Writing that state back in the
detected (bundle) dialect emits the main-file directive as the comment
`#main 'sub'`, and re-reading the written output skips it as a comment:
the re-parsed entry set has main = file = {} while the brew entry
survives. -/
theorem c1_counterexample :
    ((readLines orc0 Form.fnone [str "brew 'vim'", str "main 'sub'"]).map
      (fun c => (c.form, c.st.brew_input, c.st.main_input, c.st.file_input)) =
        some (Form.bundle, [str "vim"], [str "sub"], [str "sub"])) ∧
    ((readLines orc0 Form.fnone [str "brew 'vim'", str "main 'sub'"]).bind
      (fun c => readLines orc0 Form.fnone
        (writeLines (wcfgOf c.form) orc0 (input_to_list c.st)))).map
      (fun c => (c.st.brew_input, c.st.main_input, c.st.file_input)) =
        some ([str "vim"], [], []) := by
  exact ⟨by decide, by decide⟩

/-- C1 (amended): in the plain (`form = none`) dialect the
write-then-read round trip preserves the entry sets.  For any state
whose entries are clean (directive-free single tokens for brew, tap,
cask, main and file names; strip-stable quote-free app-store entries;
whitespace-normalized hook commands; raw commands that re-parse as raw
commands), whose declared main files are among the declared files with
no duplicates, and which holds the implicit `direct` tap, re-reading the
written document yields exactly the original brew, tap, cask, app-store,
main and file entry sets (membership), and the before-, raw-command- and
after-hooks verbatim in order.  Option strings are not part of the
conclusion: identity ignores options formatting. -/
theorem c1_plain_round_trip_entry_sets (orc : TapOracle) (st : BrewSt)
    (hd : orc.packs (str "direct") = [])
    (hB : ∀ p ∈ st.brew_input, brewTokenOK p)
    (hBO : ∀ kv ∈ st.brew_input_opt, optOK kv.2)
    (hT : ∀ t ∈ st.tap_input, t = str "direct" ∨ tokenOK t)
    (hdir : str "direct" ∈ st.tap_input)
    (hC : ∀ c ∈ st.cask_input, tokenOK c)
    (hA : ∀ a ∈ st.appstore_input, appOK a)
    (hM : ∀ m ∈ st.main_input, tokenOK m)
    (hFi : ∀ m ∈ st.file_input, tokenOK m)
    (hMF : ∀ m ∈ st.main_input, m ∈ st.file_input)
    (hMnd : st.main_input.Nodup) (hFnd : st.file_input.Nodup)
    (hBe : ∀ c ∈ st.before_input, hookOK c)
    (hCm : ∀ c ∈ st.cmd_input, rawOK c)
    (hAf : ∀ c ∈ st.after_input, hookOK c) :
    ∃ ctx' : RCtx,
      readLines orc Form.fnone (writeLines wcfgP orc (input_to_list st)) =
        some ctx' ∧
      (∀ x, x ∈ ctx'.st.brew_input ↔ x ∈ st.brew_input) ∧
      (∀ x, x ∈ ctx'.st.tap_input ↔ x ∈ st.tap_input) ∧
      (∀ x, x ∈ ctx'.st.cask_input ↔ x ∈ st.cask_input) ∧
      (∀ x, x ∈ ctx'.st.appstore_input ↔ x ∈ st.appstore_input) ∧
      (∀ x, x ∈ ctx'.st.main_input ↔ x ∈ st.main_input) ∧
      (∀ x, x ∈ ctx'.st.file_input ↔ x ∈ st.file_input) ∧
      ctx'.st.before_input = st.before_input ∧
      ctx'.st.cmd_input = st.cmd_input ∧
      ctx'.st.after_input = st.after_input := by
  obtain ⟨f', opts', packsE, casksE, hread, hpB, hpC⟩ :=
    writeLines_readBack hd (input_to_list st)
      { st := { emptyBrew with tap_input := [str "direct"] },
        form := Form.fnone, ign := false } rfl
      (by intro p hp
          have hp' : p ∈ sSort lexLe st.brew_input := hp
          exact hB p (mem_sSort.1 hp'))
      (by intro kv hkv
          have hkv' : kv ∈ st.brew_input_opt := hkv
          exact hBO kv hkv')
      (by intro t ht
          have ht' : t ∈ (input_to_list st).tap_list := mem_sortSt_tap.1 ht
          exact hT t ht')
      (by intro c hc
          have hc' : c ∈ sSort lexLe st.cask_input := hc
          exact hC c (mem_sSort.1 hc'))
      rfl
      (by intro a ha
          have ha' : a ∈ sSort (fun x y => lexLe (appKey x) (appKey y))
              st.appstore_input := ha
          exact hA a (mem_sSort.1 ha'))
      (by intro m hm
          have hm' : m ∈ sSort lexLe st.main_input := hm
          exact hM m (mem_sSort.1 hm'))
      (by intro m hm
          have hm' : m ∈ sSort lexLe st.file_input := hm
          exact hFi m (mem_sSort.1 hm'))
      (by intro c hc
          have hc' : c ∈ st.before_input := hc
          exact hBe c hc')
      (by intro c hc
          have hc' : c ∈ st.cmd_input := hc
          exact hCm c hc')
      (by intro c hc
          have hc' : c ∈ st.after_input := hc
          exact hAf c hc')
  refine ⟨_, hread, ?_, ?_, ?_, ?_, ?_, ?_, rfl, rfl, rfl⟩
  · intro x
    show x ∈ ([] : List Str) ++ packsE ↔ x ∈ st.brew_input
    rw [List.nil_append, hpB.mem_iff]
    have e : (sortSt wcfgP (input_to_list st)).brew_list =
        sSort lexLe st.brew_input := rfl
    rw [e]
    exact mem_sSort
  · intro x
    show x ∈ str "direct" ::
        (sortSt wcfgP (input_to_list st)).tap_list.filter
          (fun t => decide (t ≠ str "direct")) ↔ x ∈ st.tap_input
    constructor
    · intro hx
      rcases List.mem_cons.1 hx with hx | hx
      · exact hx ▸ hdir
      · have hx' : x ∈ (input_to_list st).tap_list :=
          mem_sortSt_tap.1 (List.mem_of_mem_filter hx)
        exact hx'
    · intro hx
      by_cases hdx : x = str "direct"
      · exact List.mem_cons.2 (Or.inl hdx)
      · refine List.mem_cons.2 (Or.inr (List.mem_filter.2
          ⟨mem_sortSt_tap.2 hx, ?_⟩))
        simp only [ne_eq, decide_eq_true_eq]
        exact hdx
  · intro x
    show x ∈ ([] : List Str) ++ casksE ↔ x ∈ st.cask_input
    rw [List.nil_append, hpC.mem_iff]
    have e : (sortSt wcfgP (input_to_list st)).cask_list =
        sSort lexLe st.cask_input := rfl
    rw [e]
    exact mem_sSort
  · intro x
    show x ∈ ([] : List Str) ++
        sSort (fun a b => lexLe (appKey a) (appKey b)) st.appstore_input ↔
        x ∈ st.appstore_input
    rw [List.nil_append]
    exact mem_sSort
  · intro x
    show x ∈ ([] : List Str) ++ sSort lexLe st.main_input ↔
        x ∈ st.main_input
    rw [List.nil_append]
    exact mem_sSort
  · intro x
    show x ∈ ([] : List Str) ++ (sSort lexLe st.main_input ++
        (if (sSort lexLe st.main_input).length <
            (sSort lexLe st.file_input).length then
          (sSort lexLe st.file_input).filter
            (fun y => decide (y ∉ sSort lexLe st.main_input))
        else [])) ↔ x ∈ st.file_input
    rw [List.nil_append]
    by_cases hlen : (sSort lexLe st.main_input).length <
        (sSort lexLe st.file_input).length
    · rw [if_pos hlen]
      constructor
      · intro hx
        rcases List.mem_append.1 hx with hx | hx
        · exact hMF x (mem_sSort.1 hx)
        · exact mem_sSort.1 (List.mem_of_mem_filter hx)
      · intro hx
        by_cases hm : x ∈ st.main_input
        · exact List.mem_append.2 (Or.inl (mem_sSort.2 hm))
        · refine List.mem_append.2 (Or.inr (List.mem_filter.2
            ⟨mem_sSort.2 hx, ?_⟩))
          simp only [decide_eq_true_eq]
          rw [mem_sSort]
          exact hm
    · rw [if_neg hlen, List.append_nil, mem_sSort]
      have hlen' : st.file_input.length ≤ st.main_input.length := by
        rw [← length_sSort lexLe st.file_input,
            ← length_sSort lexLe st.main_input]
        exact Nat.le_of_not_lt hlen
      exact (main_eq_file_of_card hMF hMnd hFnd hlen' x).symm

/-- A multi-domain state exercising every entry domain, used to
instantiate the plain-dialect round trip. -/
def stW : BrewSt :=
  { emptyBrew with
      brew_input := [str "wget", str "vim"],
      brew_input_opt := [(str "vim", str " --with-lua")],
      tap_input := [str "direct", str "user/repo"],
      cask_input := [str "firefox"],
      appstore_input := [str "409183694 Xcode"],
      main_input := [str "sub.brewfile"],
      file_input := [str "sub.brewfile", str "extra.brewfile"],
      before_input := [str "echo hi"],
      cmd_input := [str "some_random_command --x"],
      after_input := [str "echo bye"] }

/-- C1 witness: the plain-dialect round trip instantiated at a concrete
state with entries in every domain. -/
theorem c1_plain_round_trip_entry_sets_witness :
    ∃ ctx' : RCtx,
      readLines orc0 Form.fnone (writeLines wcfgP orc0 (input_to_list stW)) =
        some ctx' ∧
      (∀ x, x ∈ ctx'.st.brew_input ↔ x ∈ stW.brew_input) ∧
      (∀ x, x ∈ ctx'.st.tap_input ↔ x ∈ stW.tap_input) ∧
      (∀ x, x ∈ ctx'.st.cask_input ↔ x ∈ stW.cask_input) ∧
      (∀ x, x ∈ ctx'.st.appstore_input ↔ x ∈ stW.appstore_input) ∧
      (∀ x, x ∈ ctx'.st.main_input ↔ x ∈ stW.main_input) ∧
      (∀ x, x ∈ ctx'.st.file_input ↔ x ∈ stW.file_input) ∧
      ctx'.st.before_input = stW.before_input ∧
      ctx'.st.cmd_input = stW.cmd_input ∧
      ctx'.st.after_input = stW.after_input :=
  c1_plain_round_trip_entry_sets orc0 stW (by decide) (by decide) (by decide)
    (by decide) (by decide) (by decide) (by decide) (by decide) (by decide)
    (by decide) (by decide) (by decide) (by decide) (by decide) (by decide)

end Brewfile
